import Mathlib

/-! # Balanced-ternary codec and Merkle root reconstruction of iota.go

A shallow embedding of `trinary/trinary.go` and `merkle/signing.go`.

Conventions of the embedding:
* `int8`, `int64`, `uint32`, `uint64` values are integers or naturals, and every
  arithmetic step of the source that can overflow is followed by the matching
  wrap (`wrapInt8`, `wrapInt64`, `% 2 ^ 32`, `% 2 ^ 64`).
* a Go `string` is its sequence of bytes, a byte being a natural number below 256.
* a call either returns normally, returns a Go `error`, or stops with a run-time
  panic; the last two are the two kinds of `Fail`.
* a slice is a list whose capacity equals its length, so a slice expression that
  reaches past the length is a run-time panic.
-/

namespace Iota

/-! ## Failures -/

/-- The sentinel errors of package `consts` that the embedded code returns, the
anonymous errors made with `errors.New`, errors of the sponge, and the run-time
panic. `errors.Wrap` keeps the sentinel as the cause; the message it adds is dropped. -/
inductive Fail where
  | ErrInvalidTrit
  | ErrInvalidTritsLength
  | ErrInvalidTrytes
  | ErrInvalidByte
  | ErrInvalidAuditPathLength
  | ErrInvalidAddress
  | ErrInvalidChecksum
  | errorsNew (msg : String)
  | spongeError (code : Nat)
  | goPanic
deriving DecidableEq, Repr

/-- Result of a call that may return an error or panic. -/
abbrev Res (α : Type) : Type := Except Fail α

/-- Whether a result is a normal return. -/
def Res.isOk {α : Type} : Res α → Bool
  | .ok _ => true
  | .error _ => false

/-! ## Machine integers -/

/-- Two's-complement wrap of an integer to `int8`. -/
def wrapInt8 (x : Int) : Int := (x + 128) % 256 - 128

/-- Two's-complement wrap of an integer to `int64`. -/
def wrapInt64 (x : Int) : Int := (x + 2 ^ 63) % 2 ^ 64 - 2 ^ 63

/-- Conversion of a signed value to `uint` (64 bits). -/
def toUint (x : Int) : Nat := (x % 2 ^ 64).toNat

/-- Conversion `int8(b)` of a byte. -/
def byteToInt8 (b : Nat) : Int := wrapInt8 (b : Int)

/-- Conversion `byte(v)` of an integer. -/
def intToByte (v : Int) : Nat := (v % 256).toNat

/-- The value is representable as an `int8`. -/
def IsInt8 (x : Int) : Prop := -128 ≤ x ∧ x ≤ 127

/-- The value is representable as an `int64`. -/
def IsInt64 (x : Int) : Prop := -2 ^ 63 ≤ x ∧ x < 2 ^ 63

/-- The smallest `int64`. -/
def minInt64 : Int := -2 ^ 63

/-! ## Types and constants -/

/-- Go `type Trits = []int8`. -/
abbrev Trits : Type := List Int

/-- Go `type Trytes = string`, as bytes. -/
abbrev Trytes : Type := List Nat

/-- Go `type Hash = Trytes`. -/
abbrev Hash : Type := Trytes

/-- Modelled from the spec: constant `consts.TrinaryRadix` (package `consts` is not among
the sources); the spec speaks of radix-3 expansion. -/
def TrinaryRadix : Nat := 3

/-- Modelled from the spec: constant `consts.TritsPerTryte`; a tryte holds 3 trits, and
it is the inner dimension of `TryteValueToTritsLUT`. -/
def TritsPerTryte : Nat := 3

/-- Modelled from the spec: constant `consts.TryteRadix`; base 27, the outer dimension of
`TryteValueToTritsLUT`. -/
def TryteRadix : Nat := 27

/-- Modelled from the spec: constant `consts.MinTryteValue`; tryte values lie in [-13, 13]. -/
def MinTryteValue : Int := -13

/-- Modelled from the spec: constant `consts.NumberOfTritsInAByte`; 5 trits are packed
per byte, the inner dimension of `bytesToTritsLUT`. -/
def NumberOfTritsInAByte : Nat := 5

/-- Modelled from the spec: constant `consts.HashTrinarySize`; a hash has 243 trits. -/
def HashTrinarySize : Nat := 243

/-- Table `TryteValueToTritsLUT`. -/
def TryteValueToTritsLUT : List (List Int) := [
  [-1, -1, -1], [0, -1, -1], [1, -1, -1], [-1, 0, -1], [0, 0, -1], [1, 0, -1],
  [-1, 1, -1], [0, 1, -1], [1, 1, -1], [-1, -1, 0], [0, -1, 0], [1, -1, 0],
  [-1, 0, 0], [0, 0, 0], [1, 0, 0], [-1, 1, 0], [0, 1, 0], [1, 1, 0],
  [-1, -1, 1], [0, -1, 1], [1, -1, 1], [-1, 0, 1], [0, 0, 1], [1, 0, 1],
  [-1, 1, 1], [0, 1, 1], [1, 1, 1]]

/-- Table `TryteValueToTyteLUT`: the bytes of `NOPQRSTUVWXYZ9ABCDEFGHIJKLM`. -/
def TryteValueToTyteLUT : List Nat := [
  78, 79, 80, 81, 82, 83, 84, 85, 86, 87, 88, 89, 90,
  57, 65, 66, 67, 68, 69, 70, 71, 72, 73, 74, 75, 76, 77]

/-- Table `TryteToTryteValueLUT`, indexed by the byte minus the byte of `9`. -/
def TryteToTryteValueLUT : List Int := [
  0, 0, 0, 0, 0, 0, 0, 0, 1, 2, 3, 4, 5, 6, 7, 8, 9, 10, 11, 12, 13,
  -13, -12, -11, -10, -9, -8, -7, -6, -5, -4, -3, -2, -1]

/-- Rows 0 to 31 of table `bytesToTritsLUT`. -/
def bytesToTritsLUT.rows0 : List (List Int) := [
  [0, 0, 0, 0, 0], [1, 0, 0, 0, 0], [-1, 1, 0, 0, 0], [0, 1, 0, 0, 0], [1, 1, 0, 0, 0], [-1, -1, 1, 0, 0], [0, -1, 1, 0, 0], [1, -1, 1, 0, 0],
  [-1, 0, 1, 0, 0], [0, 0, 1, 0, 0], [1, 0, 1, 0, 0], [-1, 1, 1, 0, 0], [0, 1, 1, 0, 0], [1, 1, 1, 0, 0], [-1, -1, -1, 1, 0], [0, -1, -1, 1, 0],
  [1, -1, -1, 1, 0], [-1, 0, -1, 1, 0], [0, 0, -1, 1, 0], [1, 0, -1, 1, 0], [-1, 1, -1, 1, 0], [0, 1, -1, 1, 0], [1, 1, -1, 1, 0], [-1, -1, 0, 1, 0],
  [0, -1, 0, 1, 0], [1, -1, 0, 1, 0], [-1, 0, 0, 1, 0], [0, 0, 0, 1, 0], [1, 0, 0, 1, 0], [-1, 1, 0, 1, 0], [0, 1, 0, 1, 0], [1, 1, 0, 1, 0]]

/-- Rows 32 to 63 of table `bytesToTritsLUT`. -/
def bytesToTritsLUT.rows1 : List (List Int) := [
  [-1, -1, 1, 1, 0], [0, -1, 1, 1, 0], [1, -1, 1, 1, 0], [-1, 0, 1, 1, 0], [0, 0, 1, 1, 0], [1, 0, 1, 1, 0], [-1, 1, 1, 1, 0], [0, 1, 1, 1, 0],
  [1, 1, 1, 1, 0], [-1, -1, -1, -1, 1], [0, -1, -1, -1, 1], [1, -1, -1, -1, 1], [-1, 0, -1, -1, 1], [0, 0, -1, -1, 1], [1, 0, -1, -1, 1], [-1, 1, -1, -1, 1],
  [0, 1, -1, -1, 1], [1, 1, -1, -1, 1], [-1, -1, 0, -1, 1], [0, -1, 0, -1, 1], [1, -1, 0, -1, 1], [-1, 0, 0, -1, 1], [0, 0, 0, -1, 1], [1, 0, 0, -1, 1],
  [-1, 1, 0, -1, 1], [0, 1, 0, -1, 1], [1, 1, 0, -1, 1], [-1, -1, 1, -1, 1], [0, -1, 1, -1, 1], [1, -1, 1, -1, 1], [-1, 0, 1, -1, 1], [0, 0, 1, -1, 1]]

/-- Rows 64 to 95 of table `bytesToTritsLUT`. -/
def bytesToTritsLUT.rows2 : List (List Int) := [
  [1, 0, 1, -1, 1], [-1, 1, 1, -1, 1], [0, 1, 1, -1, 1], [1, 1, 1, -1, 1], [-1, -1, -1, 0, 1], [0, -1, -1, 0, 1], [1, -1, -1, 0, 1], [-1, 0, -1, 0, 1],
  [0, 0, -1, 0, 1], [1, 0, -1, 0, 1], [-1, 1, -1, 0, 1], [0, 1, -1, 0, 1], [1, 1, -1, 0, 1], [-1, -1, 0, 0, 1], [0, -1, 0, 0, 1], [1, -1, 0, 0, 1],
  [-1, 0, 0, 0, 1], [0, 0, 0, 0, 1], [1, 0, 0, 0, 1], [-1, 1, 0, 0, 1], [0, 1, 0, 0, 1], [1, 1, 0, 0, 1], [-1, -1, 1, 0, 1], [0, -1, 1, 0, 1],
  [1, -1, 1, 0, 1], [-1, 0, 1, 0, 1], [0, 0, 1, 0, 1], [1, 0, 1, 0, 1], [-1, 1, 1, 0, 1], [0, 1, 1, 0, 1], [1, 1, 1, 0, 1], [-1, -1, -1, 1, 1]]

/-- Rows 96 to 127 of table `bytesToTritsLUT`. -/
def bytesToTritsLUT.rows3 : List (List Int) := [
  [0, -1, -1, 1, 1], [1, -1, -1, 1, 1], [-1, 0, -1, 1, 1], [0, 0, -1, 1, 1], [1, 0, -1, 1, 1], [-1, 1, -1, 1, 1], [0, 1, -1, 1, 1], [1, 1, -1, 1, 1],
  [-1, -1, 0, 1, 1], [0, -1, 0, 1, 1], [1, -1, 0, 1, 1], [-1, 0, 0, 1, 1], [0, 0, 0, 1, 1], [1, 0, 0, 1, 1], [-1, 1, 0, 1, 1], [0, 1, 0, 1, 1],
  [1, 1, 0, 1, 1], [-1, -1, 1, 1, 1], [0, -1, 1, 1, 1], [1, -1, 1, 1, 1], [-1, 0, 1, 1, 1], [0, 0, 1, 1, 1], [1, 0, 1, 1, 1], [-1, 1, 1, 1, 1],
  [0, 1, 1, 1, 1], [1, 1, 1, 1, 1], [0, 0, 0, 0, 0], [0, 0, 0, 0, 0], [0, 0, 0, 0, 0], [0, 0, 0, 0, 0], [0, 0, 0, 0, 0], [0, 0, 0, 0, 0]]

/-- Rows 128 to 159 of table `bytesToTritsLUT`. -/
def bytesToTritsLUT.rows4 : List (List Int) := [
  [0, 0, 0, 0, 0], [0, 0, 0, 0, 0], [0, 0, 0, 0, 0], [0, 0, 0, 0, 0], [0, 0, 0, 0, 0], [0, 0, 0, 0, 0], [0, 0, 0, 0, 0], [-1, -1, -1, -1, -1],
  [0, -1, -1, -1, -1], [1, -1, -1, -1, -1], [-1, 0, -1, -1, -1], [0, 0, -1, -1, -1], [1, 0, -1, -1, -1], [-1, 1, -1, -1, -1], [0, 1, -1, -1, -1], [1, 1, -1, -1, -1],
  [-1, -1, 0, -1, -1], [0, -1, 0, -1, -1], [1, -1, 0, -1, -1], [-1, 0, 0, -1, -1], [0, 0, 0, -1, -1], [1, 0, 0, -1, -1], [-1, 1, 0, -1, -1], [0, 1, 0, -1, -1],
  [1, 1, 0, -1, -1], [-1, -1, 1, -1, -1], [0, -1, 1, -1, -1], [1, -1, 1, -1, -1], [-1, 0, 1, -1, -1], [0, 0, 1, -1, -1], [1, 0, 1, -1, -1], [-1, 1, 1, -1, -1]]

/-- Rows 160 to 191 of table `bytesToTritsLUT`. -/
def bytesToTritsLUT.rows5 : List (List Int) := [
  [0, 1, 1, -1, -1], [1, 1, 1, -1, -1], [-1, -1, -1, 0, -1], [0, -1, -1, 0, -1], [1, -1, -1, 0, -1], [-1, 0, -1, 0, -1], [0, 0, -1, 0, -1], [1, 0, -1, 0, -1],
  [-1, 1, -1, 0, -1], [0, 1, -1, 0, -1], [1, 1, -1, 0, -1], [-1, -1, 0, 0, -1], [0, -1, 0, 0, -1], [1, -1, 0, 0, -1], [-1, 0, 0, 0, -1], [0, 0, 0, 0, -1],
  [1, 0, 0, 0, -1], [-1, 1, 0, 0, -1], [0, 1, 0, 0, -1], [1, 1, 0, 0, -1], [-1, -1, 1, 0, -1], [0, -1, 1, 0, -1], [1, -1, 1, 0, -1], [-1, 0, 1, 0, -1],
  [0, 0, 1, 0, -1], [1, 0, 1, 0, -1], [-1, 1, 1, 0, -1], [0, 1, 1, 0, -1], [1, 1, 1, 0, -1], [-1, -1, -1, 1, -1], [0, -1, -1, 1, -1], [1, -1, -1, 1, -1]]

/-- Rows 192 to 223 of table `bytesToTritsLUT`. -/
def bytesToTritsLUT.rows6 : List (List Int) := [
  [-1, 0, -1, 1, -1], [0, 0, -1, 1, -1], [1, 0, -1, 1, -1], [-1, 1, -1, 1, -1], [0, 1, -1, 1, -1], [1, 1, -1, 1, -1], [-1, -1, 0, 1, -1], [0, -1, 0, 1, -1],
  [1, -1, 0, 1, -1], [-1, 0, 0, 1, -1], [0, 0, 0, 1, -1], [1, 0, 0, 1, -1], [-1, 1, 0, 1, -1], [0, 1, 0, 1, -1], [1, 1, 0, 1, -1], [-1, -1, 1, 1, -1],
  [0, -1, 1, 1, -1], [1, -1, 1, 1, -1], [-1, 0, 1, 1, -1], [0, 0, 1, 1, -1], [1, 0, 1, 1, -1], [-1, 1, 1, 1, -1], [0, 1, 1, 1, -1], [1, 1, 1, 1, -1],
  [-1, -1, -1, -1, 0], [0, -1, -1, -1, 0], [1, -1, -1, -1, 0], [-1, 0, -1, -1, 0], [0, 0, -1, -1, 0], [1, 0, -1, -1, 0], [-1, 1, -1, -1, 0], [0, 1, -1, -1, 0]]

/-- Rows 224 to 255 of table `bytesToTritsLUT`. -/
def bytesToTritsLUT.rows7 : List (List Int) := [
  [1, 1, -1, -1, 0], [-1, -1, 0, -1, 0], [0, -1, 0, -1, 0], [1, -1, 0, -1, 0], [-1, 0, 0, -1, 0], [0, 0, 0, -1, 0], [1, 0, 0, -1, 0], [-1, 1, 0, -1, 0],
  [0, 1, 0, -1, 0], [1, 1, 0, -1, 0], [-1, -1, 1, -1, 0], [0, -1, 1, -1, 0], [1, -1, 1, -1, 0], [-1, 0, 1, -1, 0], [0, 0, 1, -1, 0], [1, 0, 1, -1, 0],
  [-1, 1, 1, -1, 0], [0, 1, 1, -1, 0], [1, 1, 1, -1, 0], [-1, -1, -1, 0, 0], [0, -1, -1, 0, 0], [1, -1, -1, 0, 0], [-1, 0, -1, 0, 0], [0, 0, -1, 0, 0],
  [1, 0, -1, 0, 0], [-1, 1, -1, 0, 0], [0, 1, -1, 0, 0], [1, 1, -1, 0, 0], [-1, -1, 0, 0, 0], [0, -1, 0, 0, 0], [1, -1, 0, 0, 0], [-1, 0, 0, 0, 0]]

/-- Table `bytesToTritsLUT`: unpacks a byte into 5 trits. -/
def bytesToTritsLUT : List (List Int) :=
  bytesToTritsLUT.rows0 ++ bytesToTritsLUT.rows1 ++ bytesToTritsLUT.rows2 ++ bytesToTritsLUT.rows3 ++ bytesToTritsLUT.rows4 ++ bytesToTritsLUT.rows5 ++ bytesToTritsLUT.rows6 ++ bytesToTritsLUT.rows7

/-- Table `Pow27LUT`, with the entries as the source writes them. -/
def Pow27LUT : List Int := [1,
  27,
  729,
  19683,
  531441,
  14348907,
  387420489,
  10460353203,
  282429536481,
  7625597484987,
  205891132094649,
  5559060566555523,
  150094635296999136,
  4052555153018976256]

/-- Variable `encodedZero`. -/
def encodedZero : Trits := [1, 0, 0, -1]

/-- Go slice expression `s[lo:hi]`; a panic unless `lo ≤ hi ≤ len(s)`. -/
def slice {α : Type} (s : List α) (lo hi : Nat) : Res (List α) :=
  if lo ≤ hi ∧ hi ≤ s.length then .ok ((s.drop lo).take (hi - lo)) else .error .goPanic

/-- Go builtin `copy(dst, src)`: the destination after the copy of
`min(len(dst), len(src))` elements. -/
def copyInto {α : Type} (dst src : List α) : List α :=
  src.take dst.length ++ dst.drop src.length

/-! ## Validity of trits and trytes -/

/-- Function `ValidTrit`. -/
def ValidTrit (t : Int) : Bool := decide (t ≥ -1) && decide (t ≤ 1)

/-- Function `ValidTrits`: `none` is the `nil` error. -/
def ValidTrits (trits : Trits) : Option Fail :=
  if trits.length = 0 then some .ErrInvalidTrit
  else if trits.all ValidTrit then none else some .ErrInvalidTrit

/-- Function `TritsEqual`. -/
def TritsEqual (a b : Trits) : Res Bool :=
  match ValidTrits a with
  | some e => .error e
  | none =>
    match ValidTrits b with
    | some e => .error e
    | none => if a.length ≠ b.length then .ok false else .ok (decide (a = b))

/-- Function `validTryte`, on a rune. -/
def validTryte (t : Nat) : Bool := (decide (t ≥ 65) && decide (t ≤ 90)) || decide (t = 57)

/-- Function `ValidTrytes`. The source ranges over the runes of the string; a rune
decoded from a position holding a byte of 128 or more is itself 128 or more (or the
replacement rune), hence invalid exactly as that byte is, so the bytes are tested. -/
def ValidTrytes (trytes : Trytes) : Option Fail :=
  if trytes = [] then some .ErrInvalidTrytes
  else if trytes.all validTryte then none else some .ErrInvalidTrytes

/-- Function `roundUpToTryteMultiple`. -/
def roundUpToTryteMultiple (n : Nat) : Nat :=
  let rem := n % TritsPerTryte
  if rem = 0 then n else n + TritsPerTryte - rem

/-! ## Integers and trits -/

/-- Modelled from the spec: function `AbsInt64` of package `math`, whose source is absent
(only its test is present). It returns the absolute value; `MinTrits` compares the
result with a `uint64`, so the result is unsigned and the smallest `int64` maps to `2 ^ 63`. -/
def AbsInt64 (v : Int) : Nat := v.natAbs

/-- The loop `for valueAbs > vp` of `MinTrits`; `fuel` bounds the trip count. -/
def MinTrits.loop (valueAbs : Nat) : Nat → Nat → Nat → Nat
  | 0, _, num => num
  | fuel + 1, vp, num =>
    if valueAbs > vp then MinTrits.loop valueAbs fuel ((vp * TrinaryRadix + 1) % 2 ^ 64) (num + 1)
    else num

/-- Function `MinTrits`. The loop runs at most 41 times on a 64-bit value. -/
def MinTrits (value : Int) : Nat :=
  let valueAbs := AbsInt64 value
  if valueAbs ≥ 308836698141973 then MinTrits.loop valueAbs 64 308836698141973 31
  else if valueAbs ≥ 5230176601 then MinTrits.loop valueAbs 64 5230176601 21
  else if valueAbs ≥ 88573 then MinTrits.loop valueAbs 64 88573 11
  else MinTrits.loop valueAbs 64 1 1

/-- Function `TritsToInt`: the loop runs from the last trit down to the first, so the
value of a sequence is three times the value of its tail plus its head. -/
def TritsToInt : Trits → Int
  | [] => 0
  | x :: rest => wrapInt64 (TritsToInt rest * (TrinaryRadix : Int) + x)

/-- Function `MustTryteValueToTryte`. -/
def MustTryteValueToTryte (v : Int) : Res Nat :=
  let idx := toUint (wrapInt8 (v - MinTryteValue))
  if idx ≥ TryteValueToTyteLUT.length then .error .goPanic
  else .ok (TryteValueToTyteLUT.getD idx 0)

/-- Function `MustTryteToTryteValue`. -/
def MustTryteToTryteValue (t : Nat) : Res Int :=
  let idx := (t + 256 - 57) % 256
  if idx ≥ TryteToTryteValueLUT.length then .error .goPanic
  else .ok (TryteToTryteValueLUT.getD idx 0)

/-- Function `MustPutTryteTrits`: the three trits written to the destination. -/
def MustPutTryteTrits (v : Int) : Res Trits :=
  let idx := wrapInt8 (v - MinTryteValue)
  if idx < 0 ∨ idx ≥ (TryteValueToTritsLUT.length : Int) then .error .goPanic
  else .ok (TryteValueToTritsLUT.getD idx.toNat [])

/-- The loop of `IntToTrytes`: `n` characters remain to be written. -/
def IntToTrytes.loop (negative : Bool) : Nat → Nat → Res Trytes
  | 0, _ => .ok []
  | n + 1, v =>
    if v = 0 then do
      let rest ← IntToTrytes.loop negative n v
      pure (57 :: rest)
    else do
      let v1 := (v + TryteRadix / 2) % 2 ^ 64
      let tryte := wrapInt8 (wrapInt8 ((v1 % TryteRadix : Nat) : Int) - ((TryteRadix / 2 : Nat) : Int))
      let v2 := v1 / TryteRadix
      let tryte := if negative then wrapInt8 (-tryte) else tryte
      let c ← MustTryteValueToTryte tryte
      let rest ← IntToTrytes.loop negative n v2
      pure (c :: rest)

/-- Function `IntToTrytes`. -/
def IntToTrytes (value : Int) (trytesCnt : Nat) : Res Trytes :=
  IntToTrytes.loop (decide (value < 0)) trytesCnt (AbsInt64 value)

/-- Function `MustTrytesToTrits`. -/
def MustTrytesToTrits : Trytes → Res Trits
  | [] => .ok []
  | c :: rest => do
    let v ← MustTryteToTryteValue c
    let g ← MustPutTryteTrits v
    let r ← MustTrytesToTrits rest
    pure (g ++ r)

/-- Function `IntToTrits`. -/
def IntToTrits (value : Int) : Res Trits := do
  let numTrits := MinTrits value
  let numTrytes := (numTrits + TritsPerTryte - 1) / TritsPerTryte
  let trytes ← IntToTrytes value numTrytes
  let trits ← MustTrytesToTrits trytes
  slice trits 0 numTrits

/-- Function `CanTritsToTrytes`. -/
def CanTritsToTrytes (trits : Trits) : Bool :=
  if trits.length = 0 then false else decide (trits.length % TritsPerTryte = 0)

/-- Function `MustTritsToTrytes`: one character per complete group of three trits. -/
def MustTritsToTrytes : Trits → Res Trytes
  | t0 :: t1 :: t2 :: rest => do
    let v := wrapInt8 (t0 + t1 * 3 + t2 * 9)
    let c ← MustTryteValueToTryte v
    let r ← MustTritsToTrytes rest
    pure (c :: r)
  | _ => .ok []

/-- Function `TritsToTrytes`. -/
def TritsToTrytes (trits : Trits) : Res Trytes :=
  match ValidTrits trits with
  | some e => .error e
  | none =>
    if !CanTritsToTrytes trits then .error .ErrInvalidTritsLength
    else MustTritsToTrytes trits

/-- Function `TrytesToTrits`. -/
def TrytesToTrits (trytes : Trytes) : Res Trits :=
  match ValidTrytes trytes with
  | some e => .error e
  | none => MustTrytesToTrits trytes

/-! ## Bytes and trits -/

/-- Value of a final group of fewer than five trits in `MustTritsToBytes`. -/
def MustTritsToBytes.shortValue : Trits → Int
  | [] => 0
  | x :: rest => MustTritsToBytes.shortValue rest * (TrinaryRadix : Int) + x

/-- Function `MustTritsToBytes`: one byte per group of five trits, the last group
possibly shorter. The order in which the source fills the bytes does not show. -/
def MustTritsToBytes : Trits → List Nat
  | [] => []
  | t0 :: t1 :: t2 :: t3 :: t4 :: rest =>
    intToByte (t0 + t1 * 3 + t2 * 9 + t3 * 27 + t4 * 81) :: MustTritsToBytes rest
  | t0 :: rest => [intToByte (MustTritsToBytes.shortValue (t0 :: rest))]

/-- Function `TritsToBytes`. -/
def TritsToBytes (trits : Trits) : Res (List Nat) :=
  match ValidTrits trits with
  | some e => .error e
  | none => .ok (MustTritsToBytes trits)

/-- Function `ValidBytesForTrits`. -/
def ValidBytesForTrits : List Nat → Option Fail
  | [] => none
  | b :: rest =>
    let c := byteToInt8 b
    if c > 121 ∨ c < -121 then some .ErrInvalidByte else ValidBytesForTrits rest

/-- Assignment to the first elements of the sub-slice `dst[k:]`. -/
def writeAt {α : Type} (dst : List α) (k : Nat) (src : List α) : List α :=
  dst.take k ++ copyInto (dst.drop k) src

/-- The loop of `MustBytesToTrits`: byte `i` is unpacked into `trits[5 * i:]`. -/
def MustBytesToTrits.loop : List Nat → Nat → Trits → Res Trits
  | [], _, trits => .ok trits
  | b :: rest, i, trits =>
    if i * NumberOfTritsInAByte + 4 < trits.length then
      MustBytesToTrits.loop rest (i + 1)
        (writeAt trits (i * NumberOfTritsInAByte) (bytesToTritsLUT.getD b []))
    else .error .goPanic

/-- Function `MustBytesToTrits`; `numTrits` is the optional variadic argument. -/
def MustBytesToTrits (bytes : List Nat) (numTrits : Option Int) : Res Trits :=
  let tritsLength0 : Int := ((bytes.length * NumberOfTritsInAByte : Nat) : Int)
  match numTrits with
  | none => do
    let trits ← MustBytesToTrits.loop bytes 0 (List.replicate tritsLength0.toNat 0)
    slice trits 0 tritsLength0.toNat
  | some resultLength =>
    if resultLength < tritsLength0 then
      let bytesLength := Int.tdiv (resultLength + (NumberOfTritsInAByte : Int) - 1) (NumberOfTritsInAByte : Int)
      let tritsLength := bytesLength * (NumberOfTritsInAByte : Int)
      if bytesLength < 0 then .error .goPanic
      else do
        let bytes1 ← slice bytes 0 bytesLength.toNat
        let trits ← MustBytesToTrits.loop bytes1 0 (List.replicate tritsLength.toNat 0)
        if resultLength < 0 then .error .goPanic else slice trits 0 resultLength.toNat
    else do
      let trits ← MustBytesToTrits.loop bytes 0 (List.replicate resultLength.toNat 0)
      slice trits 0 resultLength.toNat

/-- Function `BytesToTrits`; `numTrits` is the optional variadic argument. -/
def BytesToTrits (bytes : List Nat) (numTrits : Option Int) : Res Trits :=
  match ValidBytesForTrits bytes with
  | some e => .error e
  | none =>
    match numTrits with
    | some tritsLength =>
      let minTritLength : Int := ((bytes.length : Int) - 1) * (NumberOfTritsInAByte : Int) + 1
      if tritsLength < minTritLength then .error .ErrInvalidTritsLength
      else MustBytesToTrits bytes numTrits
    | none => MustBytesToTrits bytes numTrits

/-! ## Self-describing encoding of an int64 -/

/-- The `int64` expression `(1 << s) - 1`. -/
def maskInt64 (s : Nat) : Int := wrapInt64 (wrapInt64 (2 ^ s) - 1)

/-- Function `EncodedLength`. -/
def EncodedLength (value : Int) : Nat :=
  if value = 0 then encodedZero.length
  else
    let length := roundUpToTryteMultiple (MinTrits value)
    (length + MinTrits (maskInt64 (length / TrinaryRadix))) % 2 ^ 64

/-- Bitwise or of two `int64` values, computed on their two's-complement bit patterns. -/
def orInt64 (x y : Int) : Int :=
  wrapInt64 (((x % 2 ^ 64).toNat ||| (y % 2 ^ 64).toNat : Nat) : Int)

/-- Negation in place of the trits `t[i], ..., t[i + n - 1]`. -/
def negateAt (t : Trits) (i n : Nat) : Trits :=
  writeAt t i (((t.drop i).take n).map (fun x => wrapInt8 (-x)))

/-- The first loop of `EncodeInt64` over all tryte groups but the last; `fuel` bounds the
trip count. Returns the trits, the encoding bits and the index. -/
def EncodeInt64.loop (length : Nat) : Nat → Nat → Trits → Int → Nat → Res (Trits × Int × Nat)
  | 0, _, t, encoding, index => .ok (t, encoding, index)
  | fuel + 1, i, t, encoding, index =>
    if (i : Int) < (length : Int) - (TrinaryRadix : Int) then do
      let g ← slice t i (i + TrinaryRadix)
      if TritsToInt g ≥ 0 then
        EncodeInt64.loop length fuel (i + TrinaryRadix) (negateAt t i TrinaryRadix)
          (orInt64 encoding (wrapInt64 (2 ^ index))) (index + 1)
      else EncodeInt64.loop length fuel (i + TrinaryRadix) t encoding (index + 1)
    else .ok (t, encoding, index)

/-- Function `EncodeInt64`: the trits and the size; the returned error is always `nil`. -/
def EncodeInt64 (value : Int) : Res (Trits × Nat) :=
  let size := EncodedLength value
  if value = 0 then .ok (encodedZero, size)
  else do
    let length := roundUpToTryteMultiple (MinTrits value)
    let digits ← IntToTrits value
    let t := copyInto (List.replicate size (0 : Int)) digits
    let (t, encoding, index) ← EncodeInt64.loop length length 0 t 0 0
    if length < TrinaryRadix then .error .goPanic
    else do
      let last ← slice t (length - TrinaryRadix) length
      let (t, encoding) :=
        if TritsToInt last ≤ 0 then
          (negateAt t (length - TrinaryRadix) TrinaryRadix, orInt64 encoding (wrapInt64 (2 ^ index)))
        else (t, encoding)
      let encTrits ← IntToTrits encoding
      if length > t.length then .error .goPanic
      else .ok (writeAt t length encTrits, size)

/-- The scan of `DecodeInt64` for the first tryte group with a positive value; `fuel`
bounds the trip count. -/
def DecodeInt64.scan (t : Trits) : Nat → Nat → Res Nat
  | 0, encodingStart => .ok encodingStart
  | fuel + 1, encodingStart =>
    if encodingStart < t.length then do
      let g ← slice t encodingStart (encodingStart + TrinaryRadix)
      if TritsToInt g ≤ 0 then DecodeInt64.scan t fuel (encodingStart + TrinaryRadix)
      else .ok encodingStart
    else .ok encodingStart

/-- The summation loop of `DecodeInt64`: `n` groups remain, `i` is the current group. -/
def DecodeInt64.sum (t : Trits) (encoding : Int) : Nat → Nat → Int → Res Int
  | 0, _, value => .ok value
  | n + 1, i, value => do
    let g ← slice t (i * TrinaryRadix) (i * TrinaryRadix + TrinaryRadix)
    let tryteValue := TritsToInt g
    let tryteValue := if (encoding >>> i) % 2 = 1 then wrapInt64 (-tryteValue) else tryteValue
    if i ≥ Pow27LUT.length then .error .goPanic
    else DecodeInt64.sum t encoding n (i + 1) (wrapInt64 (value + wrapInt64 (Pow27LUT.getD i 0 * tryteValue)))

/-- Function `DecodeInt64`: the value and the number of trits consumed. -/
def DecodeInt64 (t : Trits) : Res (Int × Nat) := do
  let numTrits := t.length
  let head ← slice t 0 4
  let equal ← TritsEqual head encodedZero
  if equal then .ok (0, EncodedLength 0)
  else do
    let encodingStart ← DecodeInt64.scan t (numTrits + 1) 0
    if encodingStart ≥ numTrits then .error (.errorsNew "encodingStart > numTrits")
    else do
      let encodingStart := encodingStart + TrinaryRadix
      let encodingLength := MinTrits (maskInt64 (encodingStart / TrinaryRadix))
      let encTrits ← slice t encodingStart (encodingStart + encodingLength)
      let encoding := TritsToInt encTrits
      if encodingStart / TrinaryRadix > 13 then .error (.errorsNew "encodingStart/TrinaryRadix > 13")
      else do
        let value ← DecodeInt64.sum t encoding (encodingStart / TrinaryRadix) 0 0
        .ok (value, encodingStart + encodingLength)

/-! ## Addition of trits -/

/-- Function `Sum`. -/
def Sum (a b : Int) : Int :=
  let s := wrapInt8 (a + b)
  if s = 2 then -1 else if s = -2 then 1 else s

/-- Function `cons`. -/
def cons (a b : Int) : Int := if a = b then a else 0

/-- Function `any`. -/
def any (a b : Int) : Int :=
  let s := wrapInt8 (a + b)
  if s > 0 then 1 else if s < 0 then -1 else 0

/-- Function `fullAdd`: the pair of the sum trit and the carry. -/
def fullAdd (a b c : Int) : Int × Int :=
  let sA := Sum a b
  let cA := cons a b
  let cB := cons sA c
  let cOut := any cA cB
  let sOut := Sum sA c
  (sOut, cOut)

/-- The loop of `AddTrits`: `n` positions remain, `i` is the current one; returns the
trits written from position `i` on. -/
def AddTrits.loop (a b : Trits) : Nat → Nat → Int → Trits
  | 0, _, _ => []
  | n + 1, i, carry =>
    let aI := if i < a.length then a.getD i 0 else 0
    let bI := if i < b.length then b.getD i 0 else 0
    let fA := fullAdd aI bI carry
    fA.1 :: AddTrits.loop a b n (i + 1) fA.2

/-- Function `AddTrits`. The source takes the larger length through `math.Max` on
floats, which is exact for lengths below `2 ^ 53`. -/
def AddTrits (a b : Trits) : Trits :=
  let maxLen := max a.length b.length
  if maxLen = 0 then [0] else AddTrits.loop a b maxLen 0 0

/-! ## Merkle root -/

/-- Modelled from the spec: interface `SpongeFunction` of package `signing/utils`, whose
source is absent. A sponge is a state with `absorb`, `squeeze` and `reset`; absorbing may
fail, and every operation may change the state. -/
structure SpongeFunction (σ : Type) where
  /-- Method `AbsorbTrytes`: the state after the call, and the error if any. -/
  AbsorbTrytes : σ → Trytes → σ × Option Fail
  /-- Method `MustSqueezeTrytes`: the squeezed trytes and the state after the call. -/
  MustSqueezeTrytes : σ → Nat → Trytes × σ
  /-- Method `Reset`. -/
  Reset : σ → σ

/-- Function `bits.Len32` of the Go library: the least number of bits that represent
`x`, which is the number of powers of two up to `2 ^ 31` that do not exceed `x`. -/
def Len32 (x : Nat) : Nat := ((List.range 32).filter (fun n => decide (2 ^ n ≤ x))).length

/-- The loop of `MerkleRoot` over the audit path; returns the pair of results of
`MerkleRoot` and the state of the sponge when the loop is left. -/
def MerkleRoot.loop {σ : Type} (h : SpongeFunction σ) (leafIndex : Nat) :
    List Hash → Nat → Hash → σ → (Hash × Option Fail) × σ
  | [], _, hash, s => ((hash, none), s)
  | sibling :: rest, j, hash, s =>
    if leafIndex &&& j ≠ 0 then
      match h.AbsorbTrytes s sibling with
      | (s1, some err) => (([], some err), s1)
      | (s1, none) =>
        match h.AbsorbTrytes s1 hash with
        | (s2, some err) => (([], some err), s2)
        | (s2, none) =>
          let (hash1, s3) := h.MustSqueezeTrytes s2 HashTrinarySize
          MerkleRoot.loop h leafIndex rest ((j * 2) % 2 ^ 32) hash1 (h.Reset s3)
    else
      match h.AbsorbTrytes s hash with
      | (s1, some err) => (([], some err), s1)
      | (s1, none) =>
        match h.AbsorbTrytes s1 sibling with
        | (s2, some err) => (([], some err), s2)
        | (s2, none) =>
          let (hash1, s3) := h.MustSqueezeTrytes s2 HashTrinarySize
          MerkleRoot.loop h leafIndex rest ((j * 2) % 2 ^ 32) hash1 (h.Reset s3)

/-- Function `MerkleRoot`, with the sponge `h` in state `s` that `GetSpongeFunc` hands
out. Returns the hash, the error (`none` for `nil`) and the state in which the sponge is
left; the deferred `Reset` runs on every return that follows the length checks. -/
def MerkleRoot {σ : Type} (h : SpongeFunction σ) (s : σ) (leafHash : Hash) (leafIndex : Nat)
    (auditPath : List Hash) : (Hash × Option Fail) × σ :=
  if auditPath.length > 32 then (([], some .ErrInvalidAuditPathLength), s)
  else if Len32 leafIndex > auditPath.length then (([], some .ErrInvalidAuditPathLength), s)
  else
    let (r, s1) := MerkleRoot.loop h leafIndex auditPath 1 leafHash s
    (r, h.Reset s1)

/-! ## Auxiliary definitions for the statements and proofs -/

/-- The largest absolute value that `n` balanced trits represent. -/
def maxAbs (n : Nat) : Nat := (3 ^ n - 1) / 2

/-- Every element is a trit. -/
def AllTrits (t : Trits) : Prop := ∀ x ∈ t, -1 ≤ x ∧ x ≤ 1

/-- The integer that a sequence of trits denotes, least significant trit first. -/
def tritsVal : Trits → Int
  | [] => 0
  | x :: rest => tritsVal rest * 3 + x

/-- The adder of `AddTrits` on the remaining suffixes of the operands: the trits written
and the carry left after `n` positions. -/
def addSuffix : Trits → Trits → Nat → Int → Trits × Int
  | _, _, 0, carry => ([], carry)
  | a, b, n + 1, carry =>
    let fA := fullAdd (a.headD 0) (b.headD 0) carry
    let r := addSuffix a.tail b.tail n fA.2
    (fA.1 :: r.1, r.2)

/-- The rows of `bytesToTritsLUT` for a sequence of bytes, one after another. -/
def unpackAll : List Nat → Trits
  | [] => []
  | b :: rest => bytesToTritsLUT.getD b [] ++ unpackAll rest

/-- The hash of two children: the 243 trits squeezed after absorbing `l` and then `r`
into the sponge in its reset state `s0`. It is the hash of the pair whenever both
absorbs succeed. -/
def nodeHash {σ : Type} (h : SpongeFunction σ) (s0 : σ) (l r : Hash) : Hash :=
  (h.MustSqueezeTrytes (h.AbsorbTrytes (h.AbsorbTrytes s0 l).1 r).1 HashTrinarySize).1

/-- The running hash of the reconstruction as the spec words it: `h_0` is the leaf hash,
and `h_(k+1)` hashes the sibling `auditPath[k]` before `h_k` when bit `k` of the leaf
index is set, and after it otherwise. -/
def runningHash {σ : Type} (h : SpongeFunction σ) (s0 : σ) (leafHash : Hash) (leafIndex : Nat)
    (auditPath : List Hash) : Nat → Hash
  | 0 => leafHash
  | k + 1 =>
    if leafIndex.testBit k then
      nodeHash h s0 (auditPath.getD k []) (runningHash h s0 leafHash leafIndex auditPath k)
    else nodeHash h s0 (runningHash h s0 leafHash leafIndex auditPath k) (auditPath.getD k [])

/-- The audit path of leaf `i` in a tree of depth `d` given by its layers: for each level
from the leaf to the root, the sibling of the node on the path of the leaf. -/
def auditPathOf (layers : Nat → Nat → Hash) (d i : Nat) : List Hash :=
  (List.range d).map (fun k => layers (d - k) ((i >>> k) ^^^ 1))

/-- A sponge for examples: the state is the list of bytes absorbed so far, absorbing never
fails, and squeezing returns the bytes absorbed. -/
def concatSponge : SpongeFunction (List Nat) where
  AbsorbTrytes := fun s x => (s ++ x, none)
  MustSqueezeTrytes := fun s _ => (s, s)
  Reset := fun _ => []

/-- A tree of depth 1 over `concatSponge`: leaves `A` and `B`, root `AB`. -/
def exampleLayers : Nat → Nat → Hash := fun k p =>
  if k = 0 then [65, 66] else if p = 0 then [65] else [66]

/-- The balanced base-27 digits of `v` (negated when `negative`), least significant
first, as the loop of `IntToTrytes` produces them before mapping them to characters. -/
def digits27 (negative : Bool) : Nat → Nat → List Int
  | 0, _ => []
  | n + 1, v =>
    let d : Int := (((v + 13) % 27 : Nat) : Int) - 13
    (if negative then -d else d) :: digits27 negative n ((v + 13) / 27)

/-- Every element is a tryte value. -/
def AllDigits (ds : List Int) : Prop := ∀ d ∈ ds, -13 ≤ d ∧ d ≤ 13

/-- The three trits of a tryte value, by `TryteValueToTritsLUT`. -/
def tritsOfDigit (d : Int) : Trits := TryteValueToTritsLUT.getD (d + 13).toNat []

/-- The trits of a sequence of tryte values. -/
def tritsOfDigits : List Int → Trits
  | [] => []
  | d :: rest => tritsOfDigit d ++ tritsOfDigits rest

/-- The integer that a sequence of tryte values denotes, least significant first. -/
def tryteVal : List Int → Int
  | [] => 0
  | d :: rest => d + 27 * tryteVal rest

/-- The natural number that a sequence of bits denotes, least significant first. -/
def bitsVal : List Bool → Nat
  | [] => 0
  | b :: rest => (if b then 1 else 0) + 2 * bitsVal rest

/-- What the first loop of `EncodeInt64` makes of a tryte group that is not the last:
a group of value `d ≥ 0` is negated. -/
def flipLow (d : Int) : Int := if 0 ≤ d then -d else d

/-- What `EncodeInt64` makes of the last tryte group: a group of value `d ≤ 0` is negated. -/
def flipLast (d : Int) : Int := if d ≤ 0 then -d else d

/-- The tryte value that `DecodeInt64` recovers from an encoded group `e` and its bit
in the encoding. -/
def unflip (e : Int) (bit : Bool) : Int := if bit then -e else e

/-- The tryte alphabet `9ABCDEFGHIJKLMNOPQRSTUVWXYZ`, as bytes. -/
def tryteAlphabet : List Nat := [
  57, 65, 66, 67, 68, 69, 70, 71, 72, 73, 74, 75, 76, 77,
  78, 79, 80, 81, 82, 83, 84, 85, 86, 87, 88, 89, 90]

/-! ## Padding, addresses and signature validation -/

/-- Function `MustPad`; `n` is a Go `int` and may be negative, in which case the length
test of the first line holds. A string builder that was grown to `n` receives the trytes
and then `n - len(trytes)` bytes `'9'`. -/
def MustPad (trytes : Trytes) (n : Int) : Trytes :=
  if (trytes.length : Int) ≥ n then trytes
  else trytes ++ List.replicate (n - (trytes.length : Int)).toNat 57

/-- Function `Pad`. -/
def Pad (trytes : Trytes) (n : Int) : Res Trytes :=
  if trytes.length > 0 then
    match ValidTrytes trytes with
    | some err => .error err
    | none => .ok (MustPad trytes n)
  else .ok (MustPad trytes n)

/-- Modelled from the spec: constant `AddressWithChecksumTrytesSize` of package `consts`,
whose source is absent: the 81 trytes of an address and the 9 trytes of its checksum. -/
def AddressWithChecksumTrytesSize : Nat := 90

/-- Modelled from the spec: constant `AddressChecksumTrytesSize` of package `consts`,
whose source is absent: a checksum of an address has 9 trytes. -/
def AddressChecksumTrytesSize : Nat := 9

/-- Modelled from the spec: constant `SecurityLevelMedium` of package `consts`, whose
source is absent: the level between low (1) and high (3). -/
def SecurityLevelMedium : Int := 2

/-- Modelled from the spec: the type of function `AddChecksum` of package `checksum`,
whose source is absent. It takes the input trytes, the flag `isAddress` and the length of
the checksum, and returns the checksummed trytes or an error. The functions of
`address.go` take it as a parameter. -/
abbrev AddChecksumFn : Type := Trytes → Bool → Nat → Res Trytes

/-- Function `Checksum` of `address.go`. The slice expressions on strings panic beyond
the length. -/
def Checksum (AddChecksum : AddChecksumFn) (address : Hash) : Res Trytes :=
  if address.length < 81 then .error .ErrInvalidAddress
  else
    match slice address 0 81 with
    | .error err => .error err
    | .ok head =>
      match AddChecksum head true 9 with
      | .error err => .error err
      | .ok addressWithChecksum =>
        slice addressWithChecksum (AddressWithChecksumTrytesSize - AddressChecksumTrytesSize) 90

/-- Function `ValidChecksum` of `address.go`; `.ok ()` is the `nil` error. -/
def ValidChecksum (AddChecksum : AddChecksumFn) (address : Hash) (checksum : Trytes) :
    Res Unit :=
  match Checksum AddChecksum address with
  | .error err => .error err
  | .ok actualChecksum =>
    if checksum ≠ actualChecksum then .error .ErrInvalidChecksum else .ok ()

/-- Function `ValidAddress` of `address.go`; `.ok ()` is the `nil` error. -/
def ValidAddress (AddChecksum : AddChecksumFn) (address : Hash) : Res Unit :=
  let validTrytes : Res Unit :=
    match ValidTrytes address with
    | some err => .error err
    | none => .ok ()
  if address.length = 90 then
    match slice address 0 81, slice address 81 address.length with
    | .ok head, .ok tail =>
      match ValidChecksum AddChecksum head tail with
      | .error err => .error err
      | .ok () => validTrytes
    | .error err, _ => .error err
    | _, .error err => .error err
  else if address.length = 81 then validTrytes
  else .error .ErrInvalidAddress

/-- Modelled from the spec: the key derivation that `GenerateAddress` calls and whose
source is absent (packages `kerl`, `signing` and `signing/key`). Every step works on the
Kerl sponge that `GenerateAddress` creates, so each takes the state of that sponge and
returns its result together with the state it leaves. -/
structure KeyDerivation (σ : Type) where
  /-- Function `kerl.NewKerl`: the state of a fresh sponge. -/
  NewKerl : σ
  /-- Function `signing.Subseed`, on the seed and the index. -/
  Subseed : Trytes → Nat → σ → Res Trits × σ
  /-- Function `key.Sponge`, on the subseed and the security level. -/
  Sponge : Trits → Int → σ → Res Trits × σ
  /-- Function `signing.Digests`, on the private key. -/
  Digests : Trits → σ → Res Trits × σ
  /-- Function `signing.Address`, on the digests. -/
  Address : Trits → σ → Res Trits × σ

/-- The first loop of `GenerateAddress`, which appends `'9'` until the length of the seed
is a multiple of 81; at most 80 rounds run. -/
def GenerateAddress.padSeed : Nat → Trytes → Trytes
  | 0, seed => seed
  | fuel + 1, seed =>
    if seed.length % 81 ≠ 0 then GenerateAddress.padSeed fuel (seed ++ [57]) else seed

/-- Function `GenerateAddress` of `address.go`; the variadic `addChecksum` is a list. -/
def GenerateAddress {σ : Type} (p : KeyDerivation σ) (AddChecksum : AddChecksumFn)
    (seed : Trytes) (index : Nat) (secLvl : Int) (addChecksum : List Bool) : Res Hash :=
  let seed := GenerateAddress.padSeed 81 seed
  let secLvl := if secLvl = 0 then SecurityLevelMedium else secLvl
  let h := p.NewKerl
  match p.Subseed seed index h with
  | (.error err, _) => .error err
  | (.ok subseed, h1) =>
    match p.Sponge subseed secLvl h1 with
    | (.error err, _) => .error err
    | (.ok prvKey, h2) =>
      match p.Digests prvKey h2 with
      | (.error err, _) => .error err
      | (.ok digests, h3) =>
        match p.Address digests h3 with
        | (.error err, _) => .error err
        | (.ok addressTrits, _) =>
          match MustTritsToTrytes addressTrits with
          | .error err => .error err
          | .ok address =>
            if decide (addChecksum.length > 0) && addChecksum.headD false then
              AddChecksum address true 9
            else .ok address

/-- The loop of `GenerateAddresses`: `gen` is the call of `GenerateAddress` on an index,
`n` is `int(count)`, `i` the loop variable and `addresses` the slice under construction.
The first argument is the number of rounds that remain. -/
def GenerateAddresses.loop (gen : Nat → Res Hash) (start : Nat) (n : Int) :
    Nat → Nat → List Hash → Res (List Hash)
  | 0, _, addresses => .ok addresses
  | fuel + 1, i, addresses =>
    if (i : Int) < n then
      if i < addresses.length then
        match gen ((start + i) % 2 ^ 64) with
        | .error err => .error err
        | .ok address => GenerateAddresses.loop gen start n fuel (i + 1) (addresses.set i address)
      else .error .goPanic
    else .ok addresses

/-- Function `GenerateAddresses` of `address.go`. `make` panics when `count` is not in the
range of `int`; the memory is taken as unbounded otherwise. An error returns `nil` in place
of the slice. -/
def GenerateAddresses {σ : Type} (p : KeyDerivation σ) (AddChecksum : AddChecksumFn)
    (seed : Trytes) (start count : Nat) (secLvl : Int) (addChecksum : List Bool) :
    Res (List Hash) :=
  if count ≥ 2 ^ 63 then .error .goPanic
  else
    let addresses : List Hash := List.replicate count []
    let withChecksum : Bool := decide (addChecksum.length > 0) && addChecksum.headD false
    let n := wrapInt64 (count : Int)
    GenerateAddresses.loop
      (fun index => GenerateAddress p AddChecksum seed index secLvl [withChecksum])
      start n n.toNat 0 addresses

/-- Function `ValidateSignatureFragments` of `merkle/signing.go`, with the sponge `h` in
state `s`. Function `SignatureAddress` of package `signing`, whose source is absent, is a
parameter: it works on the sponge and returns the address, the error and the state it
leaves. The result is the pair that the source returns and the state of the sponge after
the deferred `Reset`. -/
def ValidateSignatureFragments {σ : Type} (h : SpongeFunction σ)
    (SignatureAddress : SpongeFunction σ → List Trytes → Hash → σ → (Hash × Option Fail) × σ)
    (s : σ) (expectedRoot : Hash) (leafIndex : Nat) (auditPath : List Hash)
    (fragments : List Trytes) (hashToSign : Hash) : (Bool × Option Fail) × σ :=
  match SignatureAddress h fragments hashToSign s with
  | ((_, some err), s1) => ((false, some err), h.Reset s1)
  | ((address, none), s1) =>
    match MerkleRoot h s1 address leafIndex auditPath with
    | ((_, some err), s2) => ((false, some err), h.Reset s2)
    | ((root, none), s2) => ((decide (expectedRoot = root), none), h.Reset s2)

/-- A sponge that keeps the list of the calls it received: an absorb of a non-empty
string is recorded as `1`, a refused absorb of the empty string as `2`, a squeeze as `3`
and a reset as `4`. It squeezes the single tryte `9`. -/
def loggingSponge : SpongeFunction (List Nat) where
  AbsorbTrytes := fun s x =>
    if x = [] then (s ++ [2], some Fail.ErrInvalidTritsLength) else (s ++ [1], none)
  MustSqueezeTrytes := fun s _ => ([57], s ++ [3])
  Reset := fun s => s ++ [4]

/-- A checksum function for the examples: the trytes followed by their first `n`
trytes. -/
def exampleAddChecksum : AddChecksumFn := fun t _ n => .ok (t ++ t.take n)

/-- A key derivation for the examples, without a state: the subseed depends on the index
and fails on index 7, the other steps hand their input on. -/
def exampleDerivation : KeyDerivation Unit where
  NewKerl := ()
  Subseed := fun _ index s =>
    if index = 7 then (.error (.errorsNew "subseed"), s)
    else (.ok [1, ((index % 3 : Nat) : Int) - 1, 0], s)
  Sponge := fun t _ s => (.ok t, s)
  Digests := fun t s => (.ok t, s)
  Address := fun t s => (.ok t, s)

/-- A key derivation for the examples that succeeds on every index: the subseed is the
three trits of the tryte `A`, and the other steps hand their input on. -/
def steadyDerivation : KeyDerivation Unit where
  NewKerl := ()
  Subseed := fun _ _ s => (.ok [1, 0, 0], s)
  Sponge := fun t _ s => (.ok t, s)
  Digests := fun t s => (.ok t, s)
  Address := fun t s => (.ok t, s)

/-- An address recovery for the examples: the first fragment is the address, and no
fragment is an error. -/
def exampleSignatureAddress :
    SpongeFunction (List Nat) → List Trytes → Hash → List Nat → (Hash × Option Fail) × List Nat :=
  fun _ fragments _ s =>
    match fragments with
    | [] => (([], some (.errorsNew "no fragments")), s)
    | f :: _ => ((f, none), s)

/-! ## Trytes to integers, and the table of weights of the decoder -/

/-- The first loop of `TrytesToInt`, which skips the trailing `'9'`: on `m = i + 1` it
returns the value of `i + 1` at which the loop is left. -/
def TrytesToInt.skip (t : Trytes) : Nat → Nat
  | 0 => 0
  | m + 1 => if t.getD m 0 ≠ 57 then m + 1 else TrytesToInt.skip t m

/-- The second loop of `TrytesToInt`, from index `m - 1` down to index 0. -/
def TrytesToInt.sum (t : Trytes) : Nat → Int → Res Int
  | 0, val => .ok val
  | m + 1, val => do
    let d ← MustTryteToTryteValue (t.getD m 0)
    TrytesToInt.sum t m (wrapInt64 (val * (TryteRadix : Int) + d))

/-- Function `TrytesToInt`; it panics when `MustTryteToTryteValue` does. -/
def TrytesToInt (t : Trytes) : Res Int :=
  TrytesToInt.sum t (TrytesToInt.skip t t.length) 0

/-- The summation loop of `DecodeInt64` with the table of weights as a parameter: it is
`DecodeInt64.sum` with `lut` in the place of `Pow27LUT`. -/
def sumWithTable (lut : List Int) (t : Trits) (encoding : Int) : Nat → Nat → Int → Res Int
  | 0, _, value => .ok value
  | n + 1, i, value => do
    let g ← slice t (i * TrinaryRadix) (i * TrinaryRadix + TrinaryRadix)
    let tryteValue := TritsToInt g
    let tryteValue := if (encoding >>> i) % 2 = 1 then wrapInt64 (-tryteValue) else tryteValue
    if i ≥ lut.length then .error .goPanic
    else sumWithTable lut t encoding n (i + 1) (wrapInt64 (value + wrapInt64 (lut.getD i 0 * tryteValue)))

/-- Function `DecodeInt64` with the table of weights as a parameter: it is `DecodeInt64`
with `lut` in the place of `Pow27LUT`, and serves to state which entries of the table the
decoder reads. -/
def decodeWithTable (lut : List Int) (t : Trits) : Res (Int × Nat) := do
  let numTrits := t.length
  let head ← slice t 0 4
  let equal ← TritsEqual head encodedZero
  if equal then .ok (0, EncodedLength 0)
  else do
    let encodingStart ← DecodeInt64.scan t (numTrits + 1) 0
    if encodingStart ≥ numTrits then .error (.errorsNew "encodingStart > numTrits")
    else do
      let encodingStart := encodingStart + TrinaryRadix
      let encodingLength := MinTrits (maskInt64 (encodingStart / TrinaryRadix))
      let encTrits ← slice t encodingStart (encodingStart + encodingLength)
      let encoding := TritsToInt encTrits
      if encodingStart / TrinaryRadix > 13 then .error (.errorsNew "encodingStart/TrinaryRadix > 13")
      else do
        let value ← sumWithTable lut t encoding (encodingStart / TrinaryRadix) 0 0
        .ok (value, encodingStart + encodingLength)

/-! ## Properties of `MinTrits` -/

theorem two_mul_maxAbs (n : Nat) : 2 * maxAbs n + 1 = 3 ^ n := by
  unfold maxAbs
  have h1 : 3 ^ n % 2 = 1 := by
    induction n with
    | zero => rfl
    | succ k ih => rw [pow_succ]; omega
  have h2 : 0 < 3 ^ n := Nat.pos_pow_of_pos n (by decide)
  omega

theorem maxAbs_succ (n : Nat) : maxAbs (n + 1) = maxAbs n * 3 + 1 := by
  have h1 := two_mul_maxAbs n
  have h2 := two_mul_maxAbs (n + 1)
  rw [pow_succ] at h2
  omega

theorem maxAbs_mono {m n : Nat} (h : m ≤ n) : maxAbs m ≤ maxAbs n := by
  have h1 := two_mul_maxAbs m
  have h2 := two_mul_maxAbs n
  have h3 : 3 ^ m ≤ 3 ^ n := Nat.pow_le_pow_right (by decide) h
  omega

theorem maxAbs_lt {m n : Nat} (h : m < n) : maxAbs m < maxAbs n := by
  have h1 := maxAbs_mono (Nat.succ_le_of_lt h)
  rw [maxAbs_succ] at h1
  omega

theorem MinTrits_loop_spec (A : Nat) (hA : A ≤ 2 ^ 63) :
    ∀ fuel num, 41 ≤ num + fuel → (∀ n, 1 ≤ n → A ≤ maxAbs n → num ≤ n) →
      A ≤ maxAbs (MinTrits.loop A fuel (maxAbs num) num) ∧
      num ≤ MinTrits.loop A fuel (maxAbs num) num ∧
      ∀ n, 1 ≤ n → A ≤ maxAbs n → MinTrits.loop A fuel (maxAbs num) num ≤ n := by
  intro fuel
  induction fuel with
  | zero =>
    intro num h41 hlow
    simp only [MinTrits.loop]
    refine ⟨?_, le_refl _, hlow⟩
    have h1 : maxAbs 41 ≤ maxAbs num := maxAbs_mono (by omega)
    have h2 : 2 ^ 63 ≤ maxAbs 41 := by decide
    omega
  | succ fuel ih =>
    intro num h41 hlow
    simp only [MinTrits.loop]
    by_cases hgt : A > maxAbs num
    · rw [if_pos hgt]
      have hw : (maxAbs num * TrinaryRadix + 1) % 2 ^ 64 = maxAbs (num + 1) := by
        have hn : num ≤ 40 := by
          by_contra hcon
          have h1 : maxAbs 41 ≤ maxAbs num := maxAbs_mono (by omega)
          have h2 : 2 ^ 63 ≤ maxAbs 41 := by decide
          omega
        have h3 : maxAbs (num + 1) ≤ maxAbs 41 := maxAbs_mono (by omega)
        have h4 : maxAbs 41 < 2 ^ 64 := by decide
        rw [maxAbs_succ] at h3 ⊢
        apply Nat.mod_eq_of_lt
        simp only [TrinaryRadix]
        omega
      rw [hw]
      have hlow2 : ∀ n, 1 ≤ n → A ≤ maxAbs n → num + 1 ≤ n := by
        intro n hn hAn
        have h1 := hlow n hn hAn
        rcases Nat.eq_or_lt_of_le h1 with h2 | h2
        · subst h2; omega
        · exact h2
      obtain ⟨r1, r2, r3⟩ := ih (num + 1) (by omega) hlow2
      exact ⟨r1, by omega, r3⟩
    · rw [if_neg hgt]
      exact ⟨by omega, le_refl _, hlow⟩

theorem MinTrits_spec (v : Int) (hv : v.natAbs ≤ 2 ^ 63) :
    v.natAbs ≤ maxAbs (MinTrits v) ∧ 1 ≤ MinTrits v ∧
      ∀ n, 1 ≤ n → v.natAbs ≤ maxAbs n → MinTrits v ≤ n := by
  have key : ∀ num, 1 ≤ num → num ≤ 41 → (num = 1 ∨ maxAbs num ≤ v.natAbs) →
      v.natAbs ≤ maxAbs (MinTrits.loop v.natAbs 64 (maxAbs num) num) ∧
      1 ≤ MinTrits.loop v.natAbs 64 (maxAbs num) num ∧
      ∀ n, 1 ≤ n → v.natAbs ≤ maxAbs n → MinTrits.loop v.natAbs 64 (maxAbs num) num ≤ n := by
    intro num h1 h41 hstart
    have hlow : ∀ n, 1 ≤ n → v.natAbs ≤ maxAbs n → num ≤ n := by
      intro n hn hAn
      rcases hstart with h | h
      · omega
      · by_contra hcon
        have h2 : n < num := by omega
        have h3 := maxAbs_lt h2
        omega
    obtain ⟨r1, r2, r3⟩ := MinTrits_loop_spec v.natAbs hv 64 num (by omega) hlow
    exact ⟨r1, by omega, r3⟩
  have e31 : (308836698141973 : Nat) = maxAbs 31 := by decide
  have e21 : (5230176601 : Nat) = maxAbs 21 := by decide
  have e11 : (88573 : Nat) = maxAbs 11 := by decide
  have e1 : (1 : Nat) = maxAbs 1 := by decide
  unfold MinTrits AbsInt64
  simp only []
  split_ifs with h1 h2 h3
  · rw [e31] at h1 ⊢; exact key 31 (by decide) (by decide) (Or.inr h1)
  · rw [e21] at h2 ⊢; exact key 21 (by decide) (by decide) (Or.inr h2)
  · rw [e11] at h3 ⊢; exact key 11 (by decide) (by decide) (Or.inr h3)
  · have := key 1 (by decide) (by decide) (Or.inl rfl)
    rw [← e1] at this
    exact this

/-! ## Properties of `TritsToInt` and `AddTrits` -/

theorem ok_bind {α β : Type} (a : α) (f : α → Res β) : (Except.ok a >>= f) = f a := rfl

theorem error_bind {α β : Type} (e : Fail) (f : α → Res β) :
    ((Except.error e : Res α) >>= f) = Except.error e := rfl

theorem pure_eq_ok {α : Type} (a : α) : (pure a : Res α) = Except.ok a := rfl

theorem validTrit_iff (x : Int) : ValidTrit x = true ↔ -1 ≤ x ∧ x ≤ 1 := by
  simp [ValidTrit]

theorem allTrits_cons {x : Int} {t : Trits} :
    AllTrits (x :: t) ↔ (-1 ≤ x ∧ x ≤ 1) ∧ AllTrits t := by
  simp [AllTrits]

theorem allTrits_nil : AllTrits [] := by
  intro x hx; cases hx

theorem allTrits_append {s t : Trits} : AllTrits (s ++ t) ↔ AllTrits s ∧ AllTrits t := by
  simp only [AllTrits, List.mem_append]
  constructor
  · intro h; exact ⟨fun x hx => h x (Or.inl hx), fun x hx => h x (Or.inr hx)⟩
  · rintro ⟨h1, h2⟩ x (hx | hx)
    · exact h1 x hx
    · exact h2 x hx

theorem tritsVal_bound (t : Trits) (ht : AllTrits t) :
    2 * |tritsVal t| + 1 ≤ 3 ^ t.length := by
  induction t with
  | nil => simp [tritsVal]
  | cons x rest ih =>
    rw [allTrits_cons] at ht
    have h := ih ht.2
    simp only [tritsVal, List.length_cons, pow_succ]
    rcases abs_cases (tritsVal rest) with ⟨h1, _⟩ | ⟨h1, _⟩ <;>
    rcases abs_cases (tritsVal rest * 3 + x) with ⟨h2, _⟩ | ⟨h2, _⟩ <;> omega

theorem wrapInt64_of_range {x : Int} (h1 : -2 ^ 63 ≤ x) (h2 : x < 2 ^ 63) : wrapInt64 x = x := by
  unfold wrapInt64
  omega

theorem wrapInt8_of_range {x : Int} (h1 : -128 ≤ x) (h2 : x ≤ 127) : wrapInt8 x = x := by
  unfold wrapInt8
  omega

theorem tritsToInt_eq_tritsVal (t : Trits) (ht : AllTrits t) (hlen : t.length ≤ 40) :
    TritsToInt t = tritsVal t := by
  induction t with
  | nil => rfl
  | cons x rest ih =>
    have hb := tritsVal_bound (x :: rest) ht
    rw [allTrits_cons] at ht
    simp only [List.length_cons] at hlen
    simp only [TritsToInt, tritsVal, TrinaryRadix, List.length_cons] at hb ⊢
    rw [ih ht.2 (by omega)]
    have hp : (3 : Int) ^ (rest.length + 1) ≤ 3 ^ 40 :=
      pow_le_pow_right₀ (by norm_num : (1 : Int) ≤ 3) hlen
    have hq : (3 : Int) ^ 40 < 2 * 2 ^ 63 := by norm_num
    apply wrapInt64_of_range
    · rcases abs_cases (tritsVal rest * 3 + x) with ⟨h2, _⟩ | ⟨h2, _⟩ <;> push_cast at * <;> omega
    · rcases abs_cases (tritsVal rest * 3 + x) with ⟨h2, _⟩ | ⟨h2, _⟩ <;> push_cast at * <;> omega

theorem fullAdd_comm (a b c : Int) : fullAdd a b c = fullAdd b a c := by
  have h1 : Sum a b = Sum b a := by simp only [Sum, add_comm]
  have h2 : cons a b = cons b a := by
    unfold cons
    by_cases h : a = b
    · subst h; rfl
    · rw [if_neg h, if_neg (fun h2 => h h2.symm)]
  simp only [fullAdd, h1, h2]

theorem AddTrits_loop_comm (a b : Trits) :
    ∀ n i carry, AddTrits.loop a b n i carry = AddTrits.loop b a n i carry := by
  intro n
  induction n with
  | zero => intro i carry; rfl
  | succ n ih =>
    intro i carry
    simp only [AddTrits.loop]
    rw [fullAdd_comm, ih]

theorem fullAdd_spec (a b c : Int) (ha : -1 ≤ a ∧ a ≤ 1) (hb : -1 ≤ b ∧ b ≤ 1)
    (hc : -1 ≤ c ∧ c ≤ 1) :
    (fullAdd a b c).1 + 3 * (fullAdd a b c).2 = a + b + c ∧
      (-1 ≤ (fullAdd a b c).1 ∧ (fullAdd a b c).1 ≤ 1) ∧
      (-1 ≤ (fullAdd a b c).2 ∧ (fullAdd a b c).2 ≤ 1) := by
  have ea : a = -1 ∨ a = 0 ∨ a = 1 := by omega
  have eb : b = -1 ∨ b = 0 ∨ b = 1 := by omega
  have ec : c = -1 ∨ c = 0 ∨ c = 1 := by omega
  rcases ea with rfl | rfl | rfl <;> rcases eb with rfl | rfl | rfl <;>
    rcases ec with rfl | rfl | rfl <;> decide

theorem getD_eq_headD_drop (a : Trits) (i : Nat) :
    (if i < a.length then a.getD i 0 else 0) = (a.drop i).headD 0 := by
  induction a generalizing i with
  | nil => simp
  | cons x rest ih =>
    cases i with
    | zero => simp
    | succ i =>
      have := ih i
      simp only [List.length_cons, Nat.add_lt_add_iff_right, List.getD_cons_succ, List.drop_succ_cons]
      exact this

theorem AddTrits_loop_eq_addSuffix (a b : Trits) :
    ∀ n i carry, AddTrits.loop a b n i carry = (addSuffix (a.drop i) (b.drop i) n carry).1 := by
  intro n
  induction n with
  | zero => intro i carry; rfl
  | succ n ih =>
    intro i carry
    simp only [AddTrits.loop, addSuffix]
    rw [getD_eq_headD_drop, getD_eq_headD_drop, ih]
    simp [List.tail_drop]

theorem tritsVal_head_tail (a : Trits) : tritsVal a = tritsVal a.tail * 3 + a.headD 0 := by
  cases a <;> simp [tritsVal]

theorem allTrits_tail {a : Trits} (h : AllTrits a) : AllTrits a.tail := by
  cases a with
  | nil => exact h
  | cons x rest => exact (allTrits_cons.mp h).2

theorem allTrits_headD {a : Trits} (h : AllTrits a) : -1 ≤ a.headD 0 ∧ a.headD 0 ≤ 1 := by
  cases a with
  | nil => simp
  | cons x rest => exact (allTrits_cons.mp h).1

theorem addSuffix_spec : ∀ (n : Nat) (a b : Trits) (c : Int), AllTrits a → AllTrits b →
    (-1 ≤ c ∧ c ≤ 1) → a.length ≤ n → b.length ≤ n →
    tritsVal (addSuffix a b n c).1 + 3 ^ n * (addSuffix a b n c).2 = tritsVal a + tritsVal b + c ∧
      AllTrits (addSuffix a b n c).1 ∧ (addSuffix a b n c).1.length = n ∧
      (-1 ≤ (addSuffix a b n c).2 ∧ (addSuffix a b n c).2 ≤ 1) := by
  intro n
  induction n with
  | zero =>
    intro a b c _ _ hc hla hlb
    have ea : a = [] := List.length_eq_zero.mp (by omega)
    have eb : b = [] := List.length_eq_zero.mp (by omega)
    subst ea; subst eb
    simp [addSuffix, tritsVal, allTrits_nil, hc]
  | succ n ih =>
    intro a b c ha hb hc hla hlb
    obtain ⟨f1, f2, f3⟩ := fullAdd_spec (a.headD 0) (b.headD 0) c (allTrits_headD ha)
      (allTrits_headD hb) hc
    have hla2 : a.tail.length ≤ n := by rw [List.length_tail]; omega
    have hlb2 : b.tail.length ≤ n := by rw [List.length_tail]; omega
    obtain ⟨r1, r2, r3, r4⟩ := ih a.tail b.tail (fullAdd (a.headD 0) (b.headD 0) c).2
      (allTrits_tail ha) (allTrits_tail hb) f3 hla2 hlb2
    simp only [addSuffix]
    refine ⟨?_, ?_, ?_, r4⟩
    · rw [tritsVal_head_tail a, tritsVal_head_tail b]
      simp only [tritsVal, pow_succ]
      linear_combination 3 * r1 + f1
    · exact allTrits_cons.mpr ⟨f2, r2⟩
    · simp only [List.length_cons, r3]

/-! ## Trits and trytes -/

theorem tryte_of_trits (t0 t1 t2 : Int) (h0 : -1 ≤ t0 ∧ t0 ≤ 1) (h1 : -1 ≤ t1 ∧ t1 ≤ 1)
    (h2 : -1 ≤ t2 ∧ t2 ≤ 1) :
    ∃ c v, MustTryteValueToTryte (wrapInt8 (t0 + t1 * 3 + t2 * 9)) = .ok c ∧
      validTryte c = true ∧ MustTryteToTryteValue c = .ok v ∧
      MustPutTryteTrits v = .ok [t0, t1, t2] := by
  have e0 : t0 = -1 ∨ t0 = 0 ∨ t0 = 1 := by omega
  have e1 : t1 = -1 ∨ t1 = 0 ∨ t1 = 1 := by omega
  have e2 : t2 = -1 ∨ t2 = 0 ∨ t2 = 1 := by omega
  rcases e0 with rfl | rfl | rfl <;> rcases e1 with rfl | rfl | rfl <;>
    rcases e2 with rfl | rfl | rfl <;> exact ⟨_, _, rfl, rfl, rfl, rfl⟩

theorem trits_of_tryte (c : Nat) (hc : validTryte c = true) :
    ∃ v t0 t1 t2, MustTryteToTryteValue c = .ok v ∧ MustPutTryteTrits v = .ok [t0, t1, t2] ∧
      (-1 ≤ t0 ∧ t0 ≤ 1) ∧ (-1 ≤ t1 ∧ t1 ≤ 1) ∧ (-1 ≤ t2 ∧ t2 ≤ 1) ∧
      MustTryteValueToTryte (wrapInt8 (t0 + t1 * 3 + t2 * 9)) = .ok c := by
  have hr : c = 57 ∨ (65 ≤ c ∧ c ≤ 90) := by
    simp only [validTryte, Bool.or_eq_true, Bool.and_eq_true, decide_eq_true_eq] at hc
    omega
  rcases hr with rfl | ⟨h1, h2⟩
  · exact ⟨_, _, _, _, rfl, rfl, by decide, by decide, by decide, rfl⟩
  · interval_cases c <;> exact ⟨_, _, _, _, rfl, rfl, by decide, by decide, by decide, rfl⟩

theorem MustTritsToTrytes_roundtrip : ∀ (n : Nat) (t : Trits), t.length = 3 * n → AllTrits t →
    ∃ s, MustTritsToTrytes t = .ok s ∧ s.length = n ∧ s.all validTryte = true ∧
      MustTrytesToTrits s = .ok t := by
  intro n
  induction n with
  | zero =>
    intro t hlen _
    have e : t = [] := List.length_eq_zero.mp (by omega)
    subst e
    exact ⟨[], rfl, rfl, rfl, rfl⟩
  | succ n ih =>
    intro t hlen ht
    match t, hlen, ht with
    | t0 :: t1 :: t2 :: rest, hlen, ht =>
      simp only [List.length_cons] at hlen
      rw [allTrits_cons, allTrits_cons, allTrits_cons] at ht
      obtain ⟨h0, h1, h2, hrest⟩ := ht
      obtain ⟨s, r1, r2, r3, r4⟩ := ih rest (by omega) hrest
      obtain ⟨c, v, g1, g2, g3, g4⟩ := tryte_of_trits t0 t1 t2 h0 h1 h2
      refine ⟨c :: s, ?_, ?_, ?_, ?_⟩
      · simp only [MustTritsToTrytes, g1, r1]; rfl
      · simp only [List.length_cons, r2]
      · simp only [List.all_cons, g2, r3, Bool.and_self]
      · simp only [MustTrytesToTrits, g3, ok_bind, g4, r4]; rfl
    | [], hlen, _ => simp at hlen
    | [_], hlen, _ => simp at hlen; omega
    | [_, _], hlen, _ => simp at hlen; omega

theorem MustTrytesToTrits_roundtrip : ∀ (s : Trytes), s.all validTryte = true →
    ∃ t, MustTrytesToTrits s = .ok t ∧ t.length = 3 * s.length ∧ AllTrits t ∧
      MustTritsToTrytes t = .ok s := by
  intro s
  induction s with
  | nil => intro _; exact ⟨[], rfl, rfl, allTrits_nil, rfl⟩
  | cons c rest ih =>
    intro hs
    simp only [List.all_cons, Bool.and_eq_true] at hs
    obtain ⟨t, r1, r2, r3, r4⟩ := ih hs.2
    obtain ⟨v, t0, t1, t2, g1, g2, h0, h1, h2, g3⟩ := trits_of_tryte c hs.1
    refine ⟨t0 :: t1 :: t2 :: t, ?_, ?_, ?_, ?_⟩
    · simp only [MustTrytesToTrits, g1, ok_bind, g2, r1]; rfl
    · simp only [List.length_cons, r2]; omega
    · exact allTrits_cons.mpr ⟨h0, allTrits_cons.mpr ⟨h1, allTrits_cons.mpr ⟨h2, r3⟩⟩⟩
    · simp only [MustTritsToTrytes, g3, r4]; rfl

theorem validTrits_of_allTrits {t : Trits} (hne : t ≠ []) (ht : AllTrits t) :
    ValidTrits t = none := by
  unfold ValidTrits
  have h1 : ¬ t.length = 0 := fun h => hne (List.length_eq_zero.mp h)
  have h2 : t.all ValidTrit = true := by
    rw [List.all_eq_true]
    intro x hx
    exact (validTrit_iff x).mpr (ht x hx)
  rw [if_neg h1, if_pos h2]

theorem allTrits_of_validTrits {t : Trits} (h : ValidTrits t = none) : t ≠ [] ∧ AllTrits t := by
  unfold ValidTrits at h
  split_ifs at h with h1 h2
  refine ⟨fun e => h1 (by rw [e]; rfl), ?_⟩
  intro x hx
  rw [List.all_eq_true] at h2
  exact (validTrit_iff x).mp (h2 x hx)

theorem validTrytes_iff (s : Trytes) :
    ValidTrytes s = none ↔ s ≠ [] ∧ s.all validTryte = true := by
  unfold ValidTrytes
  constructor
  · intro h
    split_ifs at h with h1 h2
    exact ⟨h1, h2⟩
  · rintro ⟨h1, h2⟩
    rw [if_neg h1, if_pos h2]

/-! ## Bytes and trits -/

set_option maxRecDepth 100000 in
theorem byte_row_spec : ∀ b, b < 256 → -121 ≤ byteToInt8 b ∧ byteToInt8 b ≤ 121 →
    (bytesToTritsLUT.getD b []).length = 5 ∧ (bytesToTritsLUT.getD b []).all ValidTrit = true ∧
      MustTritsToBytes (bytesToTritsLUT.getD b []) = [b] := by
  decide

theorem writeAt_append_replicate (pre row : Trits) (m : Nat) (k : Nat) (hk : k = pre.length) :
    writeAt (pre ++ List.replicate (m + row.length) (0 : Int)) k row =
      pre ++ row ++ List.replicate m 0 := by
  subst hk
  unfold writeAt copyInto
  rw [List.take_left, List.drop_left, List.take_of_length_le (by simp), List.drop_replicate]
  simp

theorem MustBytesToTrits_loop_spec : ∀ (bytes : List Nat) (i : Nat) (pre : Trits),
    (∀ b ∈ bytes, (bytesToTritsLUT.getD b []).length = 5) → pre.length = i * 5 →
    MustBytesToTrits.loop bytes i (pre ++ List.replicate (bytes.length * 5) 0) =
      .ok (pre ++ unpackAll bytes) := by
  intro bytes
  induction bytes with
  | nil => intro i pre _ _; simp [MustBytesToTrits.loop, unpackAll]
  | cons b rest ih =>
    intro i pre hrows hpre
    have hrow : (bytesToTritsLUT.getD b []).length = 5 := hrows b (List.mem_cons_self _ _)
    have hcond : i * NumberOfTritsInAByte + 4 <
        (pre ++ List.replicate ((b :: rest).length * 5) (0 : Int)).length := by
      simp only [List.length_append, List.length_replicate, List.length_cons, NumberOfTritsInAByte]
      omega
    simp only [MustBytesToTrits.loop, if_pos hcond]
    have hw : writeAt (pre ++ List.replicate ((b :: rest).length * 5) (0 : Int))
        (i * NumberOfTritsInAByte) (bytesToTritsLUT.getD b []) =
        (pre ++ bytesToTritsLUT.getD b []) ++ List.replicate (rest.length * 5) 0 := by
      have e : (b :: rest).length * 5 = rest.length * 5 + (bytesToTritsLUT.getD b []).length := by
        simp only [List.length_cons, hrow]; omega
      rw [e]
      exact writeAt_append_replicate pre _ _ _ (by simp only [NumberOfTritsInAByte]; omega)
    rw [hw, ih (i + 1) _ (fun x hx => hrows x (List.mem_cons_of_mem _ hx))
      (by simp only [List.length_append, hrow]; omega)]
    simp [unpackAll]

theorem unpackAll_length (bytes : List Nat)
    (hrows : ∀ b ∈ bytes, (bytesToTritsLUT.getD b []).length = 5) :
    (unpackAll bytes).length = 5 * bytes.length := by
  induction bytes with
  | nil => rfl
  | cons b rest ih =>
    simp only [unpackAll, List.length_append, List.length_cons,
      hrows b (List.mem_cons_self _ _), ih (fun x hx => hrows x (List.mem_cons_of_mem _ hx))]
    omega

theorem slice_zero_length {α : Type} (s : List α) : slice s 0 s.length = .ok s := by
  simp [slice]

theorem MustBytesToTrits_none (bytes : List Nat)
    (hrows : ∀ b ∈ bytes, (bytesToTritsLUT.getD b []).length = 5) :
    MustBytesToTrits bytes none = .ok (unpackAll bytes) := by
  have h := MustBytesToTrits_loop_spec bytes 0 [] hrows (by simp)
  simp only [List.nil_append] at h
  simp only [MustBytesToTrits, NumberOfTritsInAByte, Int.toNat_ofNat, h, ok_bind]
  have hl := unpackAll_length bytes hrows
  have e : bytes.length * 5 = (unpackAll bytes).length := by omega
  rw [e]
  exact slice_zero_length _

theorem validBytesForTrits_of_range (bytes : List Nat)
    (h : ∀ b ∈ bytes, -121 ≤ byteToInt8 b ∧ byteToInt8 b ≤ 121) :
    ValidBytesForTrits bytes = none := by
  induction bytes with
  | nil => rfl
  | cons b rest ih =>
    have hb := h b (List.mem_cons_self _ _)
    have hn : ¬ (byteToInt8 b > 121 ∨ byteToInt8 b < -121) := by omega
    simp only [ValidBytesForTrits, if_neg hn]
    exact ih (fun x hx => h x (List.mem_cons_of_mem _ hx))

theorem MustTritsToBytes_unpackAll (bytes : List Nat)
    (h : ∀ b ∈ bytes, b < 256 ∧ -121 ≤ byteToInt8 b ∧ byteToInt8 b ≤ 121) :
    MustTritsToBytes (unpackAll bytes) = bytes ∧ AllTrits (unpackAll bytes) := by
  induction bytes with
  | nil => exact ⟨rfl, allTrits_nil⟩
  | cons b rest ih =>
    obtain ⟨hb1, hb2⟩ := h b (List.mem_cons_self _ _)
    obtain ⟨r1, r2, r3⟩ := byte_row_spec b hb1 hb2
    obtain ⟨i1, i2⟩ := ih (fun x hx => h x (List.mem_cons_of_mem _ hx))
    have hall : AllTrits (bytesToTritsLUT.getD b []) := by
      intro x hx
      rw [List.all_eq_true] at r2
      exact (validTrit_iff x).mp (r2 x hx)
    simp only [unpackAll]
    refine ⟨?_, allTrits_append.mpr ⟨hall, i2⟩⟩
    generalize bytesToTritsLUT.getD b [] = row at r1 r3
    match row, r1, r3 with
    | [t0, t1, t2, t3, t4], _, r3 =>
      simp only [MustTritsToBytes, List.cons.injEq, and_true] at r3
      simp only [List.cons_append, List.nil_append, MustTritsToBytes, r3]
      exact congrArg (List.cons b) i1

/-! ## Merkle root -/

theorem and_two_pow_ne_zero (n k : Nat) : n &&& 2 ^ k ≠ 0 ↔ n.testBit k = true := by
  constructor
  · intro h
    by_contra hb
    apply h
    apply Nat.eq_of_testBit_eq
    intro j
    rw [Nat.testBit_and, Nat.testBit_two_pow, Nat.zero_testBit]
    by_cases hj : k = j
    · subst hj; simp [hb]
    · simp [hj]
  · intro hb h
    have h2 : (n &&& 2 ^ k).testBit k = true := by
      rw [Nat.testBit_and, Nat.testBit_two_pow_self, hb]; rfl
    rw [h, Nat.zero_testBit] at h2
    cases h2

theorem getD_append_length {α : Type} (pre : List α) (x : α) (rest : List α) (d : α) :
    (pre ++ x :: rest).getD pre.length d = x := by
  induction pre with
  | nil => rfl
  | cons a pre ih => simp only [List.cons_append, List.length_cons, List.getD_cons_succ]; exact ih

theorem MerkleRoot_loop_spec {σ : Type} (h : SpongeFunction σ) (s0 : σ) (leafHash : Hash)
    (leafIndex : Nat) (habs : ∀ s x, (h.AbsorbTrytes s x).2 = none)
    (hreset : ∀ s, h.Reset s = s0) :
    ∀ (rest pre : List Hash), (pre ++ rest).length ≤ 32 →
      MerkleRoot.loop h leafIndex rest (2 ^ pre.length % 2 ^ 32)
          (runningHash h s0 leafHash leafIndex (pre ++ rest) pre.length) s0 =
        ((runningHash h s0 leafHash leafIndex (pre ++ rest) (pre ++ rest).length, none), s0) := by
  intro rest
  induction rest with
  | nil => intro pre _; simp [MerkleRoot.loop]
  | cons sib rest ih =>
    intro pre hlen
    have hk : pre.length < 32 := by
      simp only [List.length_append, List.length_cons] at hlen; omega
    have hj : 2 ^ pre.length % 2 ^ 32 = 2 ^ pre.length :=
      Nat.mod_eq_of_lt (Nat.pow_lt_pow_right (by decide) hk)
    have hj2 : (2 ^ pre.length * 2) % 2 ^ 32 = 2 ^ (pre ++ [sib]).length % 2 ^ 32 := by
      simp only [List.length_append, List.length_singleton, pow_succ]
    have happ : pre ++ sib :: rest = (pre ++ [sib]) ++ rest := by simp
    have hget : (pre ++ sib :: rest).getD pre.length [] = sib :=
      getD_append_length pre sib rest []
    have step := ih (pre ++ [sib]) (by rw [← happ]; exact hlen)
    rw [← happ] at step
    have hrun : runningHash h s0 leafHash leafIndex (pre ++ sib :: rest) (pre ++ [sib]).length =
        (if leafIndex.testBit pre.length then
          nodeHash h s0 sib (runningHash h s0 leafHash leafIndex (pre ++ sib :: rest) pre.length)
        else nodeHash h s0 (runningHash h s0 leafHash leafIndex (pre ++ sib :: rest) pre.length) sib) := by
      simp only [List.length_append, List.length_singleton, runningHash, hget]
    rw [hrun] at step
    rw [hj]
    simp only [MerkleRoot.loop]
    by_cases hbit : leafIndex.testBit pre.length = true
    · have hc : leafIndex &&& 2 ^ pre.length ≠ 0 := (and_two_pow_ne_zero _ _).mpr hbit
      rw [if_pos hc]
      rw [if_pos hbit] at step
      generalize runningHash h s0 leafHash leafIndex (pre ++ sib :: rest) pre.length = cur at *
      have a1 : h.AbsorbTrytes s0 sib = ((h.AbsorbTrytes s0 sib).1, none) :=
        Prod.ext rfl (habs _ _)
      have a2 : h.AbsorbTrytes (h.AbsorbTrytes s0 sib).1 cur =
          ((h.AbsorbTrytes (h.AbsorbTrytes s0 sib).1 cur).1, none) := Prod.ext rfl (habs _ _)
      rw [a1]; simp only []
      rw [a2]; simp only []
      rw [hreset, hj2]
      exact step
    · have hc : ¬ leafIndex &&& 2 ^ pre.length ≠ 0 := fun hc => hbit ((and_two_pow_ne_zero _ _).mp hc)
      rw [if_neg hc]
      rw [if_neg hbit] at step
      generalize runningHash h s0 leafHash leafIndex (pre ++ sib :: rest) pre.length = cur at *
      have a1 : h.AbsorbTrytes s0 cur = ((h.AbsorbTrytes s0 cur).1, none) :=
        Prod.ext rfl (habs _ _)
      have a2 : h.AbsorbTrytes (h.AbsorbTrytes s0 cur).1 sib =
          ((h.AbsorbTrytes (h.AbsorbTrytes s0 cur).1 sib).1, none) := Prod.ext rfl (habs _ _)
      rw [a1]; simp only []
      rw [a2]; simp only []
      rw [hreset, hj2]
      exact step

theorem xor_one_eq (q : Nat) : q ^^^ 1 = if q % 2 = 1 then q - 1 else q + 1 := by
  have h1 : q = Nat.bit (Nat.bodd q) (Nat.div2 q) := (Nat.bit_decomp q).symm
  have h2 : (1 : Nat) = Nat.bit true 0 := rfl
  have h3 : q ^^^ 1 = Nat.bit (Nat.bodd q != true) (Nat.div2 q ^^^ 0) := by
    conv_lhs => rw [h1, h2]
    exact Nat.xor_bit _ _ _ _
  rw [h3, Nat.xor_zero, Nat.bit_val, Nat.div2_val]
  have h4 := Nat.mod_two_of_bodd q
  cases hb : Nat.bodd q
  · rw [hb] at h4
    have h5 : q % 2 = 0 := h4
    have h6 : ¬ q % 2 = 1 := by omega
    rw [if_neg h6]
    show 2 * (q / 2) + 1 = q + 1
    omega
  · rw [hb] at h4
    have h5 : q % 2 = 1 := h4
    rw [if_pos h5]
    show 2 * (q / 2) + 0 = q - 1
    omega

theorem Len32_le_of_lt (x d : Nat) (hx : x < 2 ^ d) : Len32 x ≤ d := by
  have key : ∀ m, ((List.range m).filter (fun n => decide (2 ^ n ≤ x))).length ≤ min m d := by
    intro m
    induction m with
    | zero => simp
    | succ m ih =>
      rw [List.range_succ, List.filter_append, List.length_append]
      by_cases hp : 2 ^ m ≤ x
      · have hm : m < d := by
          by_contra hcon
          have : 2 ^ d ≤ 2 ^ m := Nat.pow_le_pow_right (by decide) (by omega)
          omega
        simp only [List.filter_cons, hp, decide_True, if_true, List.filter_nil, List.length_singleton]
        omega
      · simp only [List.filter_cons, hp, decide_False, List.filter_nil, List.length_nil,
          Bool.false_eq_true, if_false]
        omega
  have := key 32
  unfold Len32
  omega

theorem MerkleRoot_eq_runningHash {σ : Type} (h : SpongeFunction σ) (s0 : σ) (leafHash : Hash)
    (leafIndex : Nat) (auditPath : List Hash) (hlen : auditPath.length ≤ 32)
    (hidx : Len32 leafIndex ≤ auditPath.length)
    (habs : ∀ s x, (h.AbsorbTrytes s x).2 = none) (hreset : ∀ s, h.Reset s = s0) :
    MerkleRoot h s0 leafHash leafIndex auditPath =
      ((runningHash h s0 leafHash leafIndex auditPath auditPath.length, none), s0) := by
  have h1 : ¬ auditPath.length > 32 := by omega
  have h2 : ¬ Len32 leafIndex > auditPath.length := by omega
  have hl := MerkleRoot_loop_spec h s0 leafHash leafIndex habs hreset auditPath [] (by simpa using hlen)
  simp only [List.nil_append, List.length_nil, pow_zero, runningHash] at hl
  have e1 : 1 % 2 ^ 32 = 1 := by decide
  rw [e1] at hl
  simp only [MerkleRoot, if_neg h1, if_neg h2, hl, hreset]

theorem MerkleRoot_loop_no_error {σ : Type} (h : SpongeFunction σ) (leafIndex : Nat)
    (habs : ∀ s x, (h.AbsorbTrytes s x).2 = none) :
    ∀ (path : List Hash) (j : Nat) (hash : Hash) (s : σ),
      (MerkleRoot.loop h leafIndex path j hash s).1.2 = none := by
  intro path
  induction path with
  | nil => intro j hash s; rfl
  | cons sib rest ih =>
    intro j hash s
    simp only [MerkleRoot.loop]
    split_ifs with hc
    · have a1 : h.AbsorbTrytes s sib = ((h.AbsorbTrytes s sib).1, none) := Prod.ext rfl (habs _ _)
      have a2 : h.AbsorbTrytes (h.AbsorbTrytes s sib).1 hash =
          ((h.AbsorbTrytes (h.AbsorbTrytes s sib).1 hash).1, none) := Prod.ext rfl (habs _ _)
      rw [a1]; simp only []
      rw [a2]; simp only []
      exact ih _ _ _
    · have a1 : h.AbsorbTrytes s hash = ((h.AbsorbTrytes s hash).1, none) := Prod.ext rfl (habs _ _)
      have a2 : h.AbsorbTrytes (h.AbsorbTrytes s hash).1 sib =
          ((h.AbsorbTrytes (h.AbsorbTrytes s hash).1 sib).1, none) := Prod.ext rfl (habs _ _)
      rw [a1]; simp only []
      rw [a2]; simp only []
      exact ih _ _ _

theorem auditPathOf_length (layers : Nat → Nat → Hash) (d i : Nat) :
    (auditPathOf layers d i).length = d := by
  simp [auditPathOf]

theorem auditPathOf_getD (layers : Nat → Nat → Hash) (d i k : Nat) (hk : k < d) :
    (auditPathOf layers d i).getD k [] = layers (d - k) ((i >>> k) ^^^ 1) := by
  simp [auditPathOf, List.getD_eq_getElem?_getD, hk]

theorem runningHash_eq_layer {σ : Type} (h : SpongeFunction σ) (s0 : σ)
    (layers : Nat → Nat → Hash) (d i : Nat) (hi : i < 2 ^ d)
    (htree : ∀ k p, 1 ≤ k → k ≤ d → p < 2 ^ (k - 1) →
      layers (k - 1) p = nodeHash h s0 (layers k (2 * p)) (layers k (2 * p + 1))) :
    ∀ k, k ≤ d →
      runningHash h s0 (layers d i) i (auditPathOf layers d i) k = layers (d - k) (i >>> k) := by
  intro k
  induction k with
  | zero => intro _; simp [runningHash]
  | succ k ih =>
    intro hk
    have hprev := ih (by omega)
    have hq : i >>> (k + 1) = (i >>> k) / 2 := by rw [Nat.shiftRight_succ]
    have hbit : i.testBit k = decide ((i >>> k) % 2 = 1) := by
      rw [Nat.testBit_to_div_mod, Nat.shiftRight_eq_div_pow]
    have hp : (i >>> k) / 2 < 2 ^ (d - k - 1) := by
      rw [← hq, Nat.shiftRight_eq_div_pow]
      apply (Nat.div_lt_iff_lt_mul (Nat.pos_pow_of_pos _ (by decide))).mpr
      rw [← pow_add]
      have : d - k - 1 + (k + 1) = d := by omega
      rw [this]
      exact hi
    have hnode := htree (d - k) ((i >>> k) / 2) (by omega) (by omega) hp
    have hlev : d - (k + 1) = d - k - 1 := by omega
    have hg := auditPathOf_getD layers d i k (by omega)
    simp only [runningHash, hprev, hg, hbit, xor_one_eq, hq, hlev]
    generalize i >>> k = q at *
    by_cases hodd : q % 2 = 1
    · obtain ⟨p, rfl⟩ : ∃ p, q = 2 * p + 1 := ⟨q / 2, by omega⟩
      have e3 : (2 * p + 1) / 2 = p := by omega
      have e4 : 2 * p + 1 - 1 = 2 * p := by omega
      rw [e3] at hnode
      simp only [hodd, decide_True, if_true, e3, e4, hnode]
    · obtain ⟨p, rfl⟩ : ∃ p, q = 2 * p := ⟨q / 2, by omega⟩
      have e3 : 2 * p / 2 = p := by omega
      rw [e3] at hnode
      simp only [hodd, decide_False, if_false, e3, hnode, Bool.false_eq_true]

/-! ## Integers, trytes and trits -/

theorem digit_conversions (d : Int) (h1 : -13 ≤ d) (h2 : d ≤ 13) :
    (∃ c, MustTryteValueToTryte d = .ok c ∧ MustTryteToTryteValue c = .ok d) ∧
      MustPutTryteTrits d = .ok (tritsOfDigit d) ∧
      (tritsOfDigit d).length = 3 ∧ (tritsOfDigit d).all ValidTrit = true ∧
      tritsVal (tritsOfDigit d) = d ∧
      TritsToInt (tritsOfDigit d) = d ∧
      (tritsOfDigit d).map (fun x => wrapInt8 (-x)) = tritsOfDigit (-d) := by
  interval_cases d <;>
    exact ⟨⟨_, rfl, rfl⟩, rfl, rfl, rfl, rfl, rfl, rfl⟩

theorem allTrits_of_all {t : Trits} (h : t.all ValidTrit = true) : AllTrits t := by
  intro x hx
  rw [List.all_eq_true] at h
  exact (validTrit_iff x).mp (h x hx)

theorem pow27_odd (n : Nat) : 27 ^ n % 2 = 1 := by
  induction n with
  | zero => rfl
  | succ k ih => rw [pow_succ]; omega

theorem allDigits_cons {d : Int} {ds : List Int} :
    AllDigits (d :: ds) ↔ (-13 ≤ d ∧ d ≤ 13) ∧ AllDigits ds := by
  simp [AllDigits]

theorem allDigits_nil : AllDigits [] := by
  intro x hx; cases hx

theorem allDigits_append {s t : List Int} : AllDigits (s ++ t) ↔ AllDigits s ∧ AllDigits t := by
  simp only [AllDigits, List.mem_append]
  constructor
  · intro h; exact ⟨fun x hx => h x (Or.inl hx), fun x hx => h x (Or.inr hx)⟩
  · rintro ⟨h1, h2⟩ x (hx | hx)
    · exact h1 x hx
    · exact h2 x hx

theorem digits27_length (neg : Bool) : ∀ n v, (digits27 neg n v).length = n := by
  intro n
  induction n with
  | zero => intro v; rfl
  | succ n ih => intro v; simp only [digits27, List.length_cons, ih]

theorem digits27_allDigits (neg : Bool) : ∀ n v, AllDigits (digits27 neg n v) := by
  intro n
  induction n with
  | zero => intro v; exact allDigits_nil
  | succ n ih =>
    intro v
    simp only [digits27]
    refine allDigits_cons.mpr ⟨?_, ih _⟩
    cases neg <;> simp <;> omega

theorem digits27_tryteVal (neg : Bool) : ∀ n v, 2 * v + 1 ≤ 27 ^ n →
    tryteVal (digits27 neg n v) = if neg then -(v : Int) else (v : Int) := by
  intro n
  induction n with
  | zero =>
    intro v hv
    have e : v = 0 := by simpa using hv
    subst e
    cases neg <;> simp [digits27, tryteVal]
  | succ n ih =>
    intro v hv
    have hv2 : 2 * ((v + 13) / 27) + 1 ≤ 27 ^ n := by
      have hodd := pow27_odd n
      rw [pow_succ] at hv
      omega
    simp only [digits27, tryteVal, ih _ hv2]
    cases neg <;> simp <;> omega

theorem tritsOfDigits_length (ds : List Int) (h : AllDigits ds) :
    (tritsOfDigits ds).length = 3 * ds.length := by
  induction ds with
  | nil => rfl
  | cons d rest ih =>
    rw [allDigits_cons] at h
    simp only [tritsOfDigits, List.length_append, List.length_cons, ih h.2,
      (digit_conversions d h.1.1 h.1.2).2.2.1]
    omega

theorem tritsOfDigits_allTrits (ds : List Int) (h : AllDigits ds) :
    AllTrits (tritsOfDigits ds) := by
  induction ds with
  | nil => exact allTrits_nil
  | cons d rest ih =>
    rw [allDigits_cons] at h
    exact allTrits_append.mpr
      ⟨allTrits_of_all (digit_conversions d h.1.1 h.1.2).2.2.2.1, ih h.2⟩

theorem tritsVal_append (a b : Trits) :
    tritsVal (a ++ b) = tritsVal a + 3 ^ a.length * tritsVal b := by
  induction a with
  | nil => simp [tritsVal]
  | cons x rest ih =>
    rw [List.cons_append]
    show tritsVal (rest ++ b) * 3 + x = _
    rw [ih]
    simp only [tritsVal, List.length_cons, pow_succ]
    ring

theorem tritsOfDigits_tritsVal (ds : List Int) (h : AllDigits ds) :
    tritsVal (tritsOfDigits ds) = tryteVal ds := by
  induction ds with
  | nil => rfl
  | cons d rest ih =>
    rw [allDigits_cons] at h
    obtain ⟨_, _, hl, _, hv, _⟩ := digit_conversions d h.1.1 h.1.2
    simp only [tritsOfDigits, tritsVal_append, hl, hv, ih h.2, tryteVal]
    norm_num

theorem tritsVal_replicate_zero (n : Nat) : tritsVal (List.replicate n 0) = 0 := by
  induction n with
  | zero => rfl
  | succ n ih => simp [List.replicate_succ, tritsVal, ih]

theorem allTrits_replicate_zero (n : Nat) : AllTrits (List.replicate n 0) := by
  intro x hx
  rw [List.eq_of_mem_replicate hx]
  decide

theorem eq_replicate_of_tritsVal_zero (t : Trits) (ht : AllTrits t) (hv : tritsVal t = 0) :
    t = List.replicate t.length 0 := by
  induction t with
  | nil => rfl
  | cons x rest ih =>
    rw [allTrits_cons] at ht
    simp only [tritsVal] at hv
    have hx : x = 0 := by omega
    have hr : tritsVal rest = 0 := by omega
    rw [List.length_cons, List.replicate_succ, hx, ← ih ht.2 hr]

theorem IntToTrytes_loop_spec (neg : Bool) : ∀ n v, v < 2 ^ 63 →
    ∃ s, IntToTrytes.loop neg n v = .ok s ∧
      MustTrytesToTrits s = .ok (tritsOfDigits (digits27 neg n v)) := by
  intro n
  induction n with
  | zero => intro v _; exact ⟨[], rfl, rfl⟩
  | succ n ih =>
    intro v hv
    obtain ⟨s, r1, r2⟩ := ih ((v + 13) / 27) (by omega)
    by_cases hz : v = 0
    · subst hz
      have r1z : IntToTrytes.loop neg n 0 = .ok s := r1
      refine ⟨57 :: s, ?_, ?_⟩
      · simp only [IntToTrytes.loop, if_true, r1z, ok_bind, pure_eq_ok]
      · have e0 : MustTryteToTryteValue 57 = .ok 0 := rfl
        have e1 : MustPutTryteTrits 0 = .ok (tritsOfDigit 0) := rfl
        have hd0 : digits27 neg (n + 1) 0 = 0 :: digits27 neg n 0 := by
          cases neg <;> rfl
        have r2z : MustTrytesToTrits s = .ok (tritsOfDigits (digits27 neg n 0)) := r2
        rw [hd0]
        simp only [MustTrytesToTrits, e0, ok_bind, e1, r2z, tritsOfDigits, pure_eq_ok]
    · have hw : (v + TryteRadix / 2) % 2 ^ 64 = v + 13 := by
        simp only [TryteRadix]
        omega
      have hd := digits27_allDigits neg (n + 1) v
      simp only [digits27] at hd
      rw [allDigits_cons] at hd
      obtain ⟨⟨c, c1, c2⟩, c3, _⟩ := digit_conversions _ hd.1.1 hd.1.2
      have ht : (if neg = true then
            wrapInt8 (-wrapInt8 (wrapInt8 (((v + 13) % TryteRadix : Nat) : Int) - ((TryteRadix / 2 : Nat) : Int)))
          else wrapInt8 (wrapInt8 (((v + 13) % TryteRadix : Nat) : Int) - ((TryteRadix / 2 : Nat) : Int))) =
          (if neg = true then -((((v + 13) % 27 : Nat) : Int) - 13)
            else (((v + 13) % 27 : Nat) : Int) - 13) := by
        simp only [TryteRadix, wrapInt8]
        cases neg <;> simp <;> omega
      refine ⟨c :: s, ?_, ?_⟩
      · simp only [IntToTrytes.loop, if_neg hz, hw, ht, c1, ok_bind, pure_eq_ok]
        simp only [TryteRadix, r1, ok_bind]
      · simp only [MustTrytesToTrits, c2, ok_bind, c3, r2, pure_eq_ok, digits27, tritsOfDigits]

/-! ## Slices and writes inside a concatenation -/

theorem slice_mid {α : Type} (pre mid post : List α) (a b : Nat) (ha : a = pre.length)
    (hb : b = a + mid.length) : slice (pre ++ mid ++ post) a b = .ok mid := by
  subst ha; subst hb
  have h1 : pre.length ≤ pre.length + mid.length ∧
      pre.length + mid.length ≤ (pre ++ mid ++ post).length := by
    simp only [List.length_append]; omega
  rw [slice, if_pos h1]
  simp only [List.append_assoc, List.drop_left, Nat.add_sub_cancel_left, List.take_left]

theorem writeAt_mid {α : Type} (pre mid post new : List α) (a : Nat) (ha : a = pre.length)
    (hn : new.length = mid.length) : writeAt (pre ++ mid ++ post) a new = pre ++ new ++ post := by
  subst ha
  simp only [writeAt, copyInto, List.append_assoc, List.take_left, List.drop_left, hn]
  rw [List.take_of_length_le (by simp only [List.length_append]; omega)]

theorem negateAt_mid (pre mid post : Trits) (a n : Nat) (ha : a = pre.length)
    (hn : n = mid.length) :
    negateAt (pre ++ mid ++ post) a n = pre ++ mid.map (fun x => wrapInt8 (-x)) ++ post := by
  subst ha; subst hn
  have h : ((pre ++ mid ++ post).drop pre.length).take mid.length = mid := by
    simp only [List.append_assoc, List.drop_left, List.take_left]
  unfold negateAt
  rw [h]
  exact writeAt_mid pre mid post _ _ rfl (by simp)

/-! ## `MinTrits` and `IntToTrits` -/

theorem MinTrits_le_41 (v : Int) (hv : v.natAbs ≤ 2 ^ 63) : MinTrits v ≤ 41 := by
  have h2 : 2 ^ 63 ≤ maxAbs 41 := by decide
  exact (MinTrits_spec v hv).2.2 41 (by decide) (by omega)

theorem MinTrits_mono (v w : Int) (hw : w.natAbs ≤ 2 ^ 63) (h : v.natAbs ≤ w.natAbs) :
    MinTrits v ≤ MinTrits w := by
  obtain ⟨w1, w2, _⟩ := MinTrits_spec w hw
  exact (MinTrits_spec v (by omega)).2.2 _ w2 (by omega)

theorem roundUp_eq (m : Nat) : roundUpToTryteMultiple m = 3 * ((m + 2) / 3) := by
  unfold roundUpToTryteMultiple
  simp only [TritsPerTryte]
  split_ifs with h <;> omega

theorem pow3_mul (g : Nat) : (3 : Int) ^ (3 * g) = 27 ^ g := by
  rw [pow_mul]; norm_num

theorem IntToTrits_spec (w : Int) (hw : w.natAbs < 2 ^ 63) :
    ∃ T, IntToTrits w = .ok T ∧ T.length = MinTrits w ∧ AllTrits T ∧ tritsVal T = w ∧
      T ++ List.replicate (3 * ((MinTrits w + 2) / 3) - MinTrits w) 0 =
        tritsOfDigits (digits27 (decide (w < 0)) ((MinTrits w + 2) / 3) w.natAbs) := by
  obtain ⟨m1, m2, _⟩ := MinTrits_spec w (by omega)
  obtain ⟨s, r1, r2⟩ := IntToTrytes_loop_spec (decide (w < 0)) ((MinTrits w + 2) / 3) w.natAbs hw
  have hnum : (MinTrits w + TritsPerTryte - 1) / TritsPerTryte = (MinTrits w + 2) / 3 := by
    simp only [TritsPerTryte]; rfl
  simp only [IntToTrits, IntToTrytes, AbsInt64, hnum, r1, ok_bind, r2]
  generalize MinTrits w = m at *
  generalize hg : (m + 2) / 3 = g at *
  have hmg : m ≤ 3 * g := by omega
  have hbound : 2 * (w.natAbs : Int) + 1 ≤ 3 ^ m := by
    have := two_mul_maxAbs m
    have h3 : 2 * (maxAbs m : Int) + 1 = 3 ^ m := by exact_mod_cast this
    have h4 : (w.natAbs : Int) ≤ maxAbs m := by exact_mod_cast m1
    omega
  have hpow : (3 : Int) ^ m ≤ 27 ^ g := by
    rw [← pow3_mul]
    exact pow_le_pow_right₀ (by norm_num) hmg
  have hval : tryteVal (digits27 (decide (w < 0)) g w.natAbs) = w := by
    rw [digits27_tryteVal _ g w.natAbs (by
      have h5 : ((2 * w.natAbs + 1 : Nat) : Int) ≤ ((27 ^ g : Nat) : Int) := by
        simp only [Nat.cast_add, Nat.cast_mul, Nat.cast_pow, Nat.cast_ofNat, Nat.cast_one]
        omega
      exact_mod_cast h5)]
    by_cases hneg : w < 0
    · simp only [hneg, decide_True, if_true]; omega
    · simp only [hneg, decide_False, Bool.false_eq_true, if_false]; omega
  have hds := digits27_allDigits (decide (w < 0)) g w.natAbs
  have hdl := digits27_length (decide (w < 0)) g w.natAbs
  generalize digits27 (decide (w < 0)) g w.natAbs = ds at *
  have hX := tritsOfDigits_length ds hds
  have hXa := tritsOfDigits_allTrits ds hds
  have hXv := tritsOfDigits_tritsVal ds hds
  rw [hval] at hXv
  rw [hdl] at hX
  generalize tritsOfDigits ds = X at *
  have hsplit : X.take m ++ X.drop m = X := List.take_append_drop m X
  have hlt : (X.take m).length = m := by rw [List.length_take]; omega
  have hld : (X.drop m).length = 3 * g - m := by rw [List.length_drop]; omega
  have hta : AllTrits (X.take m) := fun x hx => hXa x (List.mem_of_mem_take hx)
  have hda : AllTrits (X.drop m) := fun x hx => hXa x (List.mem_of_mem_drop hx)
  have hv2 : tritsVal (X.take m) + 3 ^ m * tritsVal (X.drop m) = w := by
    have := tritsVal_append (X.take m) (X.drop m)
    rw [hsplit, hlt, hXv] at this
    exact this.symm
  have hb1 := tritsVal_bound (X.take m) hta
  rw [hlt] at hb1
  have hzero : tritsVal (X.drop m) = 0 := by
    have hp : (0 : Int) < 3 ^ m := by positivity
    by_contra hne
    rcases lt_or_gt_of_ne hne with hlt0 | hgt0
    · have h6 : 3 ^ m * tritsVal (X.drop m) ≤ 3 ^ m * (-1) :=
        mul_le_mul_of_nonneg_left (by omega) (le_of_lt hp)
      rcases abs_cases (tritsVal (X.take m)) with ⟨h7, _⟩ | ⟨h7, _⟩ <;> omega
    · have h6 : 3 ^ m * 1 ≤ 3 ^ m * tritsVal (X.drop m) :=
        mul_le_mul_of_nonneg_left (by omega) (le_of_lt hp)
      rcases abs_cases (tritsVal (X.take m)) with ⟨h7, _⟩ | ⟨h7, _⟩ <;> omega
  have hdz := eq_replicate_of_tritsVal_zero (X.drop m) hda hzero
  rw [hld] at hdz
  have hsl : slice X 0 m = .ok (X.take m) := by
    have hc : 0 ≤ m ∧ m ≤ X.length := by omega
    simp only [slice, if_pos hc, List.drop_zero, Nat.sub_zero]
  refine ⟨X.take m, hsl, hlt, hta, ?_, ?_⟩
  · rw [hzero] at hv2; omega
  · rw [← hdz]; exact hsplit

/-! ## The encoder -/

theorem orInt64_add_pow (e k : Nat) (he : e < 2 ^ k) (hk : k ≤ 62) :
    orInt64 (e : Int) (wrapInt64 (2 ^ k)) = ((e + 2 ^ k : Nat) : Int) := by
  have hk2 : 2 ^ k ≤ 2 ^ 62 := Nat.pow_le_pow_right (by decide) hk
  have hk3 : ((2 ^ k : Nat) : Int) = (2 : Int) ^ k := by push_cast; rfl
  have e1 : wrapInt64 ((2 : Int) ^ k) = ((2 ^ k : Nat) : Int) := by
    rw [← hk3]
    apply wrapInt64_of_range <;> omega
  have e2 : ((e : Int) % 2 ^ 64).toNat = e := by omega
  have e3 : (((2 ^ k : Nat) : Int) % 2 ^ 64).toNat = 2 ^ k := by omega
  have e4 : e ||| 2 ^ k = e + 2 ^ k := by
    have := Nat.mul_add_lt_is_or he 1
    rw [Nat.mul_one] at this
    rw [Nat.lor_comm, ← this]
    omega
  unfold orInt64
  rw [e1, e2, e3, e4]
  apply wrapInt64_of_range <;> omega

theorem bitsVal_append (a b : List Bool) :
    bitsVal (a ++ b) = bitsVal a + 2 ^ a.length * bitsVal b := by
  induction a with
  | nil => simp [bitsVal]
  | cons x rest ih =>
    rw [List.cons_append]
    simp only [bitsVal, ih, List.length_cons, pow_succ]
    ring

theorem bitsVal_lt (a : List Bool) : bitsVal a < 2 ^ a.length := by
  induction a with
  | nil => simp [bitsVal]
  | cons x rest ih =>
    simp only [bitsVal, List.length_cons, pow_succ]
    cases x <;> simp <;> omega

theorem EncodeInt64_loop_spec (length : Nat) : ∀ (todo : List Int) (fuel k e : Nat)
    (pre post : Trits), AllDigits todo → pre.length = 3 * k →
    length = 3 * (k + todo.length + 1) → todo.length ≤ fuel → e < 2 ^ k →
    k + todo.length ≤ 62 →
    EncodeInt64.loop length fuel (3 * k) (pre ++ tritsOfDigits todo ++ post) (e : Int) k =
      .ok (pre ++ tritsOfDigits (todo.map flipLow) ++ post,
        ((e + 2 ^ k * bitsVal (todo.map (fun d => decide (0 ≤ d))) : Nat) : Int),
        k + todo.length) := by
  intro todo
  induction todo with
  | nil =>
    intro fuel k e pre post _ _ hlen _ _ _
    cases fuel with
    | zero => simp [EncodeInt64.loop, tritsOfDigits, bitsVal]
    | succ f =>
      have hc : ¬ ((3 * k : Nat) : Int) < (length : Int) - (TrinaryRadix : Int) := by
        simp only [TrinaryRadix, List.length_nil] at hlen ⊢
        omega
      simp only [EncodeInt64.loop, if_neg hc]
      simp [tritsOfDigits, bitsVal]
  | cons d rest ih =>
    intro fuel k e pre post hall hpre hlen hfuel he hk
    rw [allDigits_cons] at hall
    obtain ⟨⟨hd1, hd2⟩, hrest⟩ := hall
    obtain ⟨_, _, dl, _, _, dti, dneg⟩ := digit_conversions d hd1 hd2
    obtain ⟨_, _, dl2, _⟩ := digit_conversions (-d) (by omega) (by omega)
    simp only [List.length_cons] at hlen hfuel hk
    cases fuel with
    | zero => omega
    | succ f =>
      have hc : ((3 * k : Nat) : Int) < (length : Int) - (TrinaryRadix : Int) := by
        simp only [TrinaryRadix]
        omega
      have ht : pre ++ tritsOfDigits (d :: rest) ++ post =
          pre ++ tritsOfDigit d ++ (tritsOfDigits rest ++ post) := by
        simp only [tritsOfDigits, List.append_assoc]
      have hs : slice (pre ++ tritsOfDigit d ++ (tritsOfDigits rest ++ post)) (3 * k)
          (3 * k + TrinaryRadix) = .ok (tritsOfDigit d) :=
        slice_mid _ _ _ _ _ hpre.symm (by simp only [TrinaryRadix, dl])
      have hi : 3 * k + TrinaryRadix = 3 * (k + 1) := by simp only [TrinaryRadix]; omega
      rw [ht]
      simp only [EncodeInt64.loop, if_pos hc, hs, ok_bind, dti]
      by_cases hd0 : 0 ≤ d
      · have hge : d ≥ 0 := hd0
        rw [if_pos hge, negateAt_mid pre (tritsOfDigit d) _ _ _ hpre.symm
          (by simp only [TrinaryRadix, dl]), dneg, orInt64_add_pow e k he (by omega), hi]
        have := ih f (k + 1) (e + 2 ^ k) (pre ++ tritsOfDigit (-d)) post hrest
          (by simp only [List.length_append, hpre, dl2]; omega) (by omega) (by omega)
          (by rw [pow_succ]; omega) (by omega)
        rw [← List.append_assoc, this]
        refine congrArg Except.ok (Prod.ext ?_ (Prod.ext ?_ ?_))
        · simp only [List.map_cons, flipLow, if_pos hd0, tritsOfDigits, List.append_assoc]
        · simp only [List.map_cons, hd0, decide_True, bitsVal, if_true, pow_succ]
          congr 1
          ring
        · simp only [List.length_cons]; omega
      · have hge : ¬ d ≥ 0 := hd0
        rw [if_neg hge, hi]
        have := ih f (k + 1) e (pre ++ tritsOfDigit d) post hrest
          (by simp only [List.length_append, hpre, dl]; omega) (by omega) (by omega)
          (by rw [pow_succ]; omega) (by omega)
        rw [← List.append_assoc, this]
        refine congrArg Except.ok (Prod.ext ?_ (Prod.ext ?_ ?_))
        · simp only [List.map_cons, flipLow, if_neg hd0, tritsOfDigits, List.append_assoc]
        · simp only [List.map_cons, hd0, decide_False, bitsVal, Bool.false_eq_true, if_false,
            pow_succ]
          congr 1
          ring
        · simp only [List.length_cons]; omega

theorem tritsOfDigits_append (a b : List Int) :
    tritsOfDigits (a ++ b) = tritsOfDigits a ++ tritsOfDigits b := by
  induction a with
  | nil => rfl
  | cons x rest ih =>
    rw [List.cons_append]
    show tritsOfDigit x ++ tritsOfDigits (rest ++ b) = _
    rw [ih]
    simp only [tritsOfDigits, List.append_assoc]

theorem tryteVal_append (a b : List Int) :
    tryteVal (a ++ b) = tryteVal a + 27 ^ a.length * tryteVal b := by
  induction a with
  | nil => simp [tryteVal]
  | cons x rest ih =>
    rw [List.cons_append]
    show x + 27 * tryteVal (rest ++ b) = _
    rw [ih]
    simp only [tryteVal, List.length_cons, pow_succ]
    ring

theorem maskInt64_eq (g : Nat) (hg : g ≤ 62) : maskInt64 g = 2 ^ g - 1 := by
  have h1 : (2 : Int) ^ g ≤ 2 ^ 62 := pow_le_pow_right₀ (by norm_num) hg
  have h2 : (0 : Int) < 2 ^ g := by positivity
  unfold maskInt64
  have e1 : wrapInt64 ((2 : Int) ^ g) = 2 ^ g := wrapInt64_of_range (by omega) (by omega)
  rw [e1]
  exact wrapInt64_of_range (by omega) (by omega)

theorem map_flipLow_allDigits (low : List Int) (h : AllDigits low) :
    AllDigits (low.map flipLow) := by
  intro x hx
  rw [List.mem_map] at hx
  obtain ⟨d, hd, rfl⟩ := hx
  have := h d hd
  unfold flipLow
  split_ifs <;> omega

theorem exists_concat_of_length {α : Type} (l : List α) (n : Nat) (h : l.length = n + 1) :
    ∃ init last, l = init ++ [last] ∧ init.length = n := by
  rcases List.eq_nil_or_concat l with e | ⟨L, b, e⟩
  · rw [e] at h; simp at h
  · rw [List.concat_eq_append] at e
    refine ⟨L, b, e, ?_⟩
    rw [e] at h
    simp only [List.length_append, List.length_singleton] at h
    omega

theorem tritsVal_append_zeros (t : Trits) (n : Nat) :
    tritsVal (t ++ List.replicate n 0) = tritsVal t := by
  rw [tritsVal_append, tritsVal_replicate_zero]; ring

theorem copyInto_zeros (T : Trits) (n : Nat) (h : T.length ≤ n) :
    copyInto (List.replicate n (0 : Int)) T = T ++ List.replicate (n - T.length) 0 := by
  unfold copyInto
  rw [List.take_of_length_le (by simpa using h), List.drop_replicate]

theorem EncodeInt64_spec (v : Int) (hv0 : v ≠ 0) (hv : v.natAbs < 2 ^ 63) :
    ∃ (low : List Int) (dl : Int) (enc : Trits),
      AllDigits low ∧ (-13 ≤ dl ∧ dl ≤ 13) ∧ dl ≠ 0 ∧
      low.length + 1 = (MinTrits v + 2) / 3 ∧ tryteVal (low ++ [dl]) = v ∧
      enc.length = MinTrits (maskInt64 (low.length + 1)) ∧ AllTrits enc ∧
      tritsVal enc = (bitsVal (low.map (fun d => decide (0 ≤ d)) ++ [decide (dl ≤ 0)]) : Int) ∧
      EncodeInt64 v = .ok (tritsOfDigits (low.map flipLow) ++ tritsOfDigit (flipLast dl) ++ enc,
        EncodedLength v) ∧
      EncodedLength v = 3 * (low.length + 1) + enc.length := by
  obtain ⟨m1, m2, m3⟩ := MinTrits_spec v (by omega)
  have hm41 := MinTrits_le_41 v (by omega)
  obtain ⟨T, i1, i2, i3, i4, i5⟩ := IntToTrits_spec v hv
  have hround := roundUp_eq (MinTrits v)
  have hdsl := digits27_length (decide (v < 0)) ((MinTrits v + 2) / 3) v.natAbs
  have hdsa := digits27_allDigits (decide (v < 0)) ((MinTrits v + 2) / 3) v.natAbs
  generalize digits27 (decide (v < 0)) ((MinTrits v + 2) / 3) v.natAbs = ds at *
  have hunf : EncodedLength v = (3 * ((MinTrits v + 2) / 3) +
      MinTrits (maskInt64 (3 * ((MinTrits v + 2) / 3) / 3))) % 2 ^ 64 := by
    simp only [EncodedLength, if_neg hv0, hround, TrinaryRadix]
  generalize hmdef : MinTrits v = m at *
  have hg1 : 1 ≤ (m + 2) / 3 := by omega
  have hg14 : (m + 2) / 3 ≤ 14 := by omega
  have hmg : m ≤ 3 * ((m + 2) / 3) := by omega
  have hmg2 : 3 * ((m + 2) / 3) < m + 3 := by omega
  generalize (m + 2) / 3 = g at *
  obtain ⟨low, dl, hds, hlowl⟩ := exists_concat_of_length ds (g - 1) (by omega)
  subst hds
  rw [allDigits_append] at hdsa
  obtain ⟨hlow, hdl⟩ := hdsa
  have hdl := (allDigits_cons.mp hdl).1
  have hXv : tryteVal (low ++ [dl]) = v := by
    rw [← tritsOfDigits_tritsVal _ (allDigits_append.mpr ⟨hlow, allDigits_cons.mpr ⟨hdl, allDigits_nil⟩⟩),
      ← i5, tritsVal_append_zeros, i4]
  -- the last group is not zero
  have hdl0 : dl ≠ 0 := by
    intro hz
    rw [hz, tryteVal_append] at hXv
    simp only [tryteVal, mul_zero, add_zero] at hXv
    have hb := tritsVal_bound _ (tritsOfDigits_allTrits low hlow)
    rw [tritsOfDigits_tritsVal low hlow, tritsOfDigits_length low hlow, hXv, hlowl] at hb
    by_cases hg : g - 1 = 0
    · rw [hg] at hb
      have : |v| = 0 := by
        have := abs_nonneg v
        simp only [Nat.mul_zero, pow_zero] at hb
        omega
      exact hv0 (abs_eq_zero.mp this)
    · have h3 := two_mul_maxAbs (3 * (g - 1))
      have h4 : 2 * (maxAbs (3 * (g - 1)) : Int) + 1 = 3 ^ (3 * (g - 1)) := by exact_mod_cast h3
      have h5 : (v.natAbs : Int) = |v| := Int.natCast_natAbs v
      have h6 : v.natAbs ≤ maxAbs (3 * (g - 1)) := by omega
      have := m3 (3 * (g - 1)) (by omega) h6
      omega
  -- the length of the encoding
  have hmask := maskInt64_eq g (by omega)
  have hencl : MinTrits (maskInt64 g) ≤ 41 := by
    apply MinTrits_le_41
    rw [hmask]
    have h1 : (2 : Int) ^ g ≤ 2 ^ 62 := pow_le_pow_right₀ (by norm_num) (by omega)
    have h2 : (0 : Int) < 2 ^ g := by positivity
    omega
  have hE : EncodedLength v = 3 * g + MinTrits (maskInt64 g) := by
    rw [hunf, Nat.mul_div_cancel_left g (by decide : 0 < 3)]
    omega
  -- the encoding bits
  have hgl : g = low.length + 1 := by omega
  have hfl : (low.map (fun d => decide (0 ≤ d))).length = low.length := List.length_map _ _
  have hE1lt := bitsVal_lt (low.map (fun d => decide (0 ≤ d)))
  rw [hfl] at hE1lt
  have hElt := bitsVal_lt (low.map (fun d => decide (0 ≤ d)) ++ [decide (dl ≤ 0)])
  rw [List.length_append, hfl, List.length_singleton, ← hgl] at hElt
  have hEsplit := bitsVal_append (low.map (fun d => decide (0 ≤ d))) [decide (dl ≤ 0)]
  rw [hfl] at hEsplit
  generalize hE1 : bitsVal (low.map (fun d => decide (0 ≤ d))) = E1 at *
  generalize hEE : bitsVal (low.map (fun d => decide (0 ≤ d)) ++ [decide (dl ≤ 0)]) = E at *
  have hpg : 2 ^ g ≤ 2 ^ 14 := Nat.pow_le_pow_right (by decide) hg14
  obtain ⟨TE, j1, j2, j3, j4, _⟩ := IntToTrits_spec (E : Int) (by
    have : ((E : Int)).natAbs = E := Int.natAbs_ofNat E
    rw [this]; omega)
  have hpgi : ((2 ^ g : Nat) : Int) = (2 : Int) ^ g := by push_cast; rfl
  have hTEl : TE.length ≤ MinTrits (maskInt64 g) := by
    rw [j2]
    apply MinTrits_mono
    · rw [hmask, ← hpgi]; omega
    · rw [hmask, ← hpgi]; omega
  refine ⟨low, dl, TE ++ List.replicate (MinTrits (maskInt64 g) - TE.length) 0, hlow, hdl, hdl0,
    by omega, hXv, ?_, ?_, ?_, ?_, ?_⟩
  · rw [← hgl, List.length_append, List.length_replicate]; omega
  · exact allTrits_append.mpr ⟨j3, allTrits_replicate_zero _⟩
  · rw [tritsVal_append_zeros, j4, hEE]
  · -- the run of the encoder
    have hcopy : copyInto (List.replicate (EncodedLength v) 0) T =
        [] ++ tritsOfDigits low ++ (tritsOfDigit dl ++ List.replicate (MinTrits (maskInt64 g)) 0) := by
      rw [hE, copyInto_zeros T _ (by omega), i2]
      have e1 : 3 * g + MinTrits (maskInt64 g) - m = (3 * g - m) + MinTrits (maskInt64 g) := by omega
      rw [e1, ← List.append_replicate_replicate, ← List.append_assoc, i5, tritsOfDigits_append]
      simp only [tritsOfDigits, List.append_nil, List.nil_append, List.append_assoc]
    have hloop := EncodeInt64_loop_spec (3 * g) low (3 * g) 0 0 []
      (tritsOfDigit dl ++ List.replicate (MinTrits (maskInt64 g)) 0) hlow rfl (by omega) (by omega)
      (by decide) (by omega)
    simp only [Nat.mul_zero, pow_zero, Nat.one_mul, Nat.zero_add, hE1, Nat.cast_zero] at hloop
    have hnl : ¬ 3 * g < TrinaryRadix := by simp only [TrinaryRadix]; omega
    have hlowl2 := tritsOfDigits_length _ (map_flipLow_allDigits low hlow)
    rw [List.length_map] at hlowl2
    obtain ⟨_, _, dll, _, _, dti, dneg⟩ := digit_conversions dl hdl.1 hdl.2
    obtain ⟨_, _, dll2, _⟩ := digit_conversions (-dl) (by omega) (by omega)
    have hlast : slice ([] ++ tritsOfDigits (low.map flipLow) ++
        (tritsOfDigit dl ++ List.replicate (MinTrits (maskInt64 g)) 0)) (3 * g - TrinaryRadix)
        (3 * g) = .ok (tritsOfDigit dl) := by
      rw [List.nil_append, ← List.append_assoc]
      exact slice_mid _ _ _ _ _ (by simp only [TrinaryRadix, hlowl2]; omega)
        (by simp only [TrinaryRadix, dll]; omega)
    simp only [EncodeInt64, if_neg hv0, hmdef, hround, i1, ok_bind, hcopy, hloop, if_neg hnl,
      hlast, dti]
    have hpair : (if dl ≤ 0 then
          (negateAt ([] ++ tritsOfDigits (low.map flipLow) ++
              (tritsOfDigit dl ++ List.replicate (MinTrits (maskInt64 g)) 0))
              (3 * g - TrinaryRadix) TrinaryRadix,
            orInt64 (E1 : Int) (wrapInt64 (2 ^ low.length)))
        else
          ([] ++ tritsOfDigits (low.map flipLow) ++
              (tritsOfDigit dl ++ List.replicate (MinTrits (maskInt64 g)) 0), (E1 : Int))) =
        (tritsOfDigits (low.map flipLow) ++ tritsOfDigit (flipLast dl) ++
            (List.replicate TE.length 0 ++ List.replicate (MinTrits (maskInt64 g) - TE.length) 0),
          (E : Int)) := by
      have hz : List.replicate TE.length (0 : Int) ++
          List.replicate (MinTrits (maskInt64 g) - TE.length) 0 =
          List.replicate (MinTrits (maskInt64 g)) 0 := by
        rw [List.append_replicate_replicate]
        congr 1
        omega
      rw [hz]
      by_cases hd : dl ≤ 0
      · have hb : bitsVal [decide (dl ≤ 0)] = 1 := by simp [bitsVal, hd]
        rw [if_pos hd, List.nil_append, ← List.append_assoc,
          negateAt_mid _ (tritsOfDigit dl) _ _ _ (by simp only [TrinaryRadix, hlowl2]; omega)
            (by simp only [TrinaryRadix, dll]),
          dneg, orInt64_add_pow E1 low.length hE1lt (by omega)]
        simp only [flipLast, if_pos hd, hEsplit, hb, Nat.mul_one]
      · have hb : bitsVal [decide (dl ≤ 0)] = 0 := by simp [bitsVal, hd]
        rw [if_neg hd, List.nil_append, ← List.append_assoc]
        simp only [flipLast, if_neg hd, hEsplit, hb, Nat.mul_zero, Nat.add_zero]
    rw [hpair]
    simp only [j1, ok_bind]
    have hlen3 : ¬ 3 * g > (tritsOfDigits (low.map flipLow) ++ tritsOfDigit (flipLast dl) ++
        (List.replicate TE.length (0 : Int) ++
          List.replicate (MinTrits (maskInt64 g) - TE.length) 0)).length := by
      have hfl3 : (tritsOfDigit (flipLast dl)).length = 3 := by
        unfold flipLast
        split_ifs
        · exact dll2
        · exact dll
      simp only [List.length_append, hlowl2, hfl3, List.length_replicate]
      omega
    rw [if_neg hlen3, ← List.append_assoc,
      writeAt_mid _ (List.replicate TE.length (0 : Int)) _ TE (3 * g) (by
        have hfl3 : (tritsOfDigit (flipLast dl)).length = 3 := by
          unfold flipLast
          split_ifs
          · exact dll2
          · exact dll
        simp only [List.length_append, hlowl2, hfl3]
        omega) (by simp)]
    simp only [List.append_assoc]
  · rw [hE, ← hgl, List.length_append, List.length_replicate]; omega

/-! ## The decoder -/

theorem DecodeInt64_scan_spec (ed : Int) (hed : 1 ≤ ed ∧ ed ≤ 13) (post : Trits) :
    ∀ (el : List Int) (pre : Trits) (fuel : Nat), AllDigits el → (∀ d ∈ el, d ≤ 0) →
    el.length < fuel →
    DecodeInt64.scan (pre ++ tritsOfDigits el ++ (tritsOfDigit ed ++ post)) fuel pre.length =
      .ok (pre.length + 3 * el.length) := by
  obtain ⟨_, _, edl, _, _, edi, _⟩ := digit_conversions ed (by omega) hed.2
  intro el
  induction el with
  | nil =>
    intro pre fuel _ _ hfuel
    cases fuel with
    | zero => omega
    | succ f =>
      have hc : pre.length < (pre ++ tritsOfDigits [] ++ (tritsOfDigit ed ++ post)).length := by
        simp only [List.length_append, edl, tritsOfDigits, List.length_nil]; omega
      have hs : slice (pre ++ tritsOfDigits [] ++ (tritsOfDigit ed ++ post)) pre.length
          (pre.length + TrinaryRadix) = .ok (tritsOfDigit ed) := by
        simp only [tritsOfDigits, List.append_nil]
        rw [← List.append_assoc]
        exact slice_mid _ _ _ _ _ rfl (by simp only [TrinaryRadix, edl])
      have hn : ¬ ed ≤ 0 := by omega
      simp only [DecodeInt64.scan, if_pos hc, hs, ok_bind, edi, if_neg hn, List.length_nil,
        Nat.mul_zero, Nat.add_zero]
  | cons d rest ih =>
    intro pre fuel hall hneg hfuel
    rw [allDigits_cons] at hall
    obtain ⟨_, _, dl, _, _, dti, _⟩ := digit_conversions d hall.1.1 hall.1.2
    have hd0 : d ≤ 0 := hneg d (List.mem_cons_self _ _)
    simp only [List.length_cons] at hfuel
    cases fuel with
    | zero => omega
    | succ f =>
      have ht : pre ++ tritsOfDigits (d :: rest) ++ (tritsOfDigit ed ++ post) =
          pre ++ tritsOfDigit d ++ (tritsOfDigits rest ++ (tritsOfDigit ed ++ post)) := by
        simp only [tritsOfDigits, List.append_assoc]
      have hc : pre.length <
          (pre ++ tritsOfDigit d ++ (tritsOfDigits rest ++ (tritsOfDigit ed ++ post))).length := by
        simp only [List.length_append, dl]; omega
      have hs : slice (pre ++ tritsOfDigit d ++ (tritsOfDigits rest ++ (tritsOfDigit ed ++ post)))
          pre.length (pre.length + TrinaryRadix) = .ok (tritsOfDigit d) :=
        slice_mid _ _ _ _ _ rfl (by simp only [TrinaryRadix, dl])
      have hi : pre.length + TrinaryRadix = (pre ++ tritsOfDigit d).length := by
        simp only [TrinaryRadix, List.length_append, dl]
      rw [ht]
      simp only [DecodeInt64.scan, if_pos hc, hs, ok_bind, dti, if_pos hd0]
      rw [hi, ← List.append_assoc (pre ++ tritsOfDigit d),
        ih (pre ++ tritsOfDigit d) f hall.2 (fun x hx => hneg x (List.mem_cons_of_mem _ hx))
          (by omega)]
      simp only [List.length_append, dl, List.length_cons]
      congr 1
      omega

theorem pow27LUT_getD (i : Nat) (hi : i < 12) : Pow27LUT.getD i 0 = 27 ^ i := by
  interval_cases i <;> rfl

theorem bitsVal_cons_mod (f : Bool) (r : List Bool) :
    ((bitsVal (f :: r) : Nat) : Int) % 2 = 1 ↔ f = true := by
  cases f <;> simp [bitsVal]

theorem unflip_bound (e : Int) (f : Bool) (h : -13 ≤ e ∧ e ≤ 13) :
    -13 ≤ unflip e f ∧ unflip e f ≤ 13 := by
  unfold unflip
  split_ifs <;> omega

theorem DecodeInt64_sum_spec (encoding : Int) (post : Trits) :
    ∀ (todo : List Int) (flags : List Bool) (pre : Trits) (i : Nat) (value : Int),
    AllDigits todo → flags.length = todo.length → pre.length = 3 * i →
    i + todo.length ≤ 12 → encoding >>> i = (bitsVal flags : Int) →
    2 * |value| + 1 ≤ 27 ^ i →
    DecodeInt64.sum (pre ++ tritsOfDigits todo ++ post) encoding todo.length i value =
      .ok (value + 27 ^ i * tryteVal (List.zipWith unflip todo flags)) := by
  intro todo
  induction todo with
  | nil =>
    intro flags pre i value _ _ _ _ _ _
    simp [DecodeInt64.sum, tryteVal]
  | cons d rest ih =>
    intro flags pre i value hall hfl hpre hi henc hval
    rw [allDigits_cons] at hall
    obtain ⟨_, _, dl, _, _, dti, _⟩ := digit_conversions d hall.1.1 hall.1.2
    simp only [List.length_cons] at hi hfl
    match flags, hfl, henc with
    | f :: fr, hfl, henc =>
      simp only [List.length_cons, Nat.add_right_cancel_iff] at hfl
      have ht : pre ++ tritsOfDigits (d :: rest) ++ post =
          pre ++ tritsOfDigit d ++ (tritsOfDigits rest ++ post) := by
        simp only [tritsOfDigits, List.append_assoc]
      have hs : slice (pre ++ tritsOfDigit d ++ (tritsOfDigits rest ++ post))
          (i * TrinaryRadix) (i * TrinaryRadix + TrinaryRadix) = .ok (tritsOfDigit d) :=
        slice_mid _ _ _ _ _ (by simp only [TrinaryRadix, hpre]; omega)
          (by simp only [TrinaryRadix, dl])
      have hlut : ¬ i ≥ Pow27LUT.length := by
        have : Pow27LUT.length = 14 := rfl
        omega
      have hp : (0 : Int) < 27 ^ i := by positivity
      have hp12 : (27 : Int) ^ (i + 1) ≤ 27 ^ 12 := pow_le_pow_right₀ (by norm_num) (by omega)
      have hp12v : (27 : Int) ^ 12 = 150094635296999121 := by norm_num
      rw [pow_succ] at hp12
      have hu := unflip_bound d f hall.1
      have htv : (if (encoding >>> i) % 2 = 1 then wrapInt64 (-d) else d) = unflip d f := by
        rw [henc]
        unfold unflip
        by_cases hf : f = true
        · rw [if_pos ((bitsVal_cons_mod f fr).mpr hf), if_pos hf]
          exact wrapInt64_of_range (by omega) (by omega)
        · rw [if_neg (fun h => hf ((bitsVal_cons_mod f fr).mp h)), if_neg hf]
      have hprod : -(13 * 27 ^ i) ≤ 27 ^ i * unflip d f ∧ 27 ^ i * unflip d f ≤ 13 * 27 ^ i := by
        constructor <;> nlinarith [hu.1, hu.2]
      have hw1 : wrapInt64 (27 ^ i * unflip d f) = 27 ^ i * unflip d f :=
        wrapInt64_of_range (by omega) (by omega)
      have hw2 : wrapInt64 (value + 27 ^ i * unflip d f) = value + 27 ^ i * unflip d f := by
        apply wrapInt64_of_range <;>
          rcases abs_cases value with ⟨h7, _⟩ | ⟨h7, _⟩ <;> omega
      have henc2 : encoding >>> (i + 1) = (bitsVal fr : Int) := by
        rw [Int.shiftRight_add, henc, Int.shiftRight_eq_div_pow]
        simp only [bitsVal, pow_one]
        cases f <;> push_cast <;> omega
      have hval2 : 2 * |value + 27 ^ i * unflip d f| + 1 ≤ 27 ^ (i + 1) := by
        rw [pow_succ]
        rcases abs_cases value with ⟨h7, _⟩ | ⟨h7, _⟩ <;>
          rcases abs_cases (value + 27 ^ i * unflip d f) with ⟨h8, _⟩ | ⟨h8, _⟩ <;> omega
      rw [ht]
      simp only [DecodeInt64.sum, hs, ok_bind, dti, htv, if_neg hlut, pow27LUT_getD i (by omega),
        hw1, hw2]
      rw [← List.append_assoc (pre ++ tritsOfDigit d),
        ih fr (pre ++ tritsOfDigit d) (i + 1) _ hall.2 hfl
          (by simp only [List.length_append, hpre, dl]; omega) (by omega) henc2 hval2]
      simp only [List.zipWith_cons_cons, tryteVal, pow_succ]
      congr 1
      ring

theorem wrapInt64_natAbs_le (x : Int) : (wrapInt64 x).natAbs ≤ 2 ^ 63 := by
  unfold wrapInt64
  omega

theorem MinTrits_maskInt64_pos (g : Nat) : 1 ≤ MinTrits (maskInt64 g) :=
  (MinTrits_spec _ (wrapInt64_natAbs_le _)).2.1

theorem validTrits_encodedZero : ValidTrits encodedZero = none := by decide

theorem DecodeInt64_head (el : List Int) (ed : Int) (flags : List Bool) (enc s : Trits)
    (hel : AllDigits el) (hneg : ∀ d ∈ el, d ≤ 0) (hed : 1 ≤ ed ∧ ed ≤ 13)
    (hencl : enc.length = MinTrits (maskInt64 (el.length + 1)))
    (henca : AllTrits enc) (hencv : tritsVal enc = (bitsVal flags : Int)) :
    ∃ head, slice (tritsOfDigits el ++ tritsOfDigit ed ++ enc ++ s) 0 4 = .ok head ∧
      TritsEqual head encodedZero = .ok false := by
  obtain ⟨_, _, edl, eda, edv, _, _⟩ := digit_conversions ed (by omega) hed.2
  have hm1 : 1 ≤ enc.length := by rw [hencl]; exact MinTrits_maskInt64_pos _
  have hlen := tritsOfDigits_length el hel
  have hbody : 4 ≤ (tritsOfDigits el ++ tritsOfDigit ed ++ enc).length := by
    simp only [List.length_append, hlen, edl]; omega
  have hc : 0 ≤ 4 ∧ 4 ≤ (tritsOfDigits el ++ tritsOfDigit ed ++ enc ++ s).length := by
    rw [List.length_append]; omega
  have htake : (tritsOfDigits el ++ tritsOfDigit ed ++ enc ++ s).take 4 =
      (tritsOfDigits el ++ tritsOfDigit ed ++ enc).take 4 :=
    List.take_append_of_le_length hbody
  have hall : AllTrits (tritsOfDigits el ++ tritsOfDigit ed ++ enc) :=
    allTrits_append.mpr ⟨allTrits_append.mpr ⟨tritsOfDigits_allTrits el hel,
      allTrits_of_all eda⟩, henca⟩
  refine ⟨(tritsOfDigits el ++ tritsOfDigit ed ++ enc).take 4, ?_, ?_⟩
  · rw [slice, if_pos hc, List.drop_zero, Nat.sub_zero, htake]
  · have hl4 : ((tritsOfDigits el ++ tritsOfDigit ed ++ enc).take 4).length = 4 := by
      rw [List.length_take]; omega
    have hne : (tritsOfDigits el ++ tritsOfDigit ed ++ enc).take 4 ≠ [] := by
      intro e; rw [e] at hl4; simp at hl4
    have hv : ValidTrits ((tritsOfDigits el ++ tritsOfDigit ed ++ enc).take 4) = none :=
      validTrits_of_allTrits hne (fun x hx => hall x (List.mem_of_mem_take hx))
    have hneq : (tritsOfDigits el ++ tritsOfDigit ed ++ enc).take 4 ≠ encodedZero := by
      cases el with
      | nil =>
        obtain ⟨a, b, c, habc⟩ := List.length_eq_three.mp edl
        have hencl1 : enc.length = 1 := by
          rw [hencl]
          have : MinTrits (maskInt64 ([] : List Int).length.succ) = 1 := by decide
          exact this
        obtain ⟨x, hx⟩ := List.length_eq_one.mp hencl1
        rw [hx] at hencv
        simp only [tritsVal, zero_mul, zero_add] at hencv
        rw [habc, hx]
        intro heq
        simp only [tritsOfDigits, List.nil_append, List.cons_append, List.take_succ_cons,
          List.take_zero, encodedZero, List.cons.injEq, and_true] at heq
        omega
      | cons e0 rest =>
        rw [allDigits_cons] at hel
        obtain ⟨_, _, e0l, _, e0v, _, _⟩ := digit_conversions e0 hel.1.1 hel.1.2
        have he0 : e0 ≤ 0 := hneg e0 (List.mem_cons_self _ _)
        obtain ⟨a, b, c, habc⟩ := List.length_eq_three.mp e0l
        rw [habc] at e0v
        simp only [tritsVal] at e0v
        intro heq
        simp only [tritsOfDigits, habc, List.cons_append, List.nil_append, List.take_succ_cons,
          encodedZero, List.cons.injEq] at heq
        omega
    have hlne : ¬ ((tritsOfDigits el ++ tritsOfDigit ed ++ enc).take 4).length ≠
        encodedZero.length := by
      rw [hl4]; decide
    simp only [TritsEqual, hv, validTrits_encodedZero, if_neg hlne, hneq, decide_False]

theorem DecodeInt64_run (el : List Int) (ed : Int) (flags : List Bool) (enc s : Trits)
    (hel : AllDigits el) (hneg : ∀ d ∈ el, d ≤ 0) (hed : 1 ≤ ed ∧ ed ≤ 13)
    (hencl : enc.length = MinTrits (maskInt64 (el.length + 1))) (henc40 : enc.length ≤ 40)
    (henca : AllTrits enc) (hencv : tritsVal enc = (bitsVal flags : Int)) :
    DecodeInt64 (tritsOfDigits el ++ tritsOfDigit ed ++ enc ++ s) =
      if el.length + 1 > 13 then .error (.errorsNew "encodingStart/TrinaryRadix > 13")
      else
        (DecodeInt64.sum (tritsOfDigits el ++ tritsOfDigit ed ++ enc ++ s)
          (bitsVal flags : Int) (el.length + 1) 0 0) >>=
        (fun value => .ok (value, 3 * (el.length + 1) + enc.length)) := by
  obtain ⟨head, h1, h2⟩ := DecodeInt64_head el ed flags enc s hel hneg hed hencl henca hencv
  obtain ⟨_, _, edl, eda, edv, _, _⟩ := digit_conversions ed (by omega) hed.2
  have hlen := tritsOfDigits_length el hel
  have hfuel : el.length < (tritsOfDigits el ++ tritsOfDigit ed ++ enc ++ s).length + 1 := by
    simp only [List.length_append, hlen]; omega
  have hscan := DecodeInt64_scan_spec ed hed (enc ++ s) el []
    ((tritsOfDigits el ++ tritsOfDigit ed ++ enc ++ s).length + 1) hel hneg hfuel
  simp only [List.nil_append, List.length_nil, Nat.zero_add] at hscan
  have hassoc : tritsOfDigits el ++ (tritsOfDigit ed ++ (enc ++ s)) =
      tritsOfDigits el ++ tritsOfDigit ed ++ enc ++ s := by
    simp only [List.append_assoc]
  rw [hassoc] at hscan
  have hlt : ¬ 3 * el.length ≥ (tritsOfDigits el ++ tritsOfDigit ed ++ enc ++ s).length := by
    simp only [List.length_append, hlen, edl]; omega
  have hdiv : (3 * el.length + TrinaryRadix) / TrinaryRadix = el.length + 1 := by
    simp only [TrinaryRadix]; omega
  have hsl : slice (tritsOfDigits el ++ tritsOfDigit ed ++ enc ++ s) (3 * el.length + TrinaryRadix)
      (3 * el.length + TrinaryRadix + MinTrits (maskInt64 (el.length + 1))) = .ok enc :=
    slice_mid _ _ _ _ _ (by simp only [List.length_append, hlen, edl, TrinaryRadix])
      (by rw [hencl])
  have hti : TritsToInt enc = (bitsVal flags : Int) := by
    rw [tritsToInt_eq_tritsVal enc henca henc40, hencv]
  have hsize : 3 * el.length + TrinaryRadix + MinTrits (maskInt64 (el.length + 1)) =
      3 * (el.length + 1) + enc.length := by
    simp only [TrinaryRadix]; omega
  rw [hsize] at hsl
  simp only [DecodeInt64, h1, ok_bind, h2, Bool.false_eq_true, if_false, hscan, if_neg hlt, hdiv,
    hsize, hsl, hti]

theorem zipWith_unflip (low : List Int) (dl : Int) :
    List.zipWith unflip (low.map flipLow ++ [flipLast dl])
      (low.map (fun d => decide (0 ≤ d)) ++ [decide (dl ≤ 0)]) = low ++ [dl] := by
  induction low with
  | nil =>
    simp only [List.map_nil, List.nil_append, List.zipWith_cons_cons, List.zipWith_nil_left,
      unflip, flipLast, decide_eq_true_eq]
    split_ifs <;> simp
  | cons d rest ih =>
    simp only [List.map_cons, List.cons_append, List.zipWith_cons_cons, ih, unflip, flipLow,
      decide_eq_true_eq]
    split_ifs <;> simp

theorem flipLow_nonpos (low : List Int) : ∀ d ∈ low.map flipLow, d ≤ 0 := by
  intro x hx
  rw [List.mem_map] at hx
  obtain ⟨d, _, rfl⟩ := hx
  unfold flipLow
  split_ifs <;> omega

theorem flipLast_pos (dl : Int) (h : -13 ≤ dl ∧ dl ≤ 13) (h0 : dl ≠ 0) :
    1 ≤ flipLast dl ∧ flipLast dl ≤ 13 := by
  unfold flipLast
  split_ifs <;> omega

theorem MinTrits_maskInt64_le (g : Nat) (hg : g ≤ 14) : MinTrits (maskInt64 g) ≤ 10 := by
  have hmask := maskInt64_eq g (by omega)
  have h1 : (2 : Int) ^ g ≤ 2 ^ 14 := pow_le_pow_right₀ (by norm_num) hg
  have h2 : (0 : Int) < 2 ^ g := by positivity
  have h3 : (maskInt64 g).natAbs ≤ maxAbs 10 := by
    have : maxAbs 10 = 29524 := by decide
    rw [hmask, this]
    omega
  have h4 : maxAbs 10 ≤ 2 ^ 63 := by decide
  exact (MinTrits_spec _ (by omega)).2.2 10 (by decide) h3

theorem DecodeInt64_encodedZero (s : Trits) :
    DecodeInt64 (encodedZero ++ s) = .ok (0, EncodedLength 0) := by
  have hc : 0 ≤ 4 ∧ 4 ≤ (encodedZero ++ s).length := by
    simp only [List.length_append, encodedZero, List.length_cons, List.length_nil]; omega
  have hs : slice (encodedZero ++ s) 0 4 = .ok encodedZero := by
    rw [slice, if_pos hc]
    rfl
  have he : TritsEqual encodedZero encodedZero = .ok true := rfl
  simp only [DecodeInt64, hs, ok_bind, he, if_true]

/-- The round trip on the range that twelve tryte groups cover, with any trits after the
encoding. -/
theorem EncodeInt64_DecodeInt64_append (v : Int) (hv : v.natAbs ≤ maxAbs 36) (s : Trits) :
    ∃ t, EncodeInt64 v = .ok (t, EncodedLength v) ∧ t.length = EncodedLength v ∧ AllTrits t ∧
      DecodeInt64 (t ++ s) = .ok (v, EncodedLength v) := by
  have h36 : maxAbs 36 < 2 ^ 63 := by decide
  by_cases hv0 : v = 0
  · subst hv0
    exact ⟨encodedZero, rfl, rfl, allTrits_of_all rfl, DecodeInt64_encodedZero s⟩
  · obtain ⟨low, dl, enc, hlow, hdl, hdl0, hg, hval, hencl, henca, hencv, henc, hsize⟩ :=
      EncodeInt64_spec v hv0 (by omega)
    have hm36 : MinTrits v ≤ 36 := (MinTrits_spec v (by omega)).2.2 36 (by decide) hv
    have hg12 : low.length + 1 ≤ 12 := by omega
    have hel := map_flipLow_allDigits low hlow
    have hed := flipLast_pos dl hdl hdl0
    have hell : (low.map flipLow).length = low.length := List.length_map _ _
    have henc10 := MinTrits_maskInt64_le (low.length + 1) (by omega)
    have hlen1 := tritsOfDigits_length _ hel
    obtain ⟨_, _, edl, eda, _⟩ := digit_conversions (flipLast dl) (by omega) hed.2
    refine ⟨_, henc, ?_, ?_, ?_⟩
    · simp only [List.length_append, hlen1, hell, edl, hsize]; omega
    · exact allTrits_append.mpr ⟨allTrits_append.mpr ⟨tritsOfDigits_allTrits _ hel,
        allTrits_of_all eda⟩, henca⟩
    · have hrun := DecodeInt64_run (low.map flipLow) (flipLast dl)
        (low.map (fun d => decide (0 ≤ d)) ++ [decide (dl ≤ 0)]) enc s hel (flipLow_nonpos low)
        hed (by rw [hell]; exact hencl) (by omega) henca hencv
      rw [hell] at hrun
      have hn13 : ¬ low.length + 1 > 13 := by omega
      rw [if_neg hn13] at hrun
      have hall2 : AllDigits (low.map flipLow ++ [flipLast dl]) :=
        allDigits_append.mpr ⟨hel, allDigits_cons.mpr ⟨⟨by omega, hed.2⟩, allDigits_nil⟩⟩
      have hsum := DecodeInt64_sum_spec
        (bitsVal (low.map (fun d => decide (0 ≤ d)) ++ [decide (dl ≤ 0)]) : Int) (enc ++ s)
        (low.map flipLow ++ [flipLast dl])
        (low.map (fun d => decide (0 ≤ d)) ++ [decide (dl ≤ 0)]) [] 0 0 hall2
        (by simp only [List.length_append, List.length_map, List.length_singleton])
        rfl (by simp only [List.length_append, hell, List.length_singleton]; omega)
        (by rw [Int.shiftRight_eq_div_pow]; simp) (by norm_num)
      simp only [List.nil_append, tritsOfDigits_append, tritsOfDigits, List.append_nil,
        List.length_append, hell, List.length_singleton, zipWith_unflip, hval, pow_zero, one_mul,
        zero_add] at hsum
      have hassoc : tritsOfDigits (low.map flipLow) ++ tritsOfDigit (flipLast dl) ++ (enc ++ s) =
          tritsOfDigits (low.map flipLow) ++ tritsOfDigit (flipLast dl) ++ enc ++ s := by
        simp only [List.append_assoc]
      rw [hassoc] at hsum
      rw [hrun, hsum, ok_bind, hsize]

/-- Past the range that thirteen tryte groups cover, the decoder rejects the encoding. -/
theorem EncodeInt64_DecodeInt64_large (v : Int) (hv : v.natAbs < 2 ^ 63)
    (hbig : maxAbs 39 < v.natAbs) :
    ∃ t, EncodeInt64 v = .ok (t, EncodedLength v) ∧
      DecodeInt64 t = .error (.errorsNew "encodingStart/TrinaryRadix > 13") := by
  have hv0 : v ≠ 0 := by
    intro e; rw [e] at hbig; simp at hbig
  obtain ⟨low, dl, enc, hlow, hdl, hdl0, hg, hval, hencl, henca, hencv, henc, hsize⟩ :=
    EncodeInt64_spec v hv0 hv
  obtain ⟨m1, m2, m3⟩ := MinTrits_spec v (by omega)
  have hm41 := MinTrits_le_41 v (by omega)
  have hm40 : 40 ≤ MinTrits v := by
    by_contra hcon
    have := maxAbs_mono (show MinTrits v ≤ 39 by omega)
    omega
  have hg14 : low.length + 1 = 14 := by omega
  have hel := map_flipLow_allDigits low hlow
  have hed := flipLast_pos dl hdl hdl0
  have hell : (low.map flipLow).length = low.length := List.length_map _ _
  have henc10 := MinTrits_maskInt64_le (low.length + 1) (by omega)
  refine ⟨_, henc, ?_⟩
  have hrun := DecodeInt64_run (low.map flipLow) (flipLast dl)
    (low.map (fun d => decide (0 ≤ d)) ++ [decide (dl ≤ 0)]) enc [] hel (flipLow_nonpos low)
    hed (by rw [hell]; exact hencl) (by omega) henca hencv
  rw [hell, List.append_nil] at hrun
  have h13 : low.length + 1 > 13 := by omega
  rw [if_pos h13] at hrun
  exact hrun

/-- C1, as the claim states it, fails at the largest int64: `EncodeInt64` succeeds, and
`DecodeInt64` rejects the 14 tryte groups of its result at the bound check of the weight
table, so no decoded value comes back. -/
theorem EncodeInt64_then_DecodeInt64_maxInt64 :
    IsInt64 9223372036854775807 ∧ (9223372036854775807 : Int) ≠ minInt64 ∧
      (∃ t, EncodeInt64 9223372036854775807 = .ok (t, EncodedLength 9223372036854775807) ∧
        DecodeInt64 t = .error (.errorsNew "encodingStart/TrinaryRadix > 13")) ∧
      ¬ ∃ t size, EncodeInt64 9223372036854775807 = .ok (t, size) ∧
        DecodeInt64 t = .ok (9223372036854775807, size) := by
  have hlarge := EncodeInt64_DecodeInt64_large 9223372036854775807 (by decide) (by decide)
  refine ⟨by unfold IsInt64; decide, by decide, hlarge, ?_⟩
  obtain ⟨t0, h1, h2⟩ := hlarge
  rintro ⟨t, size, h3, h4⟩
  rw [h1] at h3
  injection h3 with h3
  injection h3 with h5 _
  rw [← h5, h2] at h4
  cases h4

/-- C1, amended: for every int64 `v` with `|v| ≤ (3 ^ 36 - 1) / 2`, `EncodeInt64 v` returns
`(t, size, nil)` with `size = len(t)` and `DecodeInt64 t` returns `(v, size, nil)`; for
every int64 `v` other than the smallest with `|v| > (3 ^ 39 - 1) / 2`, `EncodeInt64 v`
succeeds and `DecodeInt64` of its result returns the error of the bound check
`encodingStart/TrinaryRadix > 13`. -/
theorem EncodeInt64_then_DecodeInt64 (v : Int) (hv : IsInt64 v) (hmin : v ≠ minInt64) :
    (v.natAbs ≤ (3 ^ 36 - 1) / 2 →
      ∃ t size, EncodeInt64 v = .ok (t, size) ∧ size = t.length ∧
        DecodeInt64 t = .ok (v, size)) ∧
    ((3 ^ 39 - 1) / 2 < v.natAbs →
      ∃ t size, EncodeInt64 v = .ok (t, size) ∧
        DecodeInt64 t = .error (.errorsNew "encodingStart/TrinaryRadix > 13")) := by
  have habs : v.natAbs < 2 ^ 63 := by
    have hne : v ≠ -2 ^ 63 := hmin
    unfold IsInt64 at hv
    omega
  constructor
  · intro hsmall
    obtain ⟨t, h1, h2, _, h4⟩ := EncodeInt64_DecodeInt64_append v hsmall []
    rw [List.append_nil] at h4
    exact ⟨t, EncodedLength v, h1, h2.symm, h4⟩
  · intro hbig
    obtain ⟨t, h1, h2⟩ := EncodeInt64_DecodeInt64_large v habs hbig
    exact ⟨t, EncodedLength v, h1, h2⟩

theorem EncodeInt64_then_DecodeInt64_witness :
    (∃ t size, EncodeInt64 (-88574) = .ok (t, size) ∧ size = t.length ∧
        DecodeInt64 t = .ok (-88574, size)) ∧
      (∃ t size, EncodeInt64 9223372036854775807 = .ok (t, size) ∧
        DecodeInt64 t = .error (.errorsNew "encodingStart/TrinaryRadix > 13")) :=
  ⟨(EncodeInt64_then_DecodeInt64 (-88574) (by unfold IsInt64; decide) (by decide)).1 (by decide),
    (EncodeInt64_then_DecodeInt64 9223372036854775807 (by unfold IsInt64; decide)
      (by decide)).2 (by decide)⟩

set_option maxRecDepth 1000000 in
/-- Evaluation of the code at `(3 ^ 36 + 1) / 2`, the least value encoded in 13 tryte
groups: the decoder returns a different value. -/
theorem DecodeInt64_thirteen_groups :
    (EncodeInt64 75047317648499561 >>= fun p => DecodeInt64 p.1) =
      .ok (75047317648499576, 48) := by
  rfl

/-- C2: for every non-empty sequence `t` of valid trits whose length is divisible by 3,
`TritsToTrytes t` succeeds with some trytes `s`, and `TrytesToTrits s` succeeds and
returns exactly `t`. -/
theorem TritsToTrytes_then_TrytesToTrits (t : Trits) (hne : t ≠ [])
    (hvalid : ∀ x ∈ t, ValidTrit x = true) (hlen : t.length % 3 = 0) :
    ∃ s, TritsToTrytes t = .ok s ∧ TrytesToTrits s = .ok t := by
  have hall : AllTrits t := fun x hx => (validTrit_iff x).mp (hvalid x hx)
  have hl : t.length = 3 * (t.length / 3) := by omega
  obtain ⟨s, r1, r2, r3, r4⟩ := MustTritsToTrytes_roundtrip (t.length / 3) t hl hall
  have hlen0 : ¬ t.length = 0 := fun h => hne (List.length_eq_zero.mp h)
  have hsne : s ≠ [] := by
    intro e
    rw [e] at r2
    simp only [List.length_nil] at r2
    omega
  refine ⟨s, ?_, ?_⟩
  · simp only [TritsToTrytes, validTrits_of_allTrits hne hall, CanTritsToTrytes, if_neg hlen0,
      TritsPerTryte, hlen, decide_True, Bool.not_true]
    exact r1
  · simp only [TrytesToTrits, (validTrytes_iff s).mpr ⟨hsne, r3⟩]
    exact r4

theorem TritsToTrytes_then_TrytesToTrits_witness :
    ∃ s, TritsToTrytes [1, 0, -1, 0, 1, 1] = .ok s ∧ TrytesToTrits s = .ok [1, 0, -1, 0, 1, 1] :=
  TritsToTrytes_then_TrytesToTrits [1, 0, -1, 0, 1, 1] (by decide) (by decide) (by decide)

/-- C3: for every non-empty string `s` of tryte characters (`9` or `A` to `Z`),
`TrytesToTrits s` succeeds with some trits `t`, and `TritsToTrytes t` succeeds and
returns exactly `s`. -/
theorem TrytesToTrits_then_TritsToTrytes (s : Trytes) (hne : s ≠ [])
    (hvalid : ∀ c ∈ s, validTryte c = true) :
    ∃ t, TrytesToTrits s = .ok t ∧ TritsToTrytes t = .ok s := by
  have hall : s.all validTryte = true := List.all_eq_true.mpr hvalid
  obtain ⟨t, r1, r2, r3, r4⟩ := MustTrytesToTrits_roundtrip s hall
  have hslen : ¬ s.length = 0 := fun h => hne (List.length_eq_zero.mp h)
  have htne : t ≠ [] := by
    intro e
    rw [e] at r2
    simp only [List.length_nil] at r2
    omega
  have hlen0 : ¬ t.length = 0 := fun h => htne (List.length_eq_zero.mp h)
  have hmod : t.length % 3 = 0 := by omega
  refine ⟨t, ?_, ?_⟩
  · simp only [TrytesToTrits, (validTrytes_iff s).mpr ⟨hne, hall⟩]
    exact r1
  · simp only [TritsToTrytes, validTrits_of_allTrits htne r3, CanTritsToTrytes, if_neg hlen0,
      TritsPerTryte, hmod, decide_True, Bool.not_true]
    exact r4

theorem TrytesToTrits_then_TritsToTrytes_witness :
    ∃ t, TrytesToTrits [57, 65, 90] = .ok t ∧ TritsToTrytes t = .ok [57, 65, 90] :=
  TrytesToTrits_then_TritsToTrytes [57, 65, 90] (by decide) (by decide)

/-- C4, as the claim states it, fails on the empty byte sequence: `BytesToTrits`
returns the empty trit sequence, which `TritsToBytes` rejects with `ErrInvalidTrit`. -/
theorem BytesToTrits_then_TritsToBytes_empty :
    (∀ x ∈ ([] : List Nat), x < 256 ∧ -121 ≤ byteToInt8 x ∧ byteToInt8 x ≤ 121) ∧
      BytesToTrits [] none = .ok [] ∧ TritsToBytes [] = .error Fail.ErrInvalidTrit ∧
      ¬ ∃ t, BytesToTrits [] none = .ok t ∧ t.length = 5 * ([] : List Nat).length ∧
        TritsToBytes t = .ok [] := by
  refine ⟨by decide, rfl, rfl, ?_⟩
  rintro ⟨t, h1, _, h3⟩
  have e : BytesToTrits [] none = .ok [] := rfl
  rw [e] at h1
  injection h1 with h1
  subst h1
  have e2 : TritsToBytes [] = .error Fail.ErrInvalidTrit := rfl
  rw [e2] at h3
  cases h3

/-- C4, amended: for every non-empty byte sequence `b` all of whose bytes, read as signed
8-bit values, lie in [-121, 121], `BytesToTrits b` without an explicit length succeeds
with a trit sequence `t` of length `5 * len(b)`, and `TritsToBytes t` succeeds and returns
exactly `b`. -/
theorem BytesToTrits_then_TritsToBytes (b : List Nat) (hne : b ≠ [])
    (hb : ∀ x ∈ b, x < 256 ∧ -121 ≤ byteToInt8 x ∧ byteToInt8 x ≤ 121) :
    ∃ t, BytesToTrits b none = .ok t ∧ t.length = 5 * b.length ∧ TritsToBytes t = .ok b := by
  have hrows : ∀ x ∈ b, (bytesToTritsLUT.getD x []).length = 5 :=
    fun x hx => (byte_row_spec x (hb x hx).1 (hb x hx).2).1
  have hlen := unpackAll_length b hrows
  obtain ⟨r1, r2⟩ := MustTritsToBytes_unpackAll b hb
  have hblen : ¬ b.length = 0 := fun h => hne (List.length_eq_zero.mp h)
  have htne : unpackAll b ≠ [] := by
    intro e
    rw [e] at hlen
    simp only [List.length_nil] at hlen
    omega
  refine ⟨unpackAll b, ?_, hlen, ?_⟩
  · simp only [BytesToTrits, validBytesForTrits_of_range b (fun x hx => (hb x hx).2)]
    exact MustBytesToTrits_none b hrows
  · simp only [TritsToBytes, validTrits_of_allTrits htne r2, r1]

theorem BytesToTrits_then_TritsToBytes_witness :
    ∃ t, BytesToTrits [1, 255, 121, 135] none = .ok t ∧ t.length = 5 * [1, 255, 121, 135].length ∧
      TritsToBytes t = .ok [1, 255, 121, 135] :=
  BytesToTrits_then_TritsToBytes [1, 255, 121, 135] (by decide) (by decide)

/-- C5: in a tree of depth `d ≤ 32` whose every node is the hash of its two children
(`layers (k-1) p = nodeHash (layers k (2p)) (layers k (2p+1))`, leaves in `layers d`, root
`layers 0 0`), for every leaf index `i < 2 ^ d`, `MerkleRoot` of the leaf, its index and
its audit path (the siblings `layers (d-k) ((i >> k) xor 1)`, leaf to root) returns the
root with no error, the sponge absorbing without failure and starting reset. -/
theorem MerkleRoot_of_auditPath {σ : Type} (h : SpongeFunction σ) (s0 : σ)
    (layers : Nat → Nat → Hash) (d i : Nat) (hd : d ≤ 32) (hi : i < 2 ^ d)
    (habs : ∀ s x, (h.AbsorbTrytes s x).2 = none) (hreset : ∀ s, h.Reset s = s0)
    (htree : ∀ k p, 1 ≤ k → k ≤ d → p < 2 ^ (k - 1) →
      layers (k - 1) p = nodeHash h s0 (layers k (2 * p)) (layers k (2 * p + 1))) :
    MerkleRoot h s0 (layers d i) i (auditPathOf layers d i) = ((layers 0 0, none), s0) := by
  have hlen := auditPathOf_length layers d i
  have h1 := MerkleRoot_eq_runningHash h s0 (layers d i) i (auditPathOf layers d i)
    (by omega) (by rw [hlen]; exact Len32_le_of_lt i d hi) habs hreset
  rw [h1, hlen, runningHash_eq_layer h s0 layers d i hi htree d (le_refl d)]
  have h2 : i >>> d = 0 := by
    rw [Nat.shiftRight_eq_div_pow]
    exact Nat.div_eq_of_lt hi
  rw [h2, Nat.sub_self]

theorem MerkleRoot_of_auditPath_witness :
    MerkleRoot concatSponge [] (exampleLayers 1 1) 1 (auditPathOf exampleLayers 1 1) =
      ((exampleLayers 0 0, none), []) :=
  MerkleRoot_of_auditPath concatSponge [] exampleLayers 1 1 (by decide) (by decide)
    (fun _ _ => rfl) (fun _ => rfl)
    (fun k p hk1 hk2 hp => by
      have ek : k = 1 := by omega
      subst ek
      have ep : p = 0 := by simpa using hp
      subst ep
      rfl)

/-- C6: when the length checks pass, the absorbs succeed and the sponge starts reset,
`MerkleRoot` returns `h_n` for `n = len(auditPath)`, where `h_0 = leafHash` and `h_(k+1)`
is `H(auditPath[k], h_k)` if bit `k` of `leafIndex` is set and `H(h_k, auditPath[k])`
otherwise; an empty audit path with `leafIndex = 0` returns `leafHash` unchanged. -/
theorem MerkleRoot_is_running_hash {σ : Type} (h : SpongeFunction σ) (s0 : σ) (leafHash : Hash)
    (leafIndex : Nat) (auditPath : List Hash) (hlen : auditPath.length ≤ 32)
    (hidx : Len32 leafIndex ≤ auditPath.length)
    (habs : ∀ s x, (h.AbsorbTrytes s x).2 = none) (hreset : ∀ s, h.Reset s = s0) :
    MerkleRoot h s0 leafHash leafIndex auditPath =
        ((runningHash h s0 leafHash leafIndex auditPath auditPath.length, none), s0) ∧
      (∀ k, k < auditPath.length →
        runningHash h s0 leafHash leafIndex auditPath (k + 1) =
          if leafIndex.testBit k then
            nodeHash h s0 (auditPath.getD k []) (runningHash h s0 leafHash leafIndex auditPath k)
          else
            nodeHash h s0 (runningHash h s0 leafHash leafIndex auditPath k) (auditPath.getD k [])) ∧
      runningHash h s0 leafHash leafIndex auditPath 0 = leafHash ∧
      MerkleRoot h s0 leafHash 0 [] = ((leafHash, none), s0) := by
  refine ⟨MerkleRoot_eq_runningHash h s0 leafHash leafIndex auditPath hlen hidx habs hreset,
    fun k _ => rfl, rfl, ?_⟩
  exact MerkleRoot_eq_runningHash h s0 leafHash 0 [] (by decide) (by decide) habs hreset

theorem MerkleRoot_is_running_hash_witness :
    MerkleRoot concatSponge [] [65] 2 [[66], [67]] = (([67, 65, 66], none), []) :=
  (MerkleRoot_is_running_hash concatSponge [] [65] 2 [[66], [67]] (by decide) (by decide)
    (fun _ _ => rfl) (fun _ => rfl)).1

/-- C7: if the audit path has more than 32 elements or the bit length of the leaf index
exceeds its length, `MerkleRoot` returns the empty hash and `ErrInvalidAuditPathLength` and
leaves the sponge as it was; if neither holds and every absorb succeeds, it returns no
error, as it does for `leafIndex = 2 ^ 32 - 1` with a path of 32 elements. -/
theorem MerkleRoot_length_checks {σ : Type} (h : SpongeFunction σ) (s : σ) (leafHash : Hash)
    (leafIndex : Nat) (auditPath : List Hash) :
    ((auditPath.length > 32 ∨ Len32 leafIndex > auditPath.length) →
        MerkleRoot h s leafHash leafIndex auditPath =
          (([], some Fail.ErrInvalidAuditPathLength), s)) ∧
      (¬ (auditPath.length > 32 ∨ Len32 leafIndex > auditPath.length) →
        (∀ s x, (h.AbsorbTrytes s x).2 = none) →
        (MerkleRoot h s leafHash leafIndex auditPath).1.2 = none) ∧
      (auditPath.length = 32 → (∀ s x, (h.AbsorbTrytes s x).2 = none) →
        (MerkleRoot h s leafHash (2 ^ 32 - 1) auditPath).1.2 = none) := by
  have hno : ∀ idx, ¬ (auditPath.length > 32 ∨ Len32 idx > auditPath.length) →
      (∀ s x, (h.AbsorbTrytes s x).2 = none) →
      (MerkleRoot h s leafHash idx auditPath).1.2 = none := by
    intro idx hc habs
    have h1 : ¬ auditPath.length > 32 := fun hh => hc (Or.inl hh)
    have h2 : ¬ Len32 idx > auditPath.length := fun hh => hc (Or.inr hh)
    simp only [MerkleRoot, if_neg h1, if_neg h2]
    exact MerkleRoot_loop_no_error h idx habs auditPath 1 leafHash s
  refine ⟨?_, hno leafIndex, ?_⟩
  · intro hc
    by_cases h1 : auditPath.length > 32
    · simp only [MerkleRoot, if_pos h1]
    · have h2 : Len32 leafIndex > auditPath.length := by
        rcases hc with hc | hc
        · exact absurd hc h1
        · exact hc
      simp only [MerkleRoot, if_neg h1, if_pos h2]
  · intro h32 habs
    have e : Len32 (2 ^ 32 - 1) = 32 := by decide
    exact hno (2 ^ 32 - 1) (by rw [e, h32]; omega) habs

theorem MerkleRoot_length_checks_witness :
    MerkleRoot concatSponge [7] [65] 2 [[66]] = (([], some Fail.ErrInvalidAuditPathLength), [7]) ∧
      (MerkleRoot concatSponge [7] [65] 1 [[66]]).1.2 = none :=
  ⟨(MerkleRoot_length_checks concatSponge [7] [65] 2 [[66]]).1 (by decide),
    (MerkleRoot_length_checks concatSponge [7] [65] 1 [[66]]).2.1 (by decide) (fun _ _ => rfl)⟩

/-- C8: for valid trit sequences `a` and `b` whose larger length `n` satisfies
`1 ≤ n ≤ 40` and whose integer sum has absolute value at most `(3 ^ n - 1) / 2`,
`TritsToInt (AddTrits a b) = TritsToInt a + TritsToInt b`. -/
theorem AddTrits_matches_integer_addition (a b : Trits)
    (ha : ∀ x ∈ a, ValidTrit x = true) (hb : ∀ x ∈ b, ValidTrit x = true)
    (h1 : 1 ≤ max a.length b.length) (h40 : max a.length b.length ≤ 40)
    (hsum : |TritsToInt a + TritsToInt b| ≤ (3 ^ max a.length b.length - 1) / 2) :
    TritsToInt (AddTrits a b) = TritsToInt a + TritsToInt b := by
  have ha2 : AllTrits a := fun x hx => (validTrit_iff x).mp (ha x hx)
  have hb2 : AllTrits b := fun x hx => (validTrit_iff x).mp (hb x hx)
  have hla : a.length ≤ max a.length b.length := le_max_left _ _
  have hlb : b.length ≤ max a.length b.length := le_max_right _ _
  simp only [AddTrits]
  generalize max a.length b.length = n at *
  rw [tritsToInt_eq_tritsVal a ha2 (by omega), tritsToInt_eq_tritsVal b hb2 (by omega)] at hsum ⊢
  have hne : ¬ n = 0 := by omega
  simp only [if_neg hne, AddTrits_loop_eq_addSuffix, List.drop_zero]
  obtain ⟨r1, r2, r3, r4⟩ := addSuffix_spec n a b 0 ha2 hb2 (by decide) hla hlb
  rw [tritsToInt_eq_tritsVal _ r2 (by omega)]
  have hbound := tritsVal_bound _ r2
  rw [r3] at hbound
  have hpos : (0 : Int) < 3 ^ n := by positivity
  have hodd : ((3 : Int) ^ n - 1) / 2 * 2 + 1 = 3 ^ n := by
    have := two_mul_maxAbs n
    have h2 : (2 : Int) * (maxAbs n : Int) + 1 = 3 ^ n := by exact_mod_cast this
    omega
  generalize (addSuffix a b n 0).2 = cout at *
  generalize tritsVal (addSuffix a b n 0).1 = out at *
  generalize tritsVal a + tritsVal b = s at *
  generalize (3 : Int) ^ n = p at *
  have ec : cout = -1 ∨ cout = 0 ∨ cout = 1 := by omega
  rcases abs_cases s with ⟨hs, _⟩ | ⟨hs, _⟩ <;> rcases abs_cases out with ⟨ho, _⟩ | ⟨ho, _⟩ <;>
    rcases ec with rfl | rfl | rfl <;> omega

theorem AddTrits_matches_integer_addition_witness :
    (∀ x ∈ ([1, 1] : Trits), ValidTrit x = true) ∧ (∀ x ∈ ([1, -1, 1] : Trits), ValidTrit x = true) ∧
      TritsToInt (AddTrits [1, 1] [1, -1, 1]) = TritsToInt [1, 1] + TritsToInt [1, -1, 1] :=
  ⟨by decide, by decide,
    AddTrits_matches_integer_addition [1, 1] [1, -1, 1] (by decide) (by decide) (by decide)
      (by decide) (by decide)⟩

/-- C9: `AddTrits` is commutative on all sequences, whatever their lengths. -/
theorem AddTrits_comm (a b : Trits) : AddTrits a b = AddTrits b a := by
  simp only [AddTrits, max_comm b.length a.length, AddTrits_loop_comm b a]

/-- C10: for every int64 `v` other than the smallest one, `MinTrits v` is the least
`n ≥ 1` with `|v| ≤ (3 ^ n - 1) / 2`; in particular `MinTrits 0 = 1`,
`MinTrits 88573 = 11` and `MinTrits 88574 = 12`. -/
theorem MinTrits_least (v : Int) (hv : IsInt64 v) (hmin : v ≠ minInt64) :
    (1 ≤ MinTrits v ∧ v.natAbs ≤ (3 ^ MinTrits v - 1) / 2 ∧
      ∀ n, 1 ≤ n → v.natAbs ≤ (3 ^ n - 1) / 2 → MinTrits v ≤ n) ∧
    MinTrits 0 = 1 ∧ MinTrits 88573 = 11 ∧ MinTrits 88574 = 12 := by
  have habs : v.natAbs ≤ 2 ^ 63 := by
    have hne : v ≠ -2 ^ 63 := hmin
    unfold IsInt64 at hv
    omega
  obtain ⟨r1, r2, r3⟩ := MinTrits_spec v habs
  exact ⟨⟨r2, r1, r3⟩, by decide, by decide, by decide⟩

theorem MinTrits_least_witness :
    IsInt64 88574 ∧ (88574 : Int) ≠ minInt64 ∧ MinTrits 88574 = 12 :=
  ⟨by unfold IsInt64; decide, by decide,
    (MinTrits_least 88574 (by unfold IsInt64; decide) (by decide)).2.2.2⟩

/-! ## Trits as integers, without a bound on the length -/

theorem tritsToInt_eq_tritsVal_of_range (t : Trits) (ht : AllTrits t)
    (h1 : -2 ^ 63 ≤ tritsVal t) (h2 : tritsVal t < 2 ^ 63) : TritsToInt t = tritsVal t := by
  induction t with
  | nil => rfl
  | cons x rest ih =>
    rw [allTrits_cons] at ht
    simp only [tritsVal] at h1 h2
    simp only [TritsToInt, tritsVal, TrinaryRadix]
    rw [ih ht.2 (by omega) (by omega)]
    exact wrapInt64_of_range (by push_cast; omega) (by push_cast; omega)

theorem tritsVal_eq_sum (t : Trits) :
    tritsVal t = ∑ i in Finset.range t.length, t.getD i 0 * 3 ^ i := by
  induction t with
  | nil => simp [tritsVal]
  | cons x rest ih =>
    rw [List.length_cons, Finset.sum_range_succ', tritsVal, ih, Finset.sum_mul]
    simp only [List.getD_cons_succ, List.getD_cons_zero, pow_zero, mul_one, pow_succ, mul_assoc]

theorem AddTrits_loop_length (a b : Trits) :
    ∀ n i carry, (AddTrits.loop a b n i carry).length = n := by
  intro n
  induction n with
  | zero => intro i carry; rfl
  | succ n ih => intro i carry; simp only [AddTrits.loop, List.length_cons, ih]

theorem getD_append_zeros (a : Trits) (k i : Nat) :
    (if i < (a ++ List.replicate k 0).length then (a ++ List.replicate k 0).getD i 0 else 0) =
      (if i < a.length then a.getD i 0 else 0) := by
  have h1 : ∀ (l : Trits), (if i < l.length then l.getD i 0 else 0) = l.getD i 0 := by
    intro l
    split_ifs with h
    · rfl
    · rw [List.getD_eq_default]; omega
  rw [h1, h1]
  by_cases hi : i < a.length
  · rw [List.getD_append _ _ _ _ hi]
  · have e1 : (List.replicate k (0 : Int)).getD (i - a.length) 0 = 0 := by
      simp only [List.getD_eq_getElem?_getD, List.getElem?_replicate]
      split_ifs <;> rfl
    have e2 : a.getD i 0 = 0 := List.getD_eq_default _ _ (by omega)
    rw [List.getD_append_right _ _ _ _ (by omega), e1, e2]

theorem AddTrits_loop_append_zeros (a b : Trits) (ka kb : Nat) :
    ∀ n i carry, AddTrits.loop (a ++ List.replicate ka 0) (b ++ List.replicate kb 0) n i carry =
      AddTrits.loop a b n i carry := by
  intro n
  induction n with
  | zero => intro i carry; rfl
  | succ n ih =>
    intro i carry
    simp only [AddTrits.loop, getD_append_zeros, ih]

/-- C11: for every int64 `v` other than the smallest, `IntToTrits v` is a sequence of
exactly `MinTrits v` trits, each in {-1, 0, 1}, and `TritsToInt` of it is `v`. -/
theorem IntToTrits_then_TritsToInt (v : Int) (hv : IsInt64 v) (hmin : v ≠ minInt64) :
    ∃ t, IntToTrits v = .ok t ∧ t.length = MinTrits v ∧ (∀ x ∈ t, ValidTrit x = true) ∧
      TritsToInt t = v := by
  have hne : v ≠ -2 ^ 63 := hmin
  have hv2 : -2 ^ 63 ≤ v ∧ v < 2 ^ 63 := hv
  obtain ⟨t, h1, h2, h3, h4, _⟩ := IntToTrits_spec v (by omega)
  refine ⟨t, h1, h2, fun x hx => (validTrit_iff x).mpr (h3 x hx), ?_⟩
  rw [tritsToInt_eq_tritsVal_of_range t h3 (by rw [h4]; exact hv2.1) (by rw [h4]; exact hv2.2), h4]

theorem IntToTrits_then_TritsToInt_witness :
    ∃ t, IntToTrits (-9223372036854775807) = .ok t ∧
      t.length = MinTrits (-9223372036854775807) ∧ (∀ x ∈ t, ValidTrit x = true) ∧
      TritsToInt t = -9223372036854775807 :=
  IntToTrits_then_TritsToInt (-9223372036854775807) (by unfold IsInt64; decide) (by decide)

/-- C15: `ValidTrits` returns an error, which is `ErrInvalidTrit`, if and only if the
sequence is empty or has an element outside {-1, 0, 1}; `ValidTrit t` is true exactly
when `-1 ≤ t ≤ 1`. -/
theorem ValidTrits_error_iff (t : Trits) :
    ((∃ e, ValidTrits t = some e) ↔ (t = [] ∨ ∃ x ∈ t, ¬ (-1 ≤ x ∧ x ≤ 1))) ∧
      (∀ e, ValidTrits t = some e → e = Fail.ErrInvalidTrit) ∧
      (∀ x : Int, ValidTrit x = true ↔ (-1 ≤ x ∧ x ≤ 1)) := by
  refine ⟨?_, ?_, validTrit_iff⟩
  · constructor
    · rintro ⟨e, he⟩
      by_contra hcon
      push_neg at hcon
      have hnone := validTrits_of_allTrits hcon.1 (fun x hx => hcon.2 x hx)
      rw [hnone] at he
      cases he
    · intro h
      cases hv : ValidTrits t with
      | some e => exact ⟨e, rfl⟩
      | none =>
        obtain ⟨h1, h2⟩ := allTrits_of_validTrits hv
        rcases h with h | ⟨x, hx, hbad⟩
        · exact absurd h h1
        · exact absurd (h2 x hx) hbad
  · intro e he
    unfold ValidTrits at he
    split_ifs at he <;> injection he with he <;> exact he.symm

/-- C17: for every sequence `t` of valid trits with at most 40 elements, `TritsToInt t` is
the sum over `i` of `t[i] * 3 ^ i`; `TritsToInt` of the empty sequence is 0. -/
theorem TritsToInt_eq_sum (t : Trits) (hvalid : ∀ x ∈ t, ValidTrit x = true)
    (hlen : t.length ≤ 40) :
    TritsToInt t = ∑ i in Finset.range t.length, t.getD i 0 * 3 ^ i ∧ TritsToInt [] = 0 := by
  have hall : AllTrits t := fun x hx => (validTrit_iff x).mp (hvalid x hx)
  exact ⟨by rw [tritsToInt_eq_tritsVal t hall hlen, tritsVal_eq_sum], rfl⟩

theorem TritsToInt_eq_sum_witness :
    TritsToInt [1, -1, 0, 1] = ∑ i in Finset.range ([1, -1, 0, 1] : Trits).length,
      ([1, -1, 0, 1] : Trits).getD i 0 * 3 ^ i ∧ TritsToInt [] = 0 :=
  TritsToInt_eq_sum [1, -1, 0, 1] (by decide) (by decide)

/-- C18: when `a` and `b` are not both empty, `AddTrits a b` has exactly
`max (len a) (len b)` trits, and it is the sum of the two operands extended with zeros to
that length; `AddTrits` of two empty sequences is `[0]`. -/
theorem AddTrits_length (a b : Trits) :
    (¬ (a = [] ∧ b = []) →
      (AddTrits a b).length = max a.length b.length ∧
      AddTrits a b =
        AddTrits (a ++ List.replicate (max a.length b.length - a.length) 0)
          (b ++ List.replicate (max a.length b.length - b.length) 0)) ∧
    AddTrits [] [] = [0] := by
  refine ⟨?_, rfl⟩
  intro hne
  have hla : a.length ≤ max a.length b.length := le_max_left _ _
  have hlb : b.length ≤ max a.length b.length := le_max_right _ _
  have hpos : ¬ max a.length b.length = 0 := by
    intro h0
    apply hne
    exact ⟨List.length_eq_zero.mp (by omega), List.length_eq_zero.mp (by omega)⟩
  have hmax : max (a ++ List.replicate (max a.length b.length - a.length) (0 : Int)).length
      (b ++ List.replicate (max a.length b.length - b.length) (0 : Int)).length =
      max a.length b.length := by
    simp only [List.length_append, List.length_replicate]
    omega
  constructor
  · simp only [AddTrits, if_neg hpos, AddTrits_loop_length]
  · simp only [AddTrits, hmax, if_neg hpos, AddTrits_loop_append_zeros]

theorem AddTrits_length_witness :
    (AddTrits [1, 1] [1]).length = max ([1, 1] : Trits).length ([1] : Trits).length :=
  ((AddTrits_length [1, 1] [1]).1 (by decide)).1

/-! ## The tryte alphabet -/

theorem validTryte_iff_mem (c : Nat) : validTryte c = true ↔ c ∈ tryteAlphabet := by
  constructor
  · intro hc
    have hr : c = 57 ∨ (65 ≤ c ∧ c ≤ 90) := by
      simp only [validTryte, Bool.or_eq_true, Bool.and_eq_true, decide_eq_true_eq] at hc
      omega
    rcases hr with rfl | ⟨h1, h2⟩
    · decide
    · interval_cases c <;> decide
  · intro hc
    have hall : tryteAlphabet.all validTryte = true := by decide
    exact List.all_eq_true.mp hall c hc

theorem tryte_char_of_trits (t0 t1 t2 : Int) (h0 : -1 ≤ t0 ∧ t0 ≤ 1) (h1 : -1 ≤ t1 ∧ t1 ≤ 1)
    (h2 : -1 ≤ t2 ∧ t2 ≤ 1) :
    MustTryteValueToTryte (wrapInt8 (t0 + t1 * 3 + t2 * 9)) =
      .ok (tryteAlphabet.getD ((t0 + 3 * t1 + 9 * t2) % 27).toNat 0) := by
  have e0 : t0 = -1 ∨ t0 = 0 ∨ t0 = 1 := by omega
  have e1 : t1 = -1 ∨ t1 = 0 ∨ t1 = 1 := by omega
  have e2 : t2 = -1 ∨ t2 = 0 ∨ t2 = 1 := by omega
  rcases e0 with rfl | rfl | rfl <;> rcases e1 with rfl | rfl | rfl <;>
    rcases e2 with rfl | rfl | rfl <;> rfl

theorem tryteAlphabet_index (v : Int) (h1 : -13 ≤ v) (h2 : v ≤ 13) :
    (tryteAlphabet.getD (v % 27).toNat 0 : Int) =
      if v = 0 then 57 else if 0 < v then 64 + v else 91 + v := by
  interval_cases v <;> rfl

theorem MustTritsToTrytes_chars : ∀ (n : Nat) (t : Trits), t.length = 3 * n → AllTrits t →
    ∃ s, MustTritsToTrytes t = .ok s ∧ s.length = n ∧
      ∀ i, i < n → s.getD i 0 = tryteAlphabet.getD
        ((t.getD (3 * i) 0 + 3 * t.getD (3 * i + 1) 0 + 9 * t.getD (3 * i + 2) 0) % 27).toNat
        0 := by
  intro n
  induction n with
  | zero =>
    intro t hlen _
    have e : t = [] := List.length_eq_zero.mp (by omega)
    subst e
    exact ⟨[], rfl, rfl, fun i hi => absurd hi (by omega)⟩
  | succ n ih =>
    intro t hlen ht
    match t, hlen, ht with
    | t0 :: t1 :: t2 :: rest, hlen, ht =>
      simp only [List.length_cons] at hlen
      rw [allTrits_cons, allTrits_cons, allTrits_cons] at ht
      obtain ⟨h0, h1, h2, hrest⟩ := ht
      obtain ⟨s, r1, r2, r3⟩ := ih rest (by omega) hrest
      have hc := tryte_char_of_trits t0 t1 t2 h0 h1 h2
      refine ⟨tryteAlphabet.getD ((t0 + 3 * t1 + 9 * t2) % 27).toNat 0 :: s, ?_, ?_, ?_⟩
      · simp only [MustTritsToTrytes, hc, ok_bind, r1]; rfl
      · simp only [List.length_cons, r2]
      · intro i hi
        cases i with
        | zero => rfl
        | succ j =>
          have e0 : 3 * (j + 1) = 3 * j + 1 + 1 + 1 := by omega
          have e1 : 3 * (j + 1) + 1 = 3 * j + 1 + 1 + 1 + 1 := by omega
          have e2 : 3 * (j + 1) + 2 = 3 * j + 2 + 1 + 1 + 1 := by omega
          rw [e2, e1, e0]
          simp only [List.getD_cons_succ]
          exact r3 j (by omega)
    | [], hlen, _ => simp at hlen
    | [_], hlen, _ => simp at hlen; omega
    | [_, _], hlen, _ => simp at hlen; omega

/-- C12: for every non-empty sequence of valid trits, `TritsToTrytes` returns an error if
and only if the length is not a multiple of 3, that error is `ErrInvalidTritsLength`, and
on success the result has exactly `len(trits) / 3` characters. -/
theorem TritsToTrytes_error_iff (t : Trits) (hne : t ≠ [])
    (hvalid : ∀ x ∈ t, ValidTrit x = true) :
    ((∃ e, TritsToTrytes t = .error e) ↔ t.length % 3 ≠ 0) ∧
      (∀ e, TritsToTrytes t = .error e → e = Fail.ErrInvalidTritsLength) ∧
      (∀ s, TritsToTrytes t = .ok s → s.length = t.length / 3) := by
  have hall : AllTrits t := fun x hx => (validTrit_iff x).mp (hvalid x hx)
  have hlen0 : ¬ t.length = 0 := fun h => hne (List.length_eq_zero.mp h)
  by_cases hmod : t.length % 3 = 0
  · have hl : t.length = 3 * (t.length / 3) := by omega
    obtain ⟨s, r1, r2, _⟩ := MustTritsToTrytes_roundtrip (t.length / 3) t hl hall
    have hok : TritsToTrytes t = .ok s := by
      simp only [TritsToTrytes, validTrits_of_allTrits hne hall, CanTritsToTrytes, if_neg hlen0,
        TritsPerTryte, hmod, decide_True, Bool.not_true]
      exact r1
    rw [hok]
    refine ⟨⟨?_, fun h => absurd hmod h⟩, ?_, ?_⟩
    · rintro ⟨e, he⟩; cases he
    · intro e he; cases he
    · intro s2 hs2
      injection hs2 with hs2
      rw [← hs2, r2]
  · have herr : TritsToTrytes t = .error Fail.ErrInvalidTritsLength := by
      simp only [TritsToTrytes, validTrits_of_allTrits hne hall, CanTritsToTrytes, if_neg hlen0,
        TritsPerTryte, hmod, decide_False, Bool.not_false, if_true]
    rw [herr]
    refine ⟨⟨fun _ => hmod, fun _ => ⟨_, rfl⟩⟩, ?_, ?_⟩
    · intro e he
      injection he with he
      exact he.symm
    · intro s hs; cases hs

theorem TritsToTrytes_error_iff_witness :
    (∃ e, TritsToTrytes [1, 0, -1, 1] = .error e) ↔ ([1, 0, -1, 1] : Trits).length % 3 ≠ 0 :=
  (TritsToTrytes_error_iff [1, 0, -1, 1] (by decide) (by decide)).1

/-- C13: for every string `s`, `TrytesToTrits s` fails with `ErrInvalidTrytes` if and only
if `s` is empty or has a character outside the alphabet `9ABCDEFGHIJKLMNOPQRSTUVWXYZ`;
otherwise it returns exactly `3 * len(s)` trits, all in {-1, 0, 1}. -/
theorem TrytesToTrits_error_iff (s : Trytes) :
    (TrytesToTrits s = .error Fail.ErrInvalidTrytes ↔ (s = [] ∨ ∃ c ∈ s, c ∉ tryteAlphabet)) ∧
      (¬ (s = [] ∨ ∃ c ∈ s, c ∉ tryteAlphabet) →
        ∃ t, TrytesToTrits s = .ok t ∧ t.length = 3 * s.length ∧
          ∀ x ∈ t, ValidTrit x = true) := by
  have hgood : ¬ (s = [] ∨ ∃ c ∈ s, c ∉ tryteAlphabet) →
      ∃ t, TrytesToTrits s = .ok t ∧ t.length = 3 * s.length ∧
        ∀ x ∈ t, ValidTrit x = true := by
    intro h
    push_neg at h
    have hall : s.all validTryte = true :=
      List.all_eq_true.mpr (fun c hc => (validTryte_iff_mem c).mpr (h.2 c hc))
    obtain ⟨t, r1, r2, r3, _⟩ := MustTrytesToTrits_roundtrip s hall
    refine ⟨t, ?_, r2, fun x hx => (validTrit_iff x).mpr (r3 x hx)⟩
    simp only [TrytesToTrits, (validTrytes_iff s).mpr ⟨h.1, hall⟩]
    exact r1
  refine ⟨⟨?_, ?_⟩, hgood⟩
  · intro herr
    by_contra hcon
    obtain ⟨t, ht, _⟩ := hgood hcon
    rw [ht] at herr
    cases herr
  · intro hbad
    have hv : ValidTrytes s = some Fail.ErrInvalidTrytes := by
      unfold ValidTrytes
      split_ifs with h1 h2
      · rfl
      · exfalso
        rcases hbad with h | ⟨c, hc, hcn⟩
        · exact h1 h
        · exact hcn ((validTryte_iff_mem c).mp (List.all_eq_true.mp h2 c hc))
      · rfl
    simp only [TrytesToTrits, hv]

/-- C16: for every sequence `t` of `3 * L` valid trits with `L ≥ 1`, character `i` of
`TritsToTrytes t` is the character at index `v mod 27` of the alphabet
`9ABCDEFGHIJKLMNOPQRSTUVWXYZ`, where `v = t[3i] + 3 * t[3i+1] + 9 * t[3i+2]`; so the value
0 gives `9` (byte 57), 1 to 13 give `A` to `M` (bytes 65 to 77) and -13 to -1 give `N` to
`Z` (bytes 78 to 90). -/
theorem TritsToTrytes_chars (t : Trits) (L : Nat) (hL : 1 ≤ L) (hlen : t.length = 3 * L)
    (hvalid : ∀ x ∈ t, ValidTrit x = true) :
    (∃ s, TritsToTrytes t = .ok s ∧ s.length = L ∧
      ∀ i, i < L → s.getD i 0 = tryteAlphabet.getD
        ((t.getD (3 * i) 0 + 3 * t.getD (3 * i + 1) 0 + 9 * t.getD (3 * i + 2) 0) % 27).toNat
        0) ∧
    (∀ v : Int, -13 ≤ v → v ≤ 13 →
      (tryteAlphabet.getD (v % 27).toNat 0 : Int) =
        if v = 0 then 57 else if 0 < v then 64 + v else 91 + v) := by
  have hall : AllTrits t := fun x hx => (validTrit_iff x).mp (hvalid x hx)
  have hlen0 : ¬ t.length = 0 := by omega
  have hne : t ≠ [] := fun e => hlen0 (by rw [e]; rfl)
  have hmod : t.length % 3 = 0 := by omega
  obtain ⟨s, r1, r2, r3⟩ := MustTritsToTrytes_chars L t hlen hall
  refine ⟨⟨s, ?_, r2, r3⟩, tryteAlphabet_index⟩
  simp only [TritsToTrytes, validTrits_of_allTrits hne hall, CanTritsToTrytes, if_neg hlen0,
    TritsPerTryte, hmod, decide_True, Bool.not_true]
  exact r1

theorem TritsToTrytes_chars_witness :
    ∃ s, TritsToTrytes [1, 0, 0, -1, -1, -1] = .ok s ∧ s.length = 2 ∧
      ∀ i, i < 2 → s.getD i 0 = tryteAlphabet.getD
        ((([1, 0, 0, -1, -1, -1] : Trits).getD (3 * i) 0 +
          3 * ([1, 0, 0, -1, -1, -1] : Trits).getD (3 * i + 1) 0 +
          9 * ([1, 0, 0, -1, -1, -1] : Trits).getD (3 * i + 2) 0) % 27).toNat 0 :=
  (TritsToTrytes_chars [1, 0, 0, -1, -1, -1] 2 (by decide) (by decide) (by decide)).1

/-! ## Unpacked bytes, trit by trit -/

set_option maxRecDepth 100000 in
theorem byte_row_value : ∀ b, b < 256 → -121 ≤ byteToInt8 b ∧ byteToInt8 b ≤ 121 →
    tritsVal (bytesToTritsLUT.getD b []) = byteToInt8 b := by
  decide

theorem validBytesForTrits_of_bad (bytes : List Nat)
    (h : ∃ x ∈ bytes, ¬ (-121 ≤ byteToInt8 x ∧ byteToInt8 x ≤ 121)) :
    ValidBytesForTrits bytes = some Fail.ErrInvalidByte := by
  induction bytes with
  | nil =>
    obtain ⟨x, hx, _⟩ := h
    cases hx
  | cons b rest ih =>
    simp only [ValidBytesForTrits]
    by_cases hb : byteToInt8 b > 121 ∨ byteToInt8 b < -121
    · rw [if_pos hb]
    · rw [if_neg hb]
      apply ih
      obtain ⟨x, hx, hbad⟩ := h
      rcases List.mem_cons.mp hx with e | hmem
      · subst e
        exfalso
        apply hbad
        omega
      · exact ⟨x, hmem, hbad⟩

theorem unpackAll_weighted_sum : ∀ (bytes : List Nat),
    (∀ x ∈ bytes, x < 256 ∧ -121 ≤ byteToInt8 x ∧ byteToInt8 x ≤ 121) →
    ∀ i, i < bytes.length →
      (unpackAll bytes).getD (5 * i) 0 + 3 * (unpackAll bytes).getD (5 * i + 1) 0 +
        9 * (unpackAll bytes).getD (5 * i + 2) 0 + 27 * (unpackAll bytes).getD (5 * i + 3) 0 +
        81 * (unpackAll bytes).getD (5 * i + 4) 0 = byteToInt8 (bytes.getD i 0) := by
  intro bytes
  induction bytes with
  | nil => intro _ i hi; simp at hi
  | cons b rest ih =>
    intro h i hi
    obtain ⟨hb1, hb2⟩ := h b (List.mem_cons_self _ _)
    obtain ⟨r1, _, _⟩ := byte_row_spec b hb1 hb2
    have hv := byte_row_value b hb1 hb2
    simp only [unpackAll]
    generalize bytesToTritsLUT.getD b [] = row at r1 hv
    match row, r1, hv with
    | [t0, t1, t2, t3, t4], _, hv =>
      simp only [tritsVal] at hv
      cases i with
      | zero =>
        simp only [Nat.mul_zero, Nat.zero_add, List.cons_append, List.nil_append,
          List.getD_cons_zero, List.getD_cons_succ]
        omega
      | succ j =>
        have e0 : 5 * (j + 1) = 5 * j + 1 + 1 + 1 + 1 + 1 := by omega
        have e1 : 5 * (j + 1) + 1 = 5 * j + 1 + 1 + 1 + 1 + 1 + 1 := by omega
        have e2 : 5 * (j + 1) + 2 = 5 * j + 2 + 1 + 1 + 1 + 1 + 1 := by omega
        have e3 : 5 * (j + 1) + 3 = 5 * j + 3 + 1 + 1 + 1 + 1 + 1 := by omega
        have e4 : 5 * (j + 1) + 4 = 5 * j + 4 + 1 + 1 + 1 + 1 + 1 := by omega
        rw [e4, e3, e2, e1, e0]
        simp only [List.cons_append, List.nil_append, List.getD_cons_succ]
        simp only [List.length_cons] at hi
        exact ih (fun x hx => h x (List.mem_cons_of_mem _ hx)) j (by omega)

/-- C14: for every byte sequence `b`, `BytesToTrits b` without an explicit length fails
with `ErrInvalidByte` if and only if some byte of `b`, read as a signed 8-bit value, lies
outside [-121, 121]; otherwise it succeeds with `5 * len(b)` trits, all in {-1, 0, 1},
and for each `i` the sum `t[5i] + 3 t[5i+1] + 9 t[5i+2] + 27 t[5i+3] + 81 t[5i+4]` is the
signed value of `b[i]`. -/
theorem BytesToTrits_error_iff (b : List Nat) (hb : ∀ x ∈ b, x < 256) :
    (BytesToTrits b none = .error Fail.ErrInvalidByte ↔
        ∃ x ∈ b, ¬ (-121 ≤ byteToInt8 x ∧ byteToInt8 x ≤ 121)) ∧
      (¬ (∃ x ∈ b, ¬ (-121 ≤ byteToInt8 x ∧ byteToInt8 x ≤ 121)) →
        ∃ t, BytesToTrits b none = .ok t ∧ t.length = 5 * b.length ∧
          (∀ x ∈ t, ValidTrit x = true) ∧
          ∀ i, i < b.length →
            t.getD (5 * i) 0 + 3 * t.getD (5 * i + 1) 0 + 9 * t.getD (5 * i + 2) 0 +
              27 * t.getD (5 * i + 3) 0 + 81 * t.getD (5 * i + 4) 0 =
              byteToInt8 (b.getD i 0)) := by
  have hgood : ¬ (∃ x ∈ b, ¬ (-121 ≤ byteToInt8 x ∧ byteToInt8 x ≤ 121)) →
      ∃ t, BytesToTrits b none = .ok t ∧ t.length = 5 * b.length ∧
        (∀ x ∈ t, ValidTrit x = true) ∧
        ∀ i, i < b.length →
          t.getD (5 * i) 0 + 3 * t.getD (5 * i + 1) 0 + 9 * t.getD (5 * i + 2) 0 +
            27 * t.getD (5 * i + 3) 0 + 81 * t.getD (5 * i + 4) 0 =
            byteToInt8 (b.getD i 0) := by
    intro h
    push_neg at h
    have hb2 : ∀ x ∈ b, x < 256 ∧ -121 ≤ byteToInt8 x ∧ byteToInt8 x ≤ 121 :=
      fun x hx => ⟨hb x hx, h x hx⟩
    have hrows : ∀ x ∈ b, (bytesToTritsLUT.getD x []).length = 5 :=
      fun x hx => (byte_row_spec x (hb2 x hx).1 (hb2 x hx).2).1
    obtain ⟨_, r2⟩ := MustTritsToBytes_unpackAll b hb2
    refine ⟨unpackAll b, ?_, unpackAll_length b hrows,
      fun x hx => (validTrit_iff x).mpr (r2 x hx), unpackAll_weighted_sum b hb2⟩
    simp only [BytesToTrits, validBytesForTrits_of_range b h]
    exact MustBytesToTrits_none b hrows
  refine ⟨⟨?_, ?_⟩, hgood⟩
  · intro herr
    by_contra hcon
    obtain ⟨t, ht, _⟩ := hgood hcon
    rw [ht] at herr
    cases herr
  · intro hbad
    simp only [BytesToTrits, validBytesForTrits_of_bad b hbad]

theorem BytesToTrits_error_iff_witness :
    BytesToTrits [1, 122, 255] none = .error Fail.ErrInvalidByte ∧
      ∃ t, BytesToTrits [1, 121, 255] none = .ok t ∧ t.length = 5 * [1, 121, 255].length :=
  ⟨(BytesToTrits_error_iff [1, 122, 255] (by decide)).1.mpr ⟨122, by decide, by decide⟩,
    by
      obtain ⟨t, h1, h2, _⟩ := (BytesToTrits_error_iff [1, 121, 255] (by decide)).2 (by decide)
      exact ⟨t, h1, h2⟩⟩

/-- C19: for every nonzero int64 `v` other than the smallest, with
`g = ceil(MinTrits v / 3)`, `EncodeInt64 v` returns `(t, size, nil)` with
`len(t) = size = EncodedLength v = 3 * g + MinTrits (2 ^ g - 1)` and every trit of `t` in
{-1, 0, 1}; for `v = 0` it returns the sentinel `[1, 0, 0, -1]` with size 4. -/
theorem EncodeInt64_length (v : Int) (hv : IsInt64 v) (hmin : v ≠ minInt64) :
    (v ≠ 0 → ∃ t size, EncodeInt64 v = .ok (t, size) ∧ t.length = size ∧
        size = EncodedLength v ∧
        EncodedLength v =
          3 * ((MinTrits v + 2) / 3) + MinTrits (2 ^ ((MinTrits v + 2) / 3) - 1) ∧
        ∀ x ∈ t, ValidTrit x = true) ∧
      EncodeInt64 0 = .ok ([1, 0, 0, -1], 4) := by
  refine ⟨?_, rfl⟩
  intro hv0
  have hne : v ≠ -2 ^ 63 := hmin
  have hv2 : -2 ^ 63 ≤ v ∧ v < 2 ^ 63 := hv
  obtain ⟨low, dl, enc, hlow, hdl, hdl0, hg, _, hencl, henca, _, henc, hsize⟩ :=
    EncodeInt64_spec v hv0 (by omega)
  have hm41 := MinTrits_le_41 v (by omega)
  have hmask := maskInt64_eq (low.length + 1) (by omega)
  have hel := map_flipLow_allDigits low hlow
  have hed := flipLast_pos dl hdl hdl0
  have hlen1 := tritsOfDigits_length _ hel
  rw [List.length_map] at hlen1
  obtain ⟨_, _, edl, eda, _⟩ := digit_conversions (flipLast dl) (by omega) hed.2
  refine ⟨_, _, henc, ?_, rfl, ?_, ?_⟩
  · simp only [List.length_append, hlen1, edl, hsize]; omega
  · rw [hsize, hencl, hmask, ← hg]
  · intro x hx
    have hall : AllTrits (tritsOfDigits (low.map flipLow) ++ tritsOfDigit (flipLast dl) ++ enc) :=
      allTrits_append.mpr ⟨allTrits_append.mpr ⟨tritsOfDigits_allTrits _ hel,
        allTrits_of_all eda⟩, henca⟩
    exact (validTrit_iff x).mpr (hall x hx)

theorem EncodeInt64_length_witness :
    ∃ t size, EncodeInt64 (-365) = .ok (t, size) ∧ t.length = size ∧
      size = EncodedLength (-365) ∧
      EncodedLength (-365) =
        3 * ((MinTrits (-365) + 2) / 3) + MinTrits (2 ^ ((MinTrits (-365) + 2) / 3) - 1) ∧
      ∀ x ∈ t, ValidTrit x = true :=
  (EncodeInt64_length (-365) (by unfold IsInt64; decide) (by decide)).1 (by decide)

/-! ## The decoder on a buffer without a terminal group -/

theorem DecodeInt64_scan_all_nonpos (t : Trits) (n : Nat) (hlen : t.length = 3 * n)
    (hg : ∀ k, k < n → TritsToInt ((t.drop (3 * k)).take 3) ≤ 0) :
    ∀ j k fuel, k + j = n → j < fuel → DecodeInt64.scan t fuel (3 * k) = .ok (3 * n) := by
  intro j
  induction j with
  | zero =>
    intro k fuel hk hfuel
    have e : k = n := by omega
    subst e
    cases fuel with
    | zero => omega
    | succ f =>
      have hc : ¬ 3 * k < t.length := by omega
      simp only [DecodeInt64.scan, if_neg hc]
  | succ j ih =>
    intro k fuel hk hfuel
    cases fuel with
    | zero => omega
    | succ f =>
      have hc : 3 * k < t.length := by omega
      have hs : slice t (3 * k) (3 * k + TrinaryRadix) = .ok ((t.drop (3 * k)).take 3) := by
        have hb : 3 * k ≤ 3 * k + TrinaryRadix ∧ 3 * k + TrinaryRadix ≤ t.length := by
          simp only [TrinaryRadix]; omega
        rw [slice, if_pos hb]
        simp only [TrinaryRadix, Nat.add_sub_cancel_left]
      have hi : 3 * k + TrinaryRadix = 3 * (k + 1) := by simp only [TrinaryRadix]; omega
      rw [hi] at hs
      simp only [DecodeInt64.scan, if_pos hc, hi, hs, ok_bind, if_pos (hg k (by omega))]
      exact ih (k + 1) f (by omega) (by omega)

/-- When the length is a multiple of 3 and no tryte group has a positive value, the
decoder returns its error. -/
theorem DecodeInt64_no_terminal_group (t : Trits) (n : Nat) (hlen : t.length = 3 * n)
    (h4 : 4 ≤ t.length) (hvalid : AllTrits t) (hzero : t.take 4 ≠ encodedZero)
    (hg : ∀ k, k < n → TritsToInt ((t.drop (3 * k)).take 3) ≤ 0) :
    DecodeInt64 t = .error (.errorsNew "encodingStart > numTrits") := by
  have hc : 0 ≤ 4 ∧ 4 ≤ t.length := by omega
  have hs : slice t 0 4 = .ok (t.take 4) := by
    rw [slice, if_pos hc, List.drop_zero, Nat.sub_zero]
  have hl4 : (t.take 4).length = 4 := by rw [List.length_take]; omega
  have hne : t.take 4 ≠ [] := by
    intro e; rw [e] at hl4; simp at hl4
  have hv : ValidTrits (t.take 4) = none :=
    validTrits_of_allTrits hne (fun x hx => hvalid x (List.mem_of_mem_take hx))
  have hlne : ¬ (t.take 4).length ≠ encodedZero.length := by rw [hl4]; decide
  have heq : TritsEqual (t.take 4) encodedZero = .ok false := by
    simp only [TritsEqual, hv, validTrits_encodedZero, if_neg hlne, hzero, decide_False]
  have hscan := DecodeInt64_scan_all_nonpos t n hlen hg n 0 (t.length + 1) (by omega) (by omega)
  simp only [Nat.mul_zero] at hscan
  have hge : 3 * n ≥ t.length := by omega
  simp only [DecodeInt64, hs, ok_bind, heq, Bool.false_eq_true, if_false, hscan, if_pos hge]

set_option maxRecDepth 100000 in
theorem DecodeInt64_four_zeros : DecodeInt64 [0, 0, 0, 0] = .error Fail.goPanic := by
  rfl

/-- C20 fails on the code: on the buffer `[0, 0, 0, 0]`, whose only complete tryte group
has value 0, `DecodeInt64` does not return an error; after the first group it evaluates
the slice expression `t[3:6]` on a buffer of 4 trits, which panics (and reads past the
length when the capacity allows it). On the buffer of 6 zero trits it returns its error. -/
theorem DecodeInt64_partial_last_group :
    (∀ x ∈ ([0, 0, 0, 0] : Trits), ValidTrit x = true) ∧
      ([0, 0, 0, 0] : Trits) ≠ encodedZero ∧
      TritsToInt [0, 0, 0] ≤ 0 ∧
      DecodeInt64 [0, 0, 0, 0] = .error Fail.goPanic ∧
      DecodeInt64 [0, 0, 0, 0, 0, 0] = .error (.errorsNew "encodingStart > numTrits") := by
  refine ⟨by decide, by decide, by decide, DecodeInt64_four_zeros, ?_⟩
  exact DecodeInt64_no_terminal_group [0, 0, 0, 0, 0, 0] 2 rfl (by decide) (allTrits_of_all rfl)
    (by decide) (by decide)

/-! ## Addresses and checksums -/

theorem slice_take {α : Type} (s : List α) (n : Nat) (h : n ≤ s.length) :
    slice s 0 n = .ok (s.take n) := by
  have hc : 0 ≤ n ∧ n ≤ s.length := ⟨Nat.zero_le _, h⟩
  simp only [slice, if_pos hc, List.drop_zero, Nat.sub_zero]

theorem slice_drop {α : Type} (s : List α) (n : Nat) (h : n ≤ s.length) :
    slice s n s.length = .ok (s.drop n) := by
  have hc : n ≤ s.length ∧ s.length ≤ s.length := ⟨h, le_refl _⟩
  simp only [slice, if_pos hc]
  rw [List.take_of_length_le (by simp)]

theorem validTrytes_none_iff (s : Trytes) (hs : s ≠ []) :
    ValidTrytes s = none ↔ ∀ c ∈ s, c ∈ tryteAlphabet := by
  rw [validTrytes_iff, List.all_eq_true]
  constructor
  · rintro ⟨_, h⟩ c hc
    exact (validTryte_iff_mem c).mp (h c hc)
  · intro h
    exact ⟨hs, fun c hc => (validTryte_iff_mem c).mpr (h c hc)⟩

theorem Checksum_of_length {AddChecksum : AddChecksumFn} (address : Hash)
    (h : 81 ≤ address.length) :
    Checksum AddChecksum address =
      match AddChecksum (address.take 81) true 9 with
      | .error err => .error err
      | .ok w => slice w 81 90 := by
  have hlt : ¬ address.length < 81 := by omega
  rw [Checksum, if_neg hlt, slice_take address 81 h]
  all_goals rfl

/-- C21: `ValidAddress` returns `ErrInvalidAddress` for every address whose length is
neither 81 nor 90; for length 81 it returns `nil` exactly when every character is a tryte
character; for length 90 it returns `nil` exactly when
`ValidChecksum(address[:81], address[81:])` returns `nil` and every character is a tryte
character. -/
theorem ValidAddress_by_length (AddChecksum : AddChecksumFn) (address : Hash) :
    (address.length ≠ 81 → address.length ≠ 90 →
        ValidAddress AddChecksum address = .error Fail.ErrInvalidAddress) ∧
      (address.length = 81 →
        (ValidAddress AddChecksum address = .ok () ↔ ∀ c ∈ address, c ∈ tryteAlphabet)) ∧
      (address.length = 90 →
        (ValidAddress AddChecksum address = .ok () ↔
          (ValidChecksum AddChecksum (address.take 81) (address.drop 81) = .ok () ∧
            ∀ c ∈ address, c ∈ tryteAlphabet))) := by
  have hvt : address ≠ [] →
      ((match ValidTrytes address with
        | some err => (.error err : Res Unit)
        | none => .ok ()) = .ok () ↔ ∀ c ∈ address, c ∈ tryteAlphabet) := by
    intro hne
    rw [← validTrytes_none_iff address hne]
    cases ValidTrytes address with
    | none => simp
    | some e => simp
  refine ⟨?_, ?_, ?_⟩
  · intro h81 h90
    simp only [ValidAddress, if_neg h90, if_neg h81]
  · intro h81
    have h90 : ¬ address.length = 90 := by omega
    have hne : address ≠ [] := by
      intro h
      rw [h] at h81
      cases h81
    simp only [ValidAddress, if_neg h90, if_pos h81]
    exact hvt hne
  · intro h90
    have hne : address ≠ [] := by
      intro h
      rw [h] at h90
      cases h90
    simp only [ValidAddress, if_pos h90, slice_take address 81 (by omega),
      slice_drop address 81 (by omega)]
    cases hc : ValidChecksum AddChecksum (address.take 81) (address.drop 81) with
    | error e => simp
    | ok u =>
      cases u
      simp only [true_and]
      exact hvt hne

theorem ValidAddress_by_length_witness :
    ValidAddress exampleAddChecksum (List.replicate 7 65) = .error Fail.ErrInvalidAddress ∧
      (ValidAddress exampleAddChecksum (List.replicate 81 65) = .ok () ↔
        ∀ c ∈ List.replicate 81 65, c ∈ tryteAlphabet) ∧
      (ValidAddress exampleAddChecksum (List.replicate 90 65) = .ok () ↔
        (ValidChecksum exampleAddChecksum ((List.replicate 90 65).take 81)
            ((List.replicate 90 65).drop 81) = .ok () ∧
          ∀ c ∈ List.replicate 90 65, c ∈ tryteAlphabet)) :=
  ⟨(ValidAddress_by_length exampleAddChecksum (List.replicate 7 65)).1 (by decide) (by decide),
    (ValidAddress_by_length exampleAddChecksum (List.replicate 81 65)).2.1 (by decide),
    (ValidAddress_by_length exampleAddChecksum (List.replicate 90 65)).2.2 (by decide)⟩

/-- C22: `Checksum` returns `ErrInvalidAddress` for every address shorter than 81
characters, whatever the checksum function is (it is not called); for every address of
length at least 81 the result is that of its first 81 characters,
`Checksum(address) = Checksum(address[:81])`; and a successful result is the 9 characters
at the positions 81 to 89 of `AddChecksum(address[:81], true, 9)`. -/
theorem Checksum_of_first_81 (AddChecksum : AddChecksumFn) (address : Hash) :
    (address.length < 81 →
        ∀ other : AddChecksumFn, Checksum other address = .error Fail.ErrInvalidAddress) ∧
      (81 ≤ address.length →
        Checksum AddChecksum address = Checksum AddChecksum (address.take 81)) ∧
      (∀ c, Checksum AddChecksum address = .ok c →
        81 ≤ address.length ∧
          ∃ w, AddChecksum (address.take 81) true 9 = .ok w ∧ 90 ≤ w.length ∧
            c = (w.drop 81).take 9 ∧ c.length = 9 ∧
            ∀ i, i < 9 → c.getD i 0 = w.getD (81 + i) 0) ∧
      (∀ w, 81 ≤ address.length → AddChecksum (address.take 81) true 9 = .ok w →
        90 ≤ w.length → Checksum AddChecksum address = .ok ((w.drop 81).take 9)) := by
  have hslice : ∀ w : Trytes, 90 ≤ w.length → slice w 81 90 = .ok ((w.drop 81).take 9) := by
    intro w hw
    have hc : 81 ≤ 90 ∧ 90 ≤ w.length := ⟨by decide, hw⟩
    simp only [slice, if_pos hc]
  refine ⟨?_, ?_, ?_, ?_⟩
  · intro h other
    simp only [Checksum, if_pos h]
  · intro h
    have h2 : 81 ≤ (address.take 81).length := by
      rw [List.length_take]
      omega
    rw [Checksum_of_length address h, Checksum_of_length (address.take 81) h2, List.take_take]
    simp only [min_self]
  · intro c hc
    by_cases h : address.length < 81
    · simp only [Checksum, if_pos h] at hc
      cases hc
    · have h81 : 81 ≤ address.length := by omega
      refine ⟨h81, ?_⟩
      rw [Checksum_of_length address h81] at hc
      cases hw : AddChecksum (address.take 81) true 9 with
      | error e =>
        rw [hw] at hc
        cases hc
      | ok w =>
        rw [hw] at hc
        simp only [] at hc
        by_cases hlen : 90 ≤ w.length
        · rw [hslice w hlen] at hc
          injection hc with hc
          subst hc
          refine ⟨w, rfl, hlen, rfl, ?_, ?_⟩
          · simp only [List.length_take, List.length_drop]
            omega
          · intro i hi
            have h1 : i < ((w.drop 81).take 9).length := by
              simp only [List.length_take, List.length_drop]
              omega
            have h2 : 81 + i < w.length := by omega
            rw [List.getD_eq_getElem _ _ h1, List.getD_eq_getElem _ _ h2]
            simp only [List.getElem_take, List.getElem_drop]
        · have hno : ¬ (81 ≤ 90 ∧ 90 ≤ w.length) := fun hh => hlen hh.2
          simp only [slice, if_neg hno] at hc
          cases hc
  · intro w h81 hw hlen
    rw [Checksum_of_length address h81, hw]
    exact hslice w hlen

theorem Checksum_of_first_81_witness :
    Checksum exampleAddChecksum (List.replicate 85 65) =
        Checksum exampleAddChecksum ((List.replicate 85 65).take 81) ∧
      Checksum (fun _ _ _ => .error Fail.goPanic) (List.replicate 80 65) =
        .error Fail.ErrInvalidAddress :=
  ⟨(Checksum_of_first_81 exampleAddChecksum (List.replicate 85 65)).2.1 (by decide),
    (Checksum_of_first_81 exampleAddChecksum (List.replicate 80 65)).1 (by decide) _⟩

/-- C23: for every address that passes `ValidAddress` and whose `Checksum` is `cs`,
`ValidChecksum(address, cs)` returns `nil`, and for every string `c` other than `cs`
`ValidChecksum(address, c)` returns `ErrInvalidChecksum`. -/
theorem ValidChecksum_of_Checksum (AddChecksum : AddChecksumFn) (address : Hash)
    (cs : Trytes) (_hvalid : ValidAddress AddChecksum address = .ok ())
    (hcs : Checksum AddChecksum address = .ok cs) :
    ValidChecksum AddChecksum address cs = .ok () ∧
      ∀ c, c ≠ cs → ValidChecksum AddChecksum address c = .error Fail.ErrInvalidChecksum := by
  refine ⟨?_, ?_⟩
  · simp only [ValidChecksum, hcs, ne_eq, not_true_eq_false, if_false]
  · intro c hc
    simp only [ValidChecksum, hcs, ne_eq, hc, not_false_eq_true, if_true]

set_option maxRecDepth 100000 in
theorem ValidChecksum_of_Checksum_witness :
    ValidChecksum exampleAddChecksum (List.replicate 81 65) (List.replicate 9 65) = .ok () ∧
      ValidChecksum exampleAddChecksum (List.replicate 81 65) (List.replicate 9 66) =
        .error Fail.ErrInvalidChecksum :=
  ⟨(ValidChecksum_of_Checksum exampleAddChecksum (List.replicate 81 65) (List.replicate 9 65)
      rfl rfl).1,
    (ValidChecksum_of_Checksum exampleAddChecksum (List.replicate 81 65) (List.replicate 9 65)
      rfl rfl).2 (List.replicate 9 66) (by decide)⟩

/-! ## Generation of a range of addresses -/

theorem padSeed_length : ∀ (fuel : Nat) (seed : Trytes),
    (81 - seed.length % 81) % 81 ≤ fuel →
      (GenerateAddress.padSeed fuel seed).length % 81 = 0 ∧
        seed.length ≤ (GenerateAddress.padSeed fuel seed).length ∧
        (GenerateAddress.padSeed fuel seed).length < seed.length + 81 := by
  intro fuel
  induction fuel with
  | zero =>
    intro seed h
    simp only [GenerateAddress.padSeed]
    omega
  | succ fuel ih =>
    intro seed h
    simp only [GenerateAddress.padSeed]
    split_ifs with hc
    · have hl : (seed ++ [57]).length = seed.length + 1 := by simp
      obtain ⟨r1, r2, r3⟩ := ih (seed ++ [57]) (by rw [hl]; omega)
      rw [hl] at r2 r3
      refine ⟨r1, by omega, ?_⟩
      by_contra hcon
      omega
    · omega

theorem getD_set_self {α : Type} (l : List α) (i : Nat) (a d : α) (h : i < l.length) :
    (l.set i a).getD i d = a := by
  induction l generalizing i with
  | nil => cases h
  | cons x rest ih =>
    cases i with
    | zero => rfl
    | succ i =>
      simp only [List.set_cons_succ, List.getD_cons_succ]
      exact ih i (by simpa using h)

theorem getD_set_other {α : Type} (l : List α) (i k : Nat) (a d : α) (h : k ≠ i) :
    (l.set i a).getD k d = l.getD k d := by
  induction l generalizing i k with
  | nil => rfl
  | cons x rest ih =>
    cases i with
    | zero =>
      cases k with
      | zero => exact absurd rfl h
      | succ k => rfl
    | succ i =>
      cases k with
      | zero => rfl
      | succ k =>
        simp only [List.set_cons_succ, List.getD_cons_succ]
        exact ih i k (by omega)

theorem GenerateAddresses_loop_spec (gen : Nat → Res Hash) (start count : Nat) :
    ∀ (fuel i : Nat) (addresses : List Hash), i + fuel = count → addresses.length = count →
      ((∀ k, i ≤ k → k < count → ∃ a, gen ((start + k) % 2 ^ 64) = .ok a) →
        ∃ l, GenerateAddresses.loop gen start (count : Int) fuel i addresses = .ok l ∧
          l.length = count ∧ (∀ k, k < i → l.getD k [] = addresses.getD k []) ∧
          ∀ k, i ≤ k → k < count → gen ((start + k) % 2 ^ 64) = .ok (l.getD k [])) ∧
      (∀ k e, i ≤ k → k < count →
        (∀ j, i ≤ j → j < k → ∃ a, gen ((start + j) % 2 ^ 64) = .ok a) →
        gen ((start + k) % 2 ^ 64) = .error e →
        GenerateAddresses.loop gen start (count : Int) fuel i addresses = .error e) := by
  intro fuel
  induction fuel with
  | zero =>
    intro i addresses hi hlen
    refine ⟨?_, ?_⟩
    · intro _
      refine ⟨addresses, rfl, hlen, fun _ _ => rfl, ?_⟩
      intro k h1 h2
      omega
    · intro k e h1 h2
      omega
  | succ fuel ih =>
    intro i addresses hi hlen
    have hlt : (i : Int) < (count : Int) := by omega
    have hlt2 : i < addresses.length := by omega
    have hset : ∀ a, (addresses.set i a).length = count := by
      intro a
      rw [List.length_set, hlen]
    refine ⟨?_, ?_⟩
    · intro hall
      obtain ⟨a, ha⟩ := hall i (le_refl _) (by omega)
      obtain ⟨l, r1, r2, r3, r4⟩ := (ih (i + 1) (addresses.set i a) (by omega) (hset a)).1
        (fun k h1 h2 => hall k (by omega) h2)
      refine ⟨l, ?_, r2, ?_, ?_⟩
      · simp only [GenerateAddresses.loop, if_pos hlt, if_pos hlt2, ha]
        exact r1
      · intro k hk
        rw [r3 k (by omega), getD_set_other _ _ _ _ _ (by omega)]
      · intro k h1 h2
        by_cases hki : k = i
        · subst hki
          rw [r3 k (by omega), getD_set_self _ _ _ _ hlt2]
          exact ha
        · exact r4 k (by omega) h2
    · intro k e h1 h2 hbefore herr
      by_cases hki : k = i
      · subst hki
        simp only [GenerateAddresses.loop, if_pos hlt, if_pos hlt2, herr]
      · obtain ⟨a, ha⟩ := hbefore i (le_refl _) (by omega)
        simp only [GenerateAddresses.loop, if_pos hlt, if_pos hlt2, ha]
        exact (ih (i + 1) (addresses.set i a) (by omega) (hset a)).2 k e (by omega) h2
          (fun j j1 j2 => hbefore j (by omega) j2) herr

theorem GenerateAddresses_loop_total (gen : Nat → Res Hash) (start count : Nat) :
    ((∀ i, i < count → ∃ a, gen ((start + i) % 2 ^ 64) = .ok a) →
        ∃ l, GenerateAddresses.loop gen start (count : Int) count 0 (List.replicate count []) =
            .ok l ∧
          l.length = count ∧ ∀ i, i < count → gen ((start + i) % 2 ^ 64) = .ok (l.getD i [])) ∧
      ((∃ i, i < count ∧ ∃ e, gen ((start + i) % 2 ^ 64) = .error e) →
        ∃ i e, i < count ∧ gen ((start + i) % 2 ^ 64) = .error e ∧
          (∀ j, j < i → ∃ a, gen ((start + j) % 2 ^ 64) = .ok a) ∧
          GenerateAddresses.loop gen start (count : Int) count 0 (List.replicate count []) =
            .error e) := by
  have hspec := GenerateAddresses_loop_spec gen start count count 0 (List.replicate count [])
    (by omega) (by simp)
  refine ⟨?_, ?_⟩
  · intro hall
    obtain ⟨l, r1, r2, _, r4⟩ := hspec.1 (fun k _ hk => hall k hk)
    exact ⟨l, r1, r2, fun i hi => r4 i (Nat.zero_le _) hi⟩
  · intro hex
    classical
    have hex2 : ∃ i, i < count ∧ ∃ e, gen ((start + i) % 2 ^ 64) = .error e := hex
    have hfind := Nat.find_spec hex2
    obtain ⟨hlt, e, he⟩ := hfind
    have hmin : ∀ j, j < Nat.find hex2 → ∃ a, gen ((start + j) % 2 ^ 64) = .ok a := by
      intro j hj
      have hnot := Nat.find_min hex2 hj
      cases hg : gen ((start + j) % 2 ^ 64) with
      | ok a => exact ⟨a, rfl⟩
      | error e2 => exact absurd ⟨by omega, e2, hg⟩ hnot
    exact ⟨Nat.find hex2, e, hlt, he, hmin,
      hspec.2 (Nat.find hex2) e (Nat.zero_le _) hlt (fun j _ hj => hmin j hj) he⟩

theorem GenerateAddresses_eq_loop {σ : Type} (p : KeyDerivation σ) (AddChecksum : AddChecksumFn)
    (seed : Trytes) (start count : Nat) (secLvl : Int) (addChecksum : List Bool)
    (hcount : count < 2 ^ 63) :
    GenerateAddresses p AddChecksum seed start count secLvl addChecksum =
      GenerateAddresses.loop
        (fun index => GenerateAddress p AddChecksum seed index secLvl
          [decide (addChecksum.length > 0) && addChecksum.headD false])
        start (count : Int) count 0 (List.replicate count []) := by
  have hno : ¬ count ≥ 2 ^ 63 := by omega
  have hw : wrapInt64 (count : Int) = (count : Int) :=
    wrapInt64_of_range (by omega) (by omega)
  simp only [GenerateAddresses, if_neg hno, hw, Int.toNat_ofNat]

/-- C24, as the claim states it, fails at `count = 2 ^ 63`: every single derivation
`GenerateAddress(seed, start+i, secLvl, withChecksum)` for `i < count` succeeds (here with
the address `A`, no checksum flag being passed), but `GenerateAddresses` returns no list of
`2 ^ 63` addresses: `make(Hashes, count)` panics on a count outside the range of `int`,
before any derivation runs. -/
theorem GenerateAddresses_count_out_of_range :
    (∀ i, i < 2 ^ 63 →
        GenerateAddress steadyDerivation exampleAddChecksum [] ((0 + i) % 2 ^ 64) 0
          [decide (([] : List Bool).length > 0) && ([] : List Bool).headD false] = .ok [65]) ∧
      GenerateAddresses steadyDerivation exampleAddChecksum [] 0 (2 ^ 63) 0 [] =
        .error Fail.goPanic ∧
      ¬ ∃ l, GenerateAddresses steadyDerivation exampleAddChecksum [] 0 (2 ^ 63) 0 [] = .ok l ∧
        l.length = 2 ^ 63 := by
  have hpanic : GenerateAddresses steadyDerivation exampleAddChecksum [] 0 (2 ^ 63) 0 [] =
      .error Fail.goPanic := by
    have hc : (2 : Nat) ^ 63 ≥ 2 ^ 63 := le_refl _
    simp only [GenerateAddresses, if_pos hc]
  refine ⟨fun i _ => rfl, hpanic, ?_⟩
  rintro ⟨l, h1, _⟩
  rw [hpanic] at h1
  cases h1

/-- C24: for a count that `make` can allocate (below `2 ^ 63`), with `withChecksum` the
flag that `GenerateAddresses` derives from its variadic argument and the index
`start + i` taken as a `uint64`: if every derivation
`GenerateAddress(seed, start+i, secLvl, withChecksum)` for `i < count` succeeds,
`GenerateAddresses` returns exactly `count` addresses whose `i`-th element is the result of
that derivation; if a derivation fails, `GenerateAddresses` returns no list and the error
of the first derivation that fails. -/
theorem GenerateAddresses_all_or_nothing {σ : Type} (p : KeyDerivation σ)
    (AddChecksum : AddChecksumFn) (seed : Trytes) (start count : Nat) (secLvl : Int)
    (addChecksum : List Bool) (hcount : count < 2 ^ 63) :
    ((∀ i, i < count → ∃ a, GenerateAddress p AddChecksum seed ((start + i) % 2 ^ 64) secLvl
          [decide (addChecksum.length > 0) && addChecksum.headD false] = .ok a) →
        ∃ l, GenerateAddresses p AddChecksum seed start count secLvl addChecksum = .ok l ∧
          l.length = count ∧
          ∀ i, i < count → GenerateAddress p AddChecksum seed ((start + i) % 2 ^ 64) secLvl
            [decide (addChecksum.length > 0) && addChecksum.headD false] = .ok (l.getD i [])) ∧
      ((∃ i, i < count ∧ ∃ e, GenerateAddress p AddChecksum seed ((start + i) % 2 ^ 64) secLvl
          [decide (addChecksum.length > 0) && addChecksum.headD false] = .error e) →
        ∃ i e, i < count ∧
          GenerateAddress p AddChecksum seed ((start + i) % 2 ^ 64) secLvl
            [decide (addChecksum.length > 0) && addChecksum.headD false] = .error e ∧
          (∀ j, j < i → ∃ a, GenerateAddress p AddChecksum seed ((start + j) % 2 ^ 64) secLvl
            [decide (addChecksum.length > 0) && addChecksum.headD false] = .ok a) ∧
          GenerateAddresses p AddChecksum seed start count secLvl addChecksum = .error e) := by
  rw [GenerateAddresses_eq_loop p AddChecksum seed start count secLvl addChecksum hcount]
  exact GenerateAddresses_loop_total
    (fun index => GenerateAddress p AddChecksum seed index secLvl
      [decide (addChecksum.length > 0) && addChecksum.headD false]) start count

set_option maxRecDepth 100000 in
theorem GenerateAddresses_all_or_nothing_witness :
    (∃ l, GenerateAddresses exampleDerivation exampleAddChecksum [] 5 2 0 [] = .ok l ∧
        l.length = 2 ∧
        ∀ i, i < 2 → GenerateAddress exampleDerivation exampleAddChecksum [] ((5 + i) % 2 ^ 64) 0
          [decide (([] : List Bool).length > 0) && ([] : List Bool).headD false] =
            .ok (l.getD i [])) ∧
      ∃ i e, i < 3 ∧
        GenerateAddress exampleDerivation exampleAddChecksum [] ((5 + i) % 2 ^ 64) 0
          [decide (([] : List Bool).length > 0) && ([] : List Bool).headD false] = .error e ∧
        (∀ j, j < i → ∃ a, GenerateAddress exampleDerivation exampleAddChecksum []
          ((5 + j) % 2 ^ 64) 0
          [decide (([] : List Bool).length > 0) && ([] : List Bool).headD false] = .ok a) ∧
        GenerateAddresses exampleDerivation exampleAddChecksum [] 5 3 0 [] = .error e :=
  ⟨(GenerateAddresses_all_or_nothing exampleDerivation exampleAddChecksum [] 5 2 0 []
      (by decide)).1
      (fun i hi => match i, hi with
        | 0, _ => ⟨_, rfl⟩
        | 1, _ => ⟨_, rfl⟩
        | n + 2, h => absurd h (by omega)),
    (GenerateAddresses_all_or_nothing exampleDerivation exampleAddChecksum [] 5 3 0 []
      (by decide)).2 ⟨2, by decide, _, rfl⟩⟩

/-! ## Validation of signature fragments -/

/-- C25: when the recovery of the address from the fragments and `MerkleRoot` both
succeed, `ValidateSignatureFragments` returns `(expectedRoot == root, nil)` for the
reconstructed `root`, so a root that differs gives `(false, nil)`; and when it returns an
error, its boolean is `false` and the error is that of the address recovery or, after a
successful recovery, that of `MerkleRoot`. -/
theorem ValidateSignatureFragments_result {σ : Type} (h : SpongeFunction σ)
    (SignatureAddress : SpongeFunction σ → List Trytes → Hash → σ → (Hash × Option Fail) × σ)
    (s : σ) (expectedRoot : Hash) (leafIndex : Nat) (auditPath : List Hash)
    (fragments : List Trytes) (hashToSign : Hash) :
    (∀ address s1 root s2, SignatureAddress h fragments hashToSign s = ((address, none), s1) →
        MerkleRoot h s1 address leafIndex auditPath = ((root, none), s2) →
        ValidateSignatureFragments h SignatureAddress s expectedRoot leafIndex auditPath
            fragments hashToSign = ((decide (expectedRoot = root), none), h.Reset s2) ∧
          (expectedRoot ≠ root →
            (ValidateSignatureFragments h SignatureAddress s expectedRoot leafIndex auditPath
              fragments hashToSign).1 = (false, none))) ∧
      (∀ e, (ValidateSignatureFragments h SignatureAddress s expectedRoot leafIndex auditPath
            fragments hashToSign).1.2 = some e →
        (ValidateSignatureFragments h SignatureAddress s expectedRoot leafIndex auditPath
            fragments hashToSign).1.1 = false ∧
          ((SignatureAddress h fragments hashToSign s).1.2 = some e ∨
            ∃ address s1, SignatureAddress h fragments hashToSign s = ((address, none), s1) ∧
              (MerkleRoot h s1 address leafIndex auditPath).1.2 = some e)) := by
  refine ⟨?_, ?_⟩
  · intro address s1 root s2 h1 h2
    have hres : ValidateSignatureFragments h SignatureAddress s expectedRoot leafIndex auditPath
        fragments hashToSign = ((decide (expectedRoot = root), none), h.Reset s2) := by
      simp only [ValidateSignatureFragments, h1, h2]
    refine ⟨hres, ?_⟩
    intro hne
    rw [hres]
    simp only [hne, decide_False]
  · intro e he
    rcases h1 : SignatureAddress h fragments hashToSign s with ⟨⟨address, err⟩, s1⟩
    cases err with
    | some e1 =>
      simp only [ValidateSignatureFragments, h1] at he ⊢
      exact ⟨trivial, Or.inl he⟩
    | none =>
      rcases h2 : MerkleRoot h s1 address leafIndex auditPath with ⟨⟨root, err2⟩, s2⟩
      cases err2 with
      | some e2 =>
        simp only [ValidateSignatureFragments, h1, h2] at he ⊢
        exact ⟨trivial, Or.inr ⟨address, s1, rfl, by rw [h2]; exact he⟩⟩
      | none =>
        simp only [ValidateSignatureFragments, h1, h2] at he
        cases he

theorem ValidateSignatureFragments_result_witness :
    ValidateSignatureFragments concatSponge exampleSignatureAddress [] [65, 66] 0 [[66]]
        [[65]] [] = ((true, none), []) ∧
      (ValidateSignatureFragments concatSponge exampleSignatureAddress [] [66, 65] 0 [[66]]
        [[65]] []).1 = (false, none) :=
  ⟨((ValidateSignatureFragments_result concatSponge exampleSignatureAddress [] [65, 66] 0 [[66]]
      [[65]] []).1 [65] [] [65, 66] [] rfl rfl).1,
    ((ValidateSignatureFragments_result concatSponge exampleSignatureAddress [] [66, 65] 0 [[66]]
      [[65]] []).1 [65] [] [65, 66] [] rfl rfl).2 (by decide)⟩

/-! ## A failing absorb in `MerkleRoot` -/

theorem MerkleRoot_loop_error_empty {σ : Type} (h : SpongeFunction σ) (leafIndex : Nat) :
    ∀ (path : List Hash) (j : Nat) (hash : Hash) (s : σ) (e : Fail),
      (MerkleRoot.loop h leafIndex path j hash s).1.2 = some e →
        (MerkleRoot.loop h leafIndex path j hash s).1.1 = [] := by
  intro path
  induction path with
  | nil =>
    intro j hash s e he
    simp only [MerkleRoot.loop] at he
    cases he
  | cons sib rest ih =>
    intro j hash s e
    simp only [MerkleRoot.loop]
    split_ifs with hc
    · rcases a1 : h.AbsorbTrytes s sib with ⟨s1, _ | e1⟩
      · simp only []
        rcases a2 : h.AbsorbTrytes s1 hash with ⟨s2, _ | e2⟩
        · simp only []
          exact ih _ _ _ e
        · simp only []
          intro _
          trivial
      · simp only []
        intro _
        trivial
    · rcases a1 : h.AbsorbTrytes s hash with ⟨s1, _ | e1⟩
      · simp only []
        rcases a2 : h.AbsorbTrytes s1 sib with ⟨s2, _ | e2⟩
        · simp only []
          exact ih _ _ _ e
        · simp only []
          intro _
          trivial
      · simp only []
        intro _
        trivial

theorem MerkleRoot_loop_append {σ : Type} (h : SpongeFunction σ) (leafIndex : Nat) :
    ∀ (pre rest : List Hash) (j : Nat) (hash : Hash) (s : σ) (hk : Hash) (sk : σ),
      j < 2 ^ 32 → MerkleRoot.loop h leafIndex pre j hash s = ((hk, none), sk) →
        MerkleRoot.loop h leafIndex (pre ++ rest) j hash s =
          MerkleRoot.loop h leafIndex rest (j * 2 ^ pre.length % 2 ^ 32) hk sk := by
  intro pre
  induction pre with
  | nil =>
    intro rest j hash s hk sk hj hpre
    simp only [MerkleRoot.loop, Prod.mk.injEq, and_true] at hpre
    obtain ⟨e1, e2⟩ := hpre
    subst e1; subst e2
    simp only [List.nil_append, List.length_nil, pow_zero, Nat.mul_one, Nat.mod_eq_of_lt hj]
  | cons sib pre ih =>
    intro rest j hash s hk sk _ hpre
    have hj : (j * 2 % 2 ^ 32) * 2 ^ pre.length % 2 ^ 32 =
        j * 2 ^ (pre.length + 1) % 2 ^ 32 := by
      have e : j * 2 * 2 ^ pre.length = j * 2 ^ (pre.length + 1) := by ring
      rw [Nat.mod_mul_mod, e]
    have hstep : ∀ (hash1 : Hash) (s3 : σ),
        MerkleRoot.loop h leafIndex pre (j * 2 % 2 ^ 32) hash1 s3 = ((hk, none), sk) →
        MerkleRoot.loop h leafIndex (pre ++ rest) (j * 2 % 2 ^ 32) hash1 s3 =
          MerkleRoot.loop h leafIndex rest (j * 2 ^ (pre.length + 1) % 2 ^ 32) hk sk := by
      intro hash1 s3 hp
      rw [ih rest _ hash1 s3 hk sk (Nat.mod_lt _ (by decide)) hp, hj]
    simp only [List.cons_append, List.length_cons]
    simp only [MerkleRoot.loop] at hpre ⊢
    split_ifs at hpre ⊢ with hc
    · rcases a1 : h.AbsorbTrytes s sib with ⟨s1, _ | e1⟩
      · rw [a1] at hpre
        simp only [] at hpre ⊢
        rcases a2 : h.AbsorbTrytes s1 hash with ⟨s2, _ | e2⟩
        · rw [a2] at hpre
          simp only [] at hpre ⊢
          exact hstep _ _ hpre
        · rw [a2] at hpre
          simp at hpre
      · rw [a1] at hpre
        simp at hpre
    · rcases a1 : h.AbsorbTrytes s hash with ⟨s1, _ | e1⟩
      · rw [a1] at hpre
        simp only [] at hpre ⊢
        rcases a2 : h.AbsorbTrytes s1 sib with ⟨s2, _ | e2⟩
        · rw [a2] at hpre
          simp only [] at hpre ⊢
          exact hstep _ _ hpre
        · rw [a2] at hpre
          simp at hpre
      · rw [a1] at hpre
        simp at hpre

theorem MerkleRoot_loop_resume {σ : Type} (h : SpongeFunction σ) (leafIndex : Nat)
    (pre rest : List Hash) (hash : Hash) (s : σ) (hk : Hash) (sk : σ) (hlen : pre.length < 32)
    (hpre : MerkleRoot.loop h leafIndex pre 1 hash s = ((hk, none), sk)) :
    MerkleRoot.loop h leafIndex (pre ++ rest) 1 hash s =
      MerkleRoot.loop h leafIndex rest (2 ^ pre.length) hk sk := by
  rw [MerkleRoot_loop_append h leafIndex pre rest 1 hash s hk sk (by decide) hpre]
  have hlt : 2 ^ pre.length < 2 ^ 32 := Nat.pow_lt_pow_right (by decide) hlen
  rw [Nat.one_mul, Nat.mod_eq_of_lt hlt]

/-- C29: let the audit path `pre ++ sib :: rest` pass the length checks and let the rounds
over `pre` run without an error, leaving the hash `hk` and the sponge in state `sk`. In
the round of `sib` the first absorb takes `sib` if bit `len(pre)` of `leafIndex` is set and
`hk` otherwise, and the second absorb takes the other one. If the first absorb fails with
`e`, or the first succeeds and the second fails with `e`, `MerkleRoot` returns the empty
hash and `e`, and the sponge is left in the state after the failing absorb followed by the
deferred `Reset` only: no absorb or squeeze follows. Whenever `MerkleRoot` returns an
error its hash is empty. -/
theorem MerkleRoot_absorb_failure {σ : Type} (h : SpongeFunction σ) (s : σ) (leafHash : Hash)
    (leafIndex : Nat) (pre : List Hash) (sib : Hash) (rest : List Hash) (hk : Hash) (sk : σ)
    (hlen : (pre ++ sib :: rest).length ≤ 32)
    (hidx : Len32 leafIndex ≤ (pre ++ sib :: rest).length)
    (hpre : MerkleRoot.loop h leafIndex pre 1 leafHash s = ((hk, none), sk)) :
    (∀ e, (h.AbsorbTrytes sk (if leafIndex.testBit pre.length then sib else hk)).2 = some e →
        MerkleRoot h s leafHash leafIndex (pre ++ sib :: rest) =
          (([], some e),
            h.Reset (h.AbsorbTrytes sk (if leafIndex.testBit pre.length then sib else hk)).1)) ∧
      (∀ e, (h.AbsorbTrytes sk (if leafIndex.testBit pre.length then sib else hk)).2 = none →
        (h.AbsorbTrytes (h.AbsorbTrytes sk (if leafIndex.testBit pre.length then sib else hk)).1
          (if leafIndex.testBit pre.length then hk else sib)).2 = some e →
        MerkleRoot h s leafHash leafIndex (pre ++ sib :: rest) =
          (([], some e),
            h.Reset (h.AbsorbTrytes
              (h.AbsorbTrytes sk (if leafIndex.testBit pre.length then sib else hk)).1
              (if leafIndex.testBit pre.length then hk else sib)).1)) ∧
      (∀ e, (MerkleRoot h s leafHash leafIndex (pre ++ sib :: rest)).1.2 = some e →
        (MerkleRoot h s leafHash leafIndex (pre ++ sib :: rest)).1.1 = []) := by
  have h1 : ¬ (pre ++ sib :: rest).length > 32 := by omega
  have h2 : ¬ Len32 leafIndex > (pre ++ sib :: rest).length := by omega
  have hpl : pre.length < 32 := by
    simp only [List.length_append, List.length_cons] at hlen
    omega
  have hrun := MerkleRoot_loop_resume h leafIndex pre (sib :: rest) leafHash s hk sk hpl hpre
  have hM : MerkleRoot h s leafHash leafIndex (pre ++ sib :: rest) =
      ((MerkleRoot.loop h leafIndex (sib :: rest) (2 ^ pre.length) hk sk).1,
        h.Reset (MerkleRoot.loop h leafIndex (sib :: rest) (2 ^ pre.length) hk sk).2) := by
    simp only [MerkleRoot, if_neg h1, if_neg h2, hrun]
  refine ⟨?_, ?_, ?_⟩
  · intro e he
    rw [hM]
    simp only [MerkleRoot.loop, and_two_pow_ne_zero]
    by_cases hb : leafIndex.testBit pre.length = true
    · simp only [hb, if_true] at he ⊢
      rcases a1 : h.AbsorbTrytes sk sib with ⟨s1, _ | e1⟩
      · rw [a1] at he
        cases he
      · rw [a1] at he
        injection he with he
        subst he
        rfl
    · simp only [hb, Bool.false_eq_true, if_false] at he ⊢
      rcases a1 : h.AbsorbTrytes sk hk with ⟨s1, _ | e1⟩
      · rw [a1] at he
        cases he
      · rw [a1] at he
        injection he with he
        subst he
        rfl
  · intro e he1 he2
    rw [hM]
    simp only [MerkleRoot.loop, and_two_pow_ne_zero]
    by_cases hb : leafIndex.testBit pre.length = true
    · simp only [hb, if_true] at he1 he2 ⊢
      rcases a1 : h.AbsorbTrytes sk sib with ⟨s1, _ | e1⟩
      · rw [a1] at he2
        simp only [] at he2 ⊢
        rcases a2 : h.AbsorbTrytes s1 hk with ⟨s2, _ | e2⟩
        · rw [a2] at he2
          cases he2
        · rw [a2] at he2
          injection he2 with he2
          subst he2
          rfl
      · rw [a1] at he1
        cases he1
    · simp only [hb, Bool.false_eq_true, if_false] at he1 he2 ⊢
      rcases a1 : h.AbsorbTrytes sk hk with ⟨s1, _ | e1⟩
      · rw [a1] at he2
        simp only [] at he2 ⊢
        rcases a2 : h.AbsorbTrytes s1 sib with ⟨s2, _ | e2⟩
        · rw [a2] at he2
          cases he2
        · rw [a2] at he2
          injection he2 with he2
          subst he2
          rfl
      · rw [a1] at he1
        cases he1
  · intro e he
    simp only [MerkleRoot, if_neg h1, if_neg h2] at he ⊢
    exact MerkleRoot_loop_error_empty h leafIndex _ _ _ _ e he

theorem MerkleRoot_absorb_failure_witness :
    MerkleRoot loggingSponge [] [65] 0 [[]] =
        (([], some Fail.ErrInvalidTritsLength), [1, 2, 4]) ∧
      MerkleRoot loggingSponge [] [65] 2 [[66], [], [67]] =
        (([], some Fail.ErrInvalidTritsLength), [1, 1, 3, 4, 2, 4]) :=
  ⟨(MerkleRoot_absorb_failure loggingSponge [] [65] 0 [] [] [] [65] [] (by decide) (by decide)
      rfl).2.1 Fail.ErrInvalidTritsLength rfl rfl,
    (MerkleRoot_absorb_failure loggingSponge [] [65] 2 [[66]] [] [[67]] [57] [1, 1, 3, 4]
      (by decide) (by decide) rfl).1 Fail.ErrInvalidTritsLength rfl⟩

/-! ## Padding -/

/-- C26: if `len(s) ≥ n` then `MustPad s n = s`; otherwise `MustPad s n` has length exactly
`n`, starts with `s`, and every added character is `'9'`. `Pad` returns the same result
for every `s` that is empty or consists of tryte characters only, and fails with
`ErrInvalidTrytes` for a non-empty `s` that holds another character. -/
theorem MustPad_and_Pad (s : Trytes) (n : Int) :
    ((s.length : Int) ≥ n → MustPad s n = s) ∧
      ((s.length : Int) < n →
        ((MustPad s n).length : Int) = n ∧ (MustPad s n).take s.length = s ∧
          ∀ c ∈ (MustPad s n).drop s.length, c = 57) ∧
      ((s = [] ∨ ∀ c ∈ s, c ∈ tryteAlphabet) → Pad s n = .ok (MustPad s n)) ∧
      ((s ≠ [] ∧ ∃ c ∈ s, c ∉ tryteAlphabet) → Pad s n = .error Fail.ErrInvalidTrytes) := by
  refine ⟨?_, ?_, ?_, ?_⟩
  · intro h
    simp only [MustPad, if_pos h]
  · intro h
    have h2 : ¬ (s.length : Int) ≥ n := by omega
    simp only [MustPad, if_neg h2, List.length_append, List.length_replicate, List.take_left,
      List.drop_left]
    refine ⟨?_, trivial, ?_⟩
    · push_cast
      rw [Int.toNat_of_nonneg (by omega)]
      omega
    · intro c hc
      exact (List.mem_replicate.mp hc).2
  · intro h
    by_cases hs : s = []
    · subst hs
      rfl
    · have hall : s.all validTryte = true := by
        rcases h with h | h
        · exact absurd h hs
        · exact List.all_eq_true.mpr (fun c hc => (validTryte_iff_mem c).mpr (h c hc))
      have hpos : s.length > 0 := List.length_pos.mpr hs
      simp only [Pad, if_pos hpos, (validTrytes_iff s).mpr ⟨hs, hall⟩]
  · rintro ⟨hs, c, hc, hbad⟩
    have hpos : s.length > 0 := List.length_pos.mpr hs
    have hall : ¬ s.all validTryte = true := by
      intro hall
      exact hbad ((validTryte_iff_mem c).mp (List.all_eq_true.mp hall c hc))
    simp only [Pad, if_pos hpos, ValidTrytes, if_neg hs, if_neg hall]

theorem MustPad_and_Pad_witness :
    ((MustPad [65, 66] 5).length : Int) = 5 ∧ (MustPad [65, 66] 5).take 2 = [65, 66] ∧
      (∀ c ∈ (MustPad [65, 66] 5).drop 2, c = 57) ∧
      Pad [65, 66] 5 = .ok (MustPad [65, 66] 5) ∧
      Pad [65, 97] 5 = .error Fail.ErrInvalidTrytes ∧
      MustPad [65, 66] (-1) = [65, 66] :=
  ⟨((MustPad_and_Pad [65, 66] 5).2.1 (by decide)).1,
    ((MustPad_and_Pad [65, 66] 5).2.1 (by decide)).2.1,
    ((MustPad_and_Pad [65, 66] 5).2.1 (by decide)).2.2,
    (MustPad_and_Pad [65, 66] 5).2.2.1 (Or.inr (by decide)),
    (MustPad_and_Pad [65, 97] 5).2.2.2 ⟨by decide, 97, by decide, by decide⟩,
    (MustPad_and_Pad [65, 66] (-1)).1 (by decide)⟩

/-! ## Panics of the unchecked conversions -/

/-- C27 fails on the code: `MustTritsToTrytes` panics on the int8 sequence `[2, 2, 2]`,
whose group value 26 is outside `[-13, 13]`, because `MustTryteValueToTryte` panics on it;
so it does on `[127, 0, 0]`. The comment of the function promises a result without a
panic. A length that is not a multiple of 3 does not panic: the incomplete group is left
out. -/
theorem MustTritsToTrytes_panics :
    (∀ x ∈ ([2, 2, 2] : Trits), IsInt8 x) ∧
      MustTryteValueToTryte 26 = .error Fail.goPanic ∧
      MustTritsToTrytes [2, 2, 2] = .error Fail.goPanic ∧
      MustTritsToTrytes [127, 0, 0] = .error Fail.goPanic ∧
      MustTritsToTrytes [1, 0, 0, 1] = .ok [65] ∧
      MustTritsToTrytes [1, 0] = .ok [] := by
  refine ⟨?_, rfl, rfl, rfl, rfl, rfl⟩
  intro x hx
  simp only [List.mem_cons, List.mem_singleton, List.mem_nil_iff, or_false, or_self] at hx
  subst hx
  unfold IsInt8
  omega

theorem MustTryteToTryteValue_cases (t : Nat) (ht : t < 256) :
    (MustTryteToTryteValue t = .error Fail.goPanic ↔ (t < 57 ∨ 90 < t)) ∧
      (57 ≤ t → t ≤ 90 →
        MustTryteToTryteValue t = .ok (TryteToTryteValueLUT.getD (t - 57) 0)) := by
  have hl : TryteToTryteValueLUT.length = 34 := rfl
  by_cases h : 57 ≤ t ∧ t ≤ 90
  · have e : (t + 256 - 57) % 256 = t - 57 := by omega
    have hno : ¬ (t - 57 ≥ 34) := by omega
    have hok : MustTryteToTryteValue t = .ok (TryteToTryteValueLUT.getD (t - 57) 0) := by
      simp only [MustTryteToTryteValue, e, hl, if_neg hno]
    refine ⟨⟨?_, ?_⟩, fun _ _ => hok⟩
    · intro hp
      rw [hok] at hp
      cases hp
    · intro hp
      omega
  · have hge : (t + 256 - 57) % 256 ≥ 34 := by omega
    have hp : MustTryteToTryteValue t = .error Fail.goPanic := by
      simp only [MustTryteToTryteValue, hl, if_pos hge]
    exact ⟨⟨fun _ => by omega, fun _ => hp⟩, fun h1 h2 => absurd ⟨h1, h2⟩ h⟩

/-- C28 fails on the code: on the byte `':'` (58), which is not a tryte character,
`MustTryteToTryteValue` does not panic but returns 0, as it does on every byte from `':'`
to `'@'` (58 to 64), for which `TryteToTryteValueLUT` holds a zero; its comment says that
it panics on an invalid tryte. It panics exactly on the bytes below `'9'` and above `'Z'`,
and for every tryte character it returns a value in `[-13, 13]`. -/
theorem MustTryteToTryteValue_colon :
    validTryte 58 = false ∧ MustTryteToTryteValue 58 = .ok 0 ∧
      (∀ t, 58 ≤ t → t ≤ 64 → validTryte t = false ∧ MustTryteToTryteValue t = .ok 0) ∧
      (∀ t, t < 256 → (MustTryteToTryteValue t = .error Fail.goPanic ↔ (t < 57 ∨ 90 < t))) ∧
      (∀ t, validTryte t = true →
        ∃ v, MustTryteToTryteValue t = .ok v ∧ -13 ≤ v ∧ v ≤ 13) := by
  refine ⟨rfl, rfl, ?_, fun t ht => (MustTryteToTryteValue_cases t ht).1, ?_⟩
  · intro t h1 h2
    interval_cases t <;> exact ⟨rfl, rfl⟩
  · intro t ht
    have hr : t = 57 ∨ (65 ≤ t ∧ t ≤ 90) := by
      simp only [validTryte, Bool.or_eq_true, Bool.and_eq_true, decide_eq_true_eq] at ht
      omega
    rcases hr with rfl | ⟨h1, h2⟩
    · exact ⟨_, rfl, by decide, by decide⟩
    · interval_cases t <;> exact ⟨_, rfl, by decide, by decide⟩

/-! ## The signs of the tryte groups of `EncodeInt64` -/

theorem tritsOfDigits_group (ds : List Int) (h : AllDigits ds) (post : Trits) (k : Nat)
    (hk : k < ds.length) :
    ((tritsOfDigits ds ++ post).drop (3 * k)).take 3 = tritsOfDigit (ds.getD k 0) ∧
      -13 ≤ ds.getD k 0 ∧ ds.getD k 0 ≤ 13 ∧ ds.getD k 0 ∈ ds := by
  have hsplit : ds = ds.take k ++ [ds.getD k 0] ++ ds.drop (k + 1) := by
    rw [List.getD_eq_getElem _ _ hk]
    simp
  have hmem : ds.getD k 0 ∈ ds := by
    rw [List.getD_eq_getElem _ _ hk]
    exact List.getElem_mem hk
  have hd := h _ hmem
  have hpre : AllDigits (ds.take k) := fun x hx => h x (List.mem_of_mem_take hx)
  have hlen : (tritsOfDigits (ds.take k)).length = 3 * k := by
    rw [tritsOfDigits_length _ hpre, List.length_take, Nat.min_eq_left (by omega)]
  have h3 : (tritsOfDigit (ds.getD k 0)).length = 3 := (digit_conversions _ hd.1 hd.2).2.2.1
  refine ⟨?_, hd.1, hd.2, hmem⟩
  generalize ds.getD k 0 = d at *
  have e : tritsOfDigits ds ++ post =
      tritsOfDigits (ds.take k) ++ (tritsOfDigit d ++ (tritsOfDigits (ds.drop (k + 1)) ++ post)) := by
    conv_lhs => rw [hsplit]
    rw [tritsOfDigits_append, tritsOfDigits_append]
    simp only [tritsOfDigits, List.append_nil, List.append_assoc]
  rw [e, ← hlen, List.drop_left, ← h3, List.take_left]

/-- C30: for every nonzero int64 `v` other than the minimum, with `g = (MinTrits v + 2) / 3`
groups and `t` the trits that `EncodeInt64 v` returns, every tryte group
`t[3k], t[3k+1], t[3k+2]` with `k < g - 1` has a balanced-ternary value of at most 0 and
the group `g - 1` has a value of at least 1. -/
theorem EncodeInt64_group_signs (v : Int) (hv : IsInt64 v) (hmin : v ≠ minInt64)
    (hv0 : v ≠ 0) :
    ∃ t size, EncodeInt64 v = .ok (t, size) ∧ 3 * ((MinTrits v + 2) / 3) ≤ t.length ∧
      (∀ k, k + 1 < (MinTrits v + 2) / 3 → TritsToInt ((t.drop (3 * k)).take 3) ≤ 0) ∧
      0 < TritsToInt ((t.drop (3 * ((MinTrits v + 2) / 3 - 1))).take 3) := by
  have hne : v ≠ -2 ^ 63 := hmin
  have hv2 : -2 ^ 63 ≤ v ∧ v < 2 ^ 63 := hv
  have habs : v.natAbs < 2 ^ 63 := by omega
  obtain ⟨low, dl, enc, s1, s2, s3, s4, _, _, _, _, s9, _⟩ := EncodeInt64_spec v hv0 habs
  have hlast := flipLast_pos dl s2 s3
  have hall : AllDigits (low.map flipLow ++ [flipLast dl]) := by
    rw [allDigits_append]
    refine ⟨map_flipLow_allDigits low s1, ?_⟩
    intro x hx
    rw [List.mem_singleton] at hx
    subst hx
    omega
  have ht : tritsOfDigits (low.map flipLow) ++ tritsOfDigit (flipLast dl) ++ enc =
      tritsOfDigits (low.map flipLow ++ [flipLast dl]) ++ enc := by
    simp only [tritsOfDigits_append, tritsOfDigits, List.append_nil]
  have hlen : (low.map flipLow ++ [flipLast dl]).length = low.length + 1 := by simp
  refine ⟨_, _, s9, ?_, ?_, ?_⟩
  · rw [ht, List.length_append, tritsOfDigits_length _ hall, hlen, ← s4]
    omega
  · intro k hk
    rw [ht]
    obtain ⟨g1, g2, g3, _⟩ := tritsOfDigits_group _ hall enc k (by rw [hlen]; omega)
    rw [g1, (digit_conversions _ g2 g3).2.2.2.2.2.1]
    have hk2 : k < (low.map flipLow).length := by simp only [List.length_map]; omega
    rw [List.getD_append _ _ _ _ hk2]
    apply flipLow_nonpos low
    rw [List.getD_eq_getElem _ _ hk2]
    exact List.getElem_mem hk2
  · rw [ht, ← s4, Nat.add_sub_cancel]
    obtain ⟨g1, g2, g3, _⟩ := tritsOfDigits_group _ hall enc low.length (by rw [hlen]; omega)
    rw [g1, (digit_conversions _ g2 g3).2.2.2.2.2.1]
    have e : (low.map flipLow ++ [flipLast dl]).getD low.length 0 = flipLast dl := by
      have := getD_append_length (low.map flipLow) (flipLast dl) [] 0
      rw [List.length_map] at this
      exact this
    rw [e]
    omega

theorem EncodeInt64_group_signs_witness :
    ∃ t size, EncodeInt64 (-365) = .ok (t, size) ∧ 3 * ((MinTrits (-365) + 2) / 3) ≤ t.length ∧
      (∀ k, k + 1 < (MinTrits (-365) + 2) / 3 → TritsToInt ((t.drop (3 * k)).take 3) ≤ 0) ∧
      0 < TritsToInt ((t.drop (3 * ((MinTrits (-365) + 2) / 3 - 1))).take 3) :=
  EncodeInt64_group_signs (-365) (by unfold IsInt64; decide) (by decide) (by decide)

/-! ## The table of weights `Pow27LUT` -/

/-- C31 fails on the code: `Pow27LUT` has 14 entries and the entries 0 to 11 are the powers
of 27, but entry 12 is `27 ^ 12 + 15` and entry 13 is `27 ^ 13 - 11`. Entry 12 is the
weight of the thirteenth tryte group, so the value `(3 ^ 36 + 1) / 2`, which is encoded in
13 groups, decodes to a value that is 15 too large. -/
theorem Pow27LUT_last_entries :
    Pow27LUT.length = 14 ∧ (∀ i, i < 12 → Pow27LUT.getD i 0 = 27 ^ i) ∧
      Pow27LUT.getD 12 0 = 27 ^ 12 + 15 ∧ Pow27LUT.getD 12 0 ≠ 27 ^ 12 ∧
      Pow27LUT.getD 13 0 = 27 ^ 13 - 11 ∧ Pow27LUT.getD 13 0 ≠ 27 ^ 13 ∧
      (EncodeInt64 ((3 ^ 36 + 1) / 2) >>= fun p => DecodeInt64 p.1) =
        .ok ((3 ^ 36 + 1) / 2 + 15, 48) := by
  refine ⟨rfl, pow27LUT_getD, by decide, by decide, by decide, by decide, ?_⟩
  have e1 : ((3 : Int) ^ 36 + 1) / 2 = 75047317648499561 := by norm_num
  rw [e1]
  exact DecodeInt64_thirteen_groups

/-! ## The full adder -/

/-- C33: for trits `a`, `b`, `c`, `fullAdd a b c` is a pair `(s, carry)` of trits with
`s + 3 * carry = a + b + c`; for trits `a`, `b`, `Sum a b` is `a + b` with 2 wrapped to -1
and -2 to 1, `cons a b` is `a` if `a = b` and 0 otherwise, and `any a b` is the sign of
`a + b`. -/
theorem fullAdd_is_full_adder (a b c : Int) (ha : -1 ≤ a ∧ a ≤ 1) (hb : -1 ≤ b ∧ b ≤ 1)
    (hc : -1 ≤ c ∧ c ≤ 1) :
    (-1 ≤ (fullAdd a b c).1 ∧ (fullAdd a b c).1 ≤ 1) ∧
      (-1 ≤ (fullAdd a b c).2 ∧ (fullAdd a b c).2 ≤ 1) ∧
      (fullAdd a b c).1 + 3 * (fullAdd a b c).2 = a + b + c ∧
      Sum a b = (if a + b = 2 then -1 else if a + b = -2 then 1 else a + b) ∧
      cons a b = (if a = b then a else 0) ∧
      any a b = Int.sign (a + b) := by
  obtain ⟨r1, r2, r3⟩ := fullAdd_spec a b c ha hb hc
  refine ⟨r2, r3, r1, ?_, rfl, ?_⟩
  · have hw : wrapInt8 (a + b) = a + b := wrapInt8_of_range (by omega) (by omega)
    simp only [Sum, hw]
  · have hw : wrapInt8 (a + b) = a + b := wrapInt8_of_range (by omega) (by omega)
    simp only [any, hw]
    have ea : a = -1 ∨ a = 0 ∨ a = 1 := by omega
    have eb : b = -1 ∨ b = 0 ∨ b = 1 := by omega
    rcases ea with rfl | rfl | rfl <;> rcases eb with rfl | rfl | rfl <;> decide

theorem fullAdd_is_full_adder_witness :
    (-1 ≤ (fullAdd 1 1 (-1)).1 ∧ (fullAdd 1 1 (-1)).1 ≤ 1) ∧
      (-1 ≤ (fullAdd 1 1 (-1)).2 ∧ (fullAdd 1 1 (-1)).2 ≤ 1) ∧
      (fullAdd 1 1 (-1)).1 + 3 * (fullAdd 1 1 (-1)).2 = 1 + 1 + -1 ∧
      Sum 1 1 = (if (1 : Int) + 1 = 2 then -1 else if (1 : Int) + 1 = -2 then 1 else 1 + 1) ∧
      cons 1 1 = (if (1 : Int) = 1 then 1 else 0) ∧
      any 1 1 = Int.sign (1 + 1) :=
  fullAdd_is_full_adder 1 1 (-1) (by decide) (by decide) (by decide)

/-! ## Trailing trits after an encoded integer -/

/-- C34: for every int64 `v` with `|v| ≤ (3 ^ 36 - 1) / 2` and every sequence `s`,
`EncodeInt64 v` succeeds with trits `t` of size `EncodedLength v`, and
`DecodeInt64 (t ++ s)` returns `(v, EncodedLength v, nil)`. -/
theorem DecodeInt64_ignores_trailing_trits (v : Int) (hv : v.natAbs ≤ (3 ^ 36 - 1) / 2)
    (s : Trits) :
    ∃ t size, EncodeInt64 v = .ok (t, size) ∧ size = EncodedLength v ∧ t.length = size ∧
      DecodeInt64 (t ++ s) = .ok (v, EncodedLength v) := by
  obtain ⟨t, r1, r2, _, r4⟩ := EncodeInt64_DecodeInt64_append v hv s
  exact ⟨t, _, r1, rfl, r2, r4⟩

theorem DecodeInt64_ignores_trailing_trits_witness :
    ∃ t size, EncodeInt64 (-365) = .ok (t, size) ∧ size = EncodedLength (-365) ∧
      t.length = size ∧
      DecodeInt64 (t ++ [1, -1, 0, 1, 1]) = .ok (-365, EncodedLength (-365)) :=
  DecodeInt64_ignores_trailing_trits (-365) (by decide) [1, -1, 0, 1, 1]

/-! ## Integers to trytes and back -/

theorem TrytesToInt_skip_cons (c : Nat) (cs : Trytes) : ∀ m,
    TrytesToInt.skip (c :: cs) (m + 1) =
      if TrytesToInt.skip cs m = 0 then (if c ≠ 57 then 1 else 0)
      else TrytesToInt.skip cs m + 1 := by
  intro m
  induction m with
  | zero =>
    simp only [TrytesToInt.skip, List.getD_cons_zero, if_true]
  | succ m ih =>
    have hstep : TrytesToInt.skip (c :: cs) (m + 1 + 1) =
        if cs.getD m 0 ≠ 57 then m + 1 + 1 else TrytesToInt.skip (c :: cs) (m + 1) := by
      rw [TrytesToInt.skip, List.getD_cons_succ]
    rw [hstep]
    by_cases h9 : cs.getD m 0 ≠ 57
    · have e : TrytesToInt.skip cs (m + 1) = m + 1 := by
        simp only [TrytesToInt.skip, if_pos h9]
      rw [if_pos h9, e, if_neg (by omega)]
    · have e : TrytesToInt.skip cs (m + 1) = TrytesToInt.skip cs m := by
        simp only [TrytesToInt.skip, if_neg h9]
      rw [if_neg h9, e, ih]

theorem TrytesToInt_sum_cons (c : Nat) (cs : Trytes) : ∀ m val,
    TrytesToInt.sum (c :: cs) (m + 1) val =
      (TrytesToInt.sum cs m val >>= fun v1 =>
        MustTryteToTryteValue c >>= fun d => .ok (wrapInt64 (v1 * 27 + d))) := by
  intro m
  induction m with
  | zero =>
    intro val
    simp only [TrytesToInt.sum, List.getD_cons_zero, ok_bind, TryteRadix]
    rfl
  | succ m ih =>
    intro val
    have hstep : TrytesToInt.sum (c :: cs) (m + 1 + 1) val =
        (MustTryteToTryteValue (cs.getD m 0) >>= fun d =>
          TrytesToInt.sum (c :: cs) (m + 1) (wrapInt64 (val * (TryteRadix : Int) + d))) := by
      rw [TrytesToInt.sum, List.getD_cons_succ]
    have hstep2 : TrytesToInt.sum cs (m + 1) val =
        (MustTryteToTryteValue (cs.getD m 0) >>= fun d =>
          TrytesToInt.sum cs m (wrapInt64 (val * (TryteRadix : Int) + d))) := by
      rw [TrytesToInt.sum]
    rw [hstep, hstep2]
    cases MustTryteToTryteValue (cs.getD m 0) with
    | error e => rfl
    | ok d =>
      simp only [ok_bind]
      exact ih _

theorem TrytesToInt_cons (c : Nat) (cs : Trytes) :
    TrytesToInt (c :: cs) =
      (TrytesToInt cs >>= fun v1 =>
        MustTryteToTryteValue c >>= fun d => .ok (wrapInt64 (v1 * 27 + d))) := by
  unfold TrytesToInt
  rw [List.length_cons, TrytesToInt_skip_cons]
  by_cases h0 : TrytesToInt.skip cs cs.length = 0
  · rw [if_pos h0, h0]
    by_cases h9 : c ≠ 57
    · rw [if_pos h9, TrytesToInt_sum_cons]
    · have e : c = 57 := by omega
      subst e
      rw [if_neg h9]
      rfl
  · rw [if_neg h0, TrytesToInt_sum_cons]

theorem tryte_of_value (d : Int) (h1 : -13 ≤ d) (h2 : d ≤ 13) :
    ∃ c, MustTryteValueToTryte d = .ok c ∧ MustTryteToTryteValue c = .ok d ∧
      c ∈ tryteAlphabet := by
  interval_cases d <;> exact ⟨_, rfl, rfl, by decide⟩

theorem step27 (v k : Nat) (h : 2 * v + 1 ≤ 27 ^ (k + 1)) : 2 * ((v + 13) / 27) + 1 ≤ 27 ^ k := by
  have hodd := pow27_odd k
  rw [pow_succ] at h
  omega

theorem IntToTrytes_loop_TrytesToInt (neg : Bool) : ∀ n v, v < 2 ^ 63 → 2 * v + 1 ≤ 27 ^ n →
    ∃ s, IntToTrytes.loop neg n v = .ok s ∧ s.length = n ∧ (∀ c ∈ s, c ∈ tryteAlphabet) ∧
      TrytesToInt s = .ok (if neg then -(v : Int) else (v : Int)) ∧
      ∀ i, i < n → 2 * v + 1 ≤ 27 ^ i → s.getD i 0 = 57 := by
  intro n
  induction n with
  | zero =>
    intro v _ hv
    have e : v = 0 := by simpa using hv
    subst e
    refine ⟨[], rfl, rfl, ?_, ?_, ?_⟩
    · intro c hc
      cases hc
    · cases neg <;> rfl
    · intro i hi
      omega
  | succ n ih =>
    intro v hv hpow
    have hv2 := step27 v n hpow
    obtain ⟨s, r1, r2, r3, r4, r5⟩ := ih ((v + 13) / 27) (by omega) hv2
    by_cases hz : v = 0
    · subst hz
      have r1z : IntToTrytes.loop neg n 0 = .ok s := r1
      have r4z : TrytesToInt s = .ok 0 := by
        rw [r4]
        cases neg <;> rfl
      refine ⟨57 :: s, ?_, by rw [List.length_cons, r2], ?_, ?_, ?_⟩
      · simp only [IntToTrytes.loop, if_true, r1z, ok_bind, pure_eq_ok]
      · intro c hc
        rcases List.mem_cons.mp hc with e | hc2
        · rw [e]; decide
        · exact r3 c hc2
      · rw [TrytesToInt_cons, r4z]
        cases neg <;> rfl
      · intro i hi _
        cases i with
        | zero => rfl
        | succ i =>
          rw [List.getD_cons_succ]
          exact r5 i (by omega) (by
            have : 1 ≤ 27 ^ i := Nat.one_le_pow _ _ (by decide)
            omega)
    · have hw : (v + TryteRadix / 2) % 2 ^ 64 = v + 13 := by
        simp only [TryteRadix]
        omega
      have hd := digits27_allDigits neg (n + 1) v
      simp only [digits27] at hd
      rw [allDigits_cons] at hd
      obtain ⟨c, c1, c2, c3⟩ := tryte_of_value _ hd.1.1 hd.1.2
      have ht : (if neg = true then
            wrapInt8 (-wrapInt8 (wrapInt8 (((v + 13) % TryteRadix : Nat) : Int) - ((TryteRadix / 2 : Nat) : Int)))
          else wrapInt8 (wrapInt8 (((v + 13) % TryteRadix : Nat) : Int) - ((TryteRadix / 2 : Nat) : Int))) =
          (if neg = true then -((((v + 13) % 27 : Nat) : Int) - 13)
            else (((v + 13) % 27 : Nat) : Int) - 13) := by
        simp only [TryteRadix, wrapInt8]
        cases neg <;> simp <;> omega
      refine ⟨c :: s, ?_, by rw [List.length_cons, r2], ?_, ?_, ?_⟩
      · simp only [IntToTrytes.loop, if_neg hz, hw, ht, c1, ok_bind, pure_eq_ok]
        simp only [TryteRadix, r1, ok_bind]
      · intro x hx
        rcases List.mem_cons.mp hx with e | hx2
        · rw [e]; exact c3
        · exact r3 x hx2
      · rw [TrytesToInt_cons, r4, ok_bind, c2, ok_bind]
        have hdiv : v + 13 = 27 * ((v + 13) / 27) + (v + 13) % 27 := (Nat.div_add_mod _ _).symm
        cases neg
        · simp only [Bool.false_eq_true, if_false]
          rw [wrapInt64_of_range (by omega) (by omega)]
          congr 1
          omega
        · simp only [if_true]
          rw [wrapInt64_of_range (by omega) (by omega)]
          congr 1
          omega
      · intro i hi hi2
        cases i with
        | zero =>
          simp only [pow_zero] at hi2
          omega
        | succ i =>
          rw [List.getD_cons_succ]
          exact r5 i (by omega) (step27 v i hi2)

/-- C36: for every int64 `v` other than the smallest and every count
`n ≥ ceil(MinTrits v / 3)`, `IntToTrytes v n` is a string of exactly `n` tryte characters,
`TrytesToInt` of it is `v`, and every position from `ceil(MinTrits v / 3)` on holds
`'9'`. -/
theorem IntToTrytes_then_TrytesToInt (v : Int) (hv : IsInt64 v) (hmin : v ≠ minInt64) (n : Nat)
    (hn : (MinTrits v + 2) / 3 ≤ n) :
    ∃ s, IntToTrytes v n = .ok s ∧ s.length = n ∧ (∀ c ∈ s, c ∈ tryteAlphabet) ∧
      TrytesToInt s = .ok v ∧
      ∀ i, (MinTrits v + 2) / 3 ≤ i → i < n → s.getD i 0 = 57 := by
  have hne : v ≠ -2 ^ 63 := hmin
  have hv2 : -2 ^ 63 ≤ v ∧ v < 2 ^ 63 := hv
  have habs : v.natAbs < 2 ^ 63 := by omega
  obtain ⟨m1, _, _⟩ := MinTrits_spec v (by omega)
  have h2 := two_mul_maxAbs (MinTrits v)
  have hpow : ∀ i, (MinTrits v + 2) / 3 ≤ i → 2 * v.natAbs + 1 ≤ 27 ^ i := by
    intro i hi
    have h3 : 3 ^ MinTrits v ≤ 3 ^ (3 * i) := Nat.pow_le_pow_right (by decide) (by omega)
    have h4 : 3 ^ (3 * i) = 27 ^ i := by rw [pow_mul]; norm_num
    omega
  obtain ⟨s, r1, r2, r3, r4, r5⟩ :=
    IntToTrytes_loop_TrytesToInt (decide (v < 0)) n v.natAbs habs (hpow n hn)
  refine ⟨s, r1, r2, r3, ?_, fun i hi hi2 => r5 i hi2 (hpow i hi)⟩
  rw [r4]
  congr 1
  by_cases hneg : v < 0
  · simp only [hneg, decide_True, if_true]
    omega
  · simp only [hneg, decide_False, Bool.false_eq_true, if_false]
    omega

set_option maxRecDepth 100000 in
theorem IntToTrytes_then_TrytesToInt_witness :
    ∃ s, IntToTrytes (-365) 4 = .ok s ∧ s.length = 4 ∧ (∀ c ∈ s, c ∈ tryteAlphabet) ∧
      TrytesToInt s = .ok (-365) ∧
      ∀ i, (MinTrits (-365) + 2) / 3 ≤ i → i < 4 → s.getD i 0 = 57 :=
  IntToTrytes_then_TrytesToInt (-365) (by unfold IsInt64; decide) (by decide) 4 (by decide)

/-! ## The bound on the tryte groups that the decoder sums -/

theorem DecodeInt64_scan_first_pos (t : Trits) (k : Nat) (hlen : 3 * k + 3 ≤ t.length)
    (hneg : ∀ j, j < k → TritsToInt ((t.drop (3 * j)).take 3) ≤ 0)
    (hpos : 0 < TritsToInt ((t.drop (3 * k)).take 3)) :
    ∀ j i fuel, i + j = k → j < fuel → DecodeInt64.scan t fuel (3 * i) = .ok (3 * k) := by
  have hslice : ∀ i, i ≤ k →
      slice t (3 * i) (3 * i + TrinaryRadix) = .ok ((t.drop (3 * i)).take 3) := by
    intro i hi
    have hb : 3 * i ≤ 3 * i + TrinaryRadix ∧ 3 * i + TrinaryRadix ≤ t.length := by
      simp only [TrinaryRadix]; omega
    rw [slice, if_pos hb]
    simp only [TrinaryRadix, Nat.add_sub_cancel_left]
  intro j
  induction j with
  | zero =>
    intro i fuel hi hfuel
    have e : i = k := by omega
    subst e
    cases fuel with
    | zero => omega
    | succ f =>
      have hc : 3 * i < t.length := by omega
      have hn : ¬ TritsToInt ((t.drop (3 * i)).take 3) ≤ 0 := by omega
      simp only [DecodeInt64.scan, if_pos hc, hslice i (le_refl _), ok_bind, if_neg hn]
  | succ j ih =>
    intro i fuel hi hfuel
    cases fuel with
    | zero => omega
    | succ f =>
      have hc : 3 * i < t.length := by omega
      have hstep : 3 * i + TrinaryRadix = 3 * (i + 1) := by simp only [TrinaryRadix]; omega
      have hs := hslice i (by omega)
      rw [hstep] at hs
      simp only [DecodeInt64.scan, if_pos hc, hstep, hs, ok_bind, if_pos (hneg i (by omega))]
      exact ih (i + 1) f (by omega) (by omega)

theorem sumWithTable_eq_sum (lut : List Int) (hlen : 13 ≤ lut.length)
    (hval : ∀ i, i < 13 → lut.getD i 0 = Pow27LUT.getD i 0) (t : Trits) (encoding : Int) :
    ∀ n i value, i + n ≤ 13 →
      sumWithTable lut t encoding n i value = DecodeInt64.sum t encoding n i value := by
  intro n
  induction n with
  | zero => intro i value _; rfl
  | succ n ih =>
    intro i value hi
    have h1 : ¬ i ≥ lut.length := by omega
    have hl : Pow27LUT.length = 14 := rfl
    have h2 : ¬ i ≥ Pow27LUT.length := by omega
    simp only [sumWithTable, DecodeInt64.sum, if_neg h1, if_neg h2, hval i (by omega)]
    refine bind_congr ?_
    intro g
    exact ih _ _ (by omega)

theorem decodeWithTable_eq (lut : List Int) (hlen : 13 ≤ lut.length)
    (hval : ∀ i, i < 13 → lut.getD i 0 = Pow27LUT.getD i 0) (t : Trits) :
    decodeWithTable lut t = DecodeInt64 t := by
  simp only [decodeWithTable, DecodeInt64]
  refine bind_congr ?_
  intro head
  refine bind_congr ?_
  intro equal
  split_ifs with h1
  · rfl
  · refine bind_congr ?_
    intro encodingStart
    split_ifs with h2 h3
    · rfl
    · rfl
    · refine bind_congr ?_
      intro encTrits
      rw [sumWithTable_eq_sum lut hlen hval t _ _ 0 0 (by omega)]

/-- C32: let `t` be a buffer of valid trits whose tryte groups `0, ..., k - 1` have values
of at most 0 and whose group `k` has a positive value, with `k ≥ 13`, and let `t` hold the
encoding region of `MinTrits ((1 << (k + 1)) - 1)` trits after group `k`. Then
`DecodeInt64 t` returns the error of its bound check. Hence the summation runs over at
most 13 groups: on every buffer the decoder gives the same result with any table that has
at least 13 entries and agrees with `Pow27LUT` on the indices 0 to 12, so it reads no
entry beyond index 12 of the 14 entries. -/
theorem DecodeInt64_group_bound (t : Trits) (k : Nat) (hvalid : ∀ x ∈ t, ValidTrit x = true)
    (hneg : ∀ j, j < k → TritsToInt ((t.drop (3 * j)).take 3) ≤ 0)
    (hpos : 0 < TritsToInt ((t.drop (3 * k)).take 3)) (hk : 13 ≤ k)
    (hlen : 3 * (k + 1) + MinTrits (maskInt64 (k + 1)) ≤ t.length) :
    DecodeInt64 t = .error (.errorsNew "encodingStart/TrinaryRadix > 13") ∧
      Pow27LUT.length = 14 ∧
      ∀ (u : Trits) (lut : List Int), 13 ≤ lut.length →
        (∀ i, i ≤ 12 → lut.getD i 0 = Pow27LUT.getD i 0) → decodeWithTable lut u = DecodeInt64 u := by
  refine ⟨?_, rfl, fun u lut h1 h2 => decodeWithTable_eq lut h1 (fun i hi => h2 i (by omega)) u⟩
  have hall : AllTrits t := fun x hx => (validTrit_iff x).mp (hvalid x hx)
  have hc : 0 ≤ 4 ∧ 4 ≤ t.length := by omega
  have hs : slice t 0 4 = .ok (t.take 4) := by
    rw [slice, if_pos hc, List.drop_zero, Nat.sub_zero]
  have hl4 : (t.take 4).length = 4 := by rw [List.length_take]; omega
  have hne : t.take 4 ≠ [] := by
    intro e; rw [e] at hl4; simp at hl4
  have hv : ValidTrits (t.take 4) = none :=
    validTrits_of_allTrits hne (fun x hx => hall x (List.mem_of_mem_take hx))
  have hlne : ¬ (t.take 4).length ≠ encodedZero.length := by rw [hl4]; decide
  have hzero : t.take 4 ≠ encodedZero := by
    intro e
    have h0 := hneg 0 (by omega)
    have e3 : (t.drop (3 * 0)).take 3 = (t.take 4).take 3 := by
      rw [List.take_take]
      rfl
    rw [e3, e] at h0
    exact absurd h0 (by decide)
  have heq : TritsEqual (t.take 4) encodedZero = .ok false := by
    simp only [TritsEqual, hv, validTrits_encodedZero, if_neg hlne, hzero, decide_False]
  have hscan := DecodeInt64_scan_first_pos t k (by omega) hneg hpos k 0 (t.length + 1)
    (by omega) (by omega)
  simp only [Nat.mul_zero] at hscan
  have hlt : ¬ 3 * k ≥ t.length := by omega
  have hdiv : (3 * k + TrinaryRadix) / TrinaryRadix = k + 1 := by
    simp only [TrinaryRadix]; omega
  have hb : 3 * k + TrinaryRadix ≤ 3 * k + TrinaryRadix + MinTrits (maskInt64 (k + 1)) ∧
      3 * k + TrinaryRadix + MinTrits (maskInt64 (k + 1)) ≤ t.length := by
    simp only [TrinaryRadix]; omega
  have hs2 : slice t (3 * k + TrinaryRadix)
      (3 * k + TrinaryRadix + MinTrits (maskInt64 (k + 1))) =
      .ok ((t.drop (3 * k + TrinaryRadix)).take
        (3 * k + TrinaryRadix + MinTrits (maskInt64 (k + 1)) - (3 * k + TrinaryRadix))) := by
    rw [slice, if_pos hb]
  have hguard : k + 1 > 13 := by omega
  simp only [DecodeInt64, hs, ok_bind, heq, Bool.false_eq_true, if_false, hscan, if_neg hlt,
    hdiv, hs2, if_pos hguard]

set_option maxRecDepth 100000 in
theorem DecodeInt64_group_bound_witness :
    DecodeInt64 (List.replicate 39 0 ++ [1, 0, 0] ++ List.replicate 10 0) =
      .error (.errorsNew "encodingStart/TrinaryRadix > 13") :=
  (DecodeInt64_group_bound (List.replicate 39 0 ++ [1, 0, 0] ++ List.replicate 10 0) 13
    (by decide)
    (fun j hj => by
      have hj2 : j = 0 ∨ j = 1 ∨ j = 2 ∨ j = 3 ∨ j = 4 ∨ j = 5 ∨ j = 6 ∨ j = 7 ∨ j = 8 ∨
          j = 9 ∨ j = 10 ∨ j = 11 ∨ j = 12 := by omega
      rcases hj2 with rfl | rfl | rfl | rfl | rfl | rfl | rfl | rfl | rfl | rfl | rfl | rfl | rfl <;>
        decide)
    (by decide) (by decide) (by decide)).1

/-! ## Trits to bytes and back, for any length -/

theorem tritsVal_inj : ∀ (a b : Trits), AllTrits a → AllTrits b → a.length = b.length →
    tritsVal a = tritsVal b → a = b := by
  intro a
  induction a with
  | nil =>
    intro b _ _ hl _
    cases b with
    | nil => rfl
    | cons y ys => cases hl
  | cons x xs ih =>
    intro b ha hb hl hv
    cases b with
    | nil => cases hl
    | cons y ys =>
      rw [allTrits_cons] at ha hb
      simp only [tritsVal] at hv
      have hxy : x = y := by omega
      subst hxy
      have htail : tritsVal xs = tritsVal ys := by omega
      rw [ih ys ha.2 hb.2 (by simpa using hl) htail]

theorem shortValue_eq_tritsVal (g : Trits) : MustTritsToBytes.shortValue g = tritsVal g := by
  induction g with
  | nil => rfl
  | cons x rest ih =>
    simp only [MustTritsToBytes.shortValue, tritsVal, ih, TrinaryRadix]
    rfl

/-- The byte of a group of at most five trits, and the row of `bytesToTritsLUT` that it
selects: the group followed by zeros. -/
theorem byte_of_group (g : Trits) (hg : AllTrits g) (hlen : g.length ≤ 5) :
    intToByte (tritsVal g) < 256 ∧
      (-121 ≤ byteToInt8 (intToByte (tritsVal g)) ∧ byteToInt8 (intToByte (tritsVal g)) ≤ 121) ∧
      bytesToTritsLUT.getD (intToByte (tritsVal g)) [] = g ++ List.replicate (5 - g.length) 0 := by
  have hb := tritsVal_bound g hg
  have hp : (3 : Int) ^ g.length ≤ 3 ^ 5 := pow_le_pow_right₀ (by norm_num) hlen
  have hp5 : (3 : Int) ^ 5 = 243 := by norm_num
  have habs : -121 ≤ tritsVal g ∧ tritsVal g ≤ 121 := by
    rcases abs_cases (tritsVal g) with ⟨h, _⟩ | ⟨h, _⟩ <;> omega
  have h256 : intToByte (tritsVal g) < 256 := by
    unfold intToByte
    omega
  have hval : byteToInt8 (intToByte (tritsVal g)) = tritsVal g := by
    unfold byteToInt8 intToByte wrapInt8
    omega
  have hrange : -121 ≤ byteToInt8 (intToByte (tritsVal g)) ∧
      byteToInt8 (intToByte (tritsVal g)) ≤ 121 := by
    rw [hval]
    exact habs
  refine ⟨h256, hrange, ?_⟩
  obtain ⟨r1, r2, _⟩ := byte_row_spec _ h256 hrange
  have r3 := byte_row_value _ h256 hrange
  rw [hval] at r3
  apply tritsVal_inj _ _ (allTrits_of_all r2)
    (allTrits_append.mpr ⟨hg, allTrits_replicate_zero _⟩)
  · rw [r1, List.length_append, List.length_replicate]
    omega
  · rw [r3, tritsVal_append_zeros]

theorem MustTritsToBytes_short (g : Trits) (hne : g ≠ []) (hlen : g.length < 5) :
    MustTritsToBytes g = [intToByte (tritsVal g)] := by
  rw [← shortValue_eq_tritsVal]
  match g, hne, hlen with
  | [], hne, _ => exact absurd rfl hne
  | [_], _, _ => rfl
  | [_, _], _, _ => rfl
  | [_, _, _], _, _ => rfl
  | [_, _, _, _], _, _ => rfl
  | _ :: _ :: _ :: _ :: _ :: _, _, hlen => simp at hlen; omega

/-- What `MustTritsToBytes` packs is unpacked by the table to the same trits, followed by
the zeros that complete the last group. -/
theorem MustTritsToBytes_spec : ∀ (n : Nat) (t : Trits), t.length ≤ n → AllTrits t →
    unpackAll (MustTritsToBytes t) =
        t ++ List.replicate (5 * ((t.length + 4) / 5) - t.length) 0 ∧
      (MustTritsToBytes t).length = (t.length + 4) / 5 ∧
      ∀ b ∈ MustTritsToBytes t, b < 256 ∧ -121 ≤ byteToInt8 b ∧ byteToInt8 b ≤ 121 := by
  intro n
  induction n with
  | zero =>
    intro t hl _
    have e : t = [] := List.length_eq_zero.mp (by omega)
    subst e
    exact ⟨rfl, rfl, fun b hb => by cases hb⟩
  | succ n ih =>
    intro t hl ht
    by_cases h5 : t.length < 5
    · by_cases hne : t = []
      · subst hne
        exact ⟨rfl, rfl, fun b hb => by cases hb⟩
      · have hpos : 0 < t.length := List.length_pos.mpr hne
        obtain ⟨g1, g2, g3⟩ := byte_of_group t ht (by omega)
        rw [MustTritsToBytes_short t hne h5]
        have hq : (t.length + 4) / 5 = 1 := by omega
        refine ⟨?_, ?_, ?_⟩
        · simp only [unpackAll, List.append_nil, g3, hq]
        · rw [hq]
          rfl
        · intro b hb
          rw [List.mem_singleton] at hb
          subst hb
          exact ⟨g1, g2⟩
    · match t, hl, ht, h5 with
      | [], _, _, h5 => simp at h5
      | [_], _, _, h5 => simp at h5
      | [_, _], _, _, h5 => simp at h5
      | [_, _, _], _, _, h5 => simp at h5
      | [_, _, _, _], _, _, h5 => simp at h5
      | t0 :: t1 :: t2 :: t3 :: t4 :: rest, hl, ht, _ =>
        have hsplit : t0 :: t1 :: t2 :: t3 :: t4 :: rest = [t0, t1, t2, t3, t4] ++ rest := rfl
        have hg : AllTrits [t0, t1, t2, t3, t4] := by
          rw [hsplit] at ht
          exact (allTrits_append.mp ht).1
        have hr : AllTrits rest := by
          rw [hsplit] at ht
          exact (allTrits_append.mp ht).2
        have hlr : rest.length ≤ n := by
          simp only [List.length_cons] at hl
          omega
        obtain ⟨r1, r2, r3⟩ := ih rest hlr hr
        obtain ⟨g1, g2, g3⟩ := byte_of_group [t0, t1, t2, t3, t4] hg (by simp)
        have hv : t0 + t1 * 3 + t2 * 9 + t3 * 27 + t4 * 81 = tritsVal [t0, t1, t2, t3, t4] := by
          simp only [tritsVal]
          ring
        have hm : MustTritsToBytes (t0 :: t1 :: t2 :: t3 :: t4 :: rest) =
            intToByte (tritsVal [t0, t1, t2, t3, t4]) :: MustTritsToBytes rest := by
          rw [MustTritsToBytes, hv]
        have hq : ((t0 :: t1 :: t2 :: t3 :: t4 :: rest).length + 4) / 5 =
            (rest.length + 4) / 5 + 1 := by
          simp only [List.length_cons]
          omega
        rw [hm]
        refine ⟨?_, ?_, ?_⟩
        · have hpad : 5 * ((rest.length + 4) / 5 + 1) -
              (t0 :: t1 :: t2 :: t3 :: t4 :: rest).length =
              5 * ((rest.length + 4) / 5) - rest.length := by
            simp only [List.length_cons]
            omega
          rw [hq, hpad]
          simp only [unpackAll, g3, r1, List.length_cons, List.length_nil]
          simp
        · rw [List.length_cons, r2, hq]
        · intro b hb
          rcases List.mem_cons.mp hb with e | hb2
          · rw [e]
            exact ⟨g1, g2⟩
          · exact r3 b hb2

/-- C35: for every non-empty sequence `t` of valid trits, of any length, `TritsToBytes t`
succeeds with exactly `ceil(len(t) / 5)` bytes, these pass `ValidBytesForTrits`, and
`BytesToTrits` of them with the number of trits `len(t)` succeeds and returns `t`. -/
theorem TritsToBytes_then_BytesToTrits (t : Trits) (hne : t ≠ [])
    (hvalid : ∀ x ∈ t, ValidTrit x = true) :
    ∃ bytes, TritsToBytes t = .ok bytes ∧ bytes.length = (t.length + 4) / 5 ∧
      ValidBytesForTrits bytes = none ∧
      BytesToTrits bytes (some (t.length : Int)) = .ok t := by
  have hall : AllTrits t := fun x hx => (validTrit_iff x).mp (hvalid x hx)
  obtain ⟨r1, r2, r3⟩ := MustTritsToBytes_spec t.length t (le_refl _) hall
  have hvb : ValidBytesForTrits (MustTritsToBytes t) = none :=
    validBytesForTrits_of_range _ (fun b hb => (r3 b hb).2)
  have hrows : ∀ b ∈ MustTritsToBytes t, (bytesToTritsLUT.getD b []).length = 5 :=
    fun b hb => (byte_row_spec b (r3 b hb).1 (r3 b hb).2).1
  have hpos : 0 < t.length := List.length_pos.mpr hne
  refine ⟨MustTritsToBytes t, ?_, r2, hvb, ?_⟩
  · simp only [TritsToBytes, validTrits_of_allTrits hne hall]
  · generalize hB : MustTritsToBytes t = bytes at r1 r2 hvb hrows
    have hloop := MustBytesToTrits_loop_spec bytes 0 [] hrows rfl
    simp only [List.nil_append] at hloop
    have hmin : ¬ (t.length : Int) <
        ((bytes.length : Int) - 1) * ((NumberOfTritsInAByte : Nat) : Int) + 1 := by
      simp only [NumberOfTritsInAByte]
      push_cast
      omega
    have htake : (unpackAll bytes).take t.length = t := by
      rw [r1, List.take_left]
    have hul : (unpackAll bytes).length = 5 * bytes.length := unpackAll_length bytes hrows
    have hsl : slice (unpackAll bytes) 0 t.length = .ok t := by
      have hc : 0 ≤ t.length ∧ t.length ≤ (unpackAll bytes).length := by omega
      rw [slice, if_pos hc, List.drop_zero, Nat.sub_zero, htake]
    simp only [BytesToTrits, hvb, if_neg hmin, MustBytesToTrits]
    by_cases hlt : (t.length : Int) < ((bytes.length * NumberOfTritsInAByte : Nat) : Int)
    · have hdiv : Int.tdiv ((t.length : Int) + ((NumberOfTritsInAByte : Nat) : Int) - 1)
          ((NumberOfTritsInAByte : Nat) : Int) = (bytes.length : Int) := by
        simp only [NumberOfTritsInAByte]
        rw [Int.tdiv_eq_ediv (by omega) (by omega)]
        push_cast
        omega
      have hnn : ¬ (bytes.length : Int) < 0 := by omega
      have hnn2 : ¬ (t.length : Int) < 0 := by omega
      have hrep : ((bytes.length : Int) * ((NumberOfTritsInAByte : Nat) : Int)).toNat =
          bytes.length * 5 := by
        simp only [NumberOfTritsInAByte]
        omega
      simp only [if_pos hlt, hdiv, if_neg hnn, Int.toNat_ofNat, slice_zero_length, ok_bind,
        hrep, hloop, if_neg hnn2, hsl]
    · have hrep : t.length = bytes.length * 5 := by
        simp only [NumberOfTritsInAByte] at hlt
        push_cast at hlt
        omega
      simp only [if_neg hlt, Int.toNat_ofNat]
      rw [hrep] at hsl ⊢
      simp only [hloop, ok_bind, hsl]

set_option maxRecDepth 100000 in
theorem TritsToBytes_then_BytesToTrits_witness :
    ∃ bytes, TritsToBytes [1, -1, 0, 1, 1, -1, 1] = .ok bytes ∧
      bytes.length = (([1, -1, 0, 1, 1, -1, 1] : Trits).length + 4) / 5 ∧
      ValidBytesForTrits bytes = none ∧
      BytesToTrits bytes (some ((([1, -1, 0, 1, 1, -1, 1] : Trits).length : Nat) : Int)) =
        .ok [1, -1, 0, 1, 1, -1, 1] :=
  TritsToBytes_then_BytesToTrits [1, -1, 0, 1, 1, -1, 1] (by decide) (by decide)

end Iota
